import Mathlib

/-!
# glox scanner: a shallow embedding of `scanner/scanner.go` and `token/token.go`

Conventions of the embedding.

* A Go `string` is a sequence of bytes; a byte is modelled as a natural number
  (its value, `0 .. 255`) and a string as a `List Nat`.  Byte constants are
  written as numbers, with the character in a comment.
* The mutable `Scanner` receiver becomes an explicit state that every method
  takes and returns.
* Indexing `s.source[i]` and slicing `s.source[a:b]` panic in Go when out of
  range; the embedding keeps the check and returns `Res.panic`.
* Every `for` loop takes a `fuel` argument bounding the number of iterations
  of the loop body; when the loop condition still holds and no fuel is left
  the result is `Res.timeout s`, `s` being the state reached.
* The `onError` callback is modelled by the list of its invocations, in order.
* A `float64` is modelled exactly, by its mantissa and exponent.
  `strconv.ParseFloat` belongs to the Go standard library; `ParseFloat` below
  computes, with IEEE 754 rounding to nearest, ties to even, what it returns
  on the texts `number` passes to it.
-/

namespace Glox

/-- Modelled from the spec: the type `token.Type` and its constants are
declared in a file that is not at hand.  The glossary gives the closed set of
token categories; the constants below are the ones `scanner.go` names, and
`KEYWORD k` stands for the category of the `k`-th reserved word, which only
the keyword table mentions. -/
inductive TokenType where
  | LEFT_PAREN | RIGHT_PAREN | LEFT_BRACE | RIGHT_BRACE
  | COMMA | DOT | MINUS | PLUS | SEMICOLON | STAR | SLASH
  | BANG | BANG_EQUAL | EQUAL | EQUAL_EQUAL
  | LESS | LESS_EQUAL | GREATER | GREATER_EQUAL
  | STRING | NUMBER | IDENTIFIER | EOF
  | KEYWORD (k : Nat)
  deriving DecidableEq, Repr

/-- A non-negative `float64`, the only kind of `float64` that `number` stores.
`finite m e` is the number `m * 2^e / 2^1074`, with `m < 2^53` and `e ≤ 2045`
(`e = 0` for zero and the subnormal numbers, `2^52 ≤ m` otherwise); `inf` is
`+Inf`. -/
inductive Float64 where
  | finite (m e : Nat)
  | inf
  deriving DecidableEq, Repr

/-- A value passed in the variadic `literal ...interface{}` argument of
`addToken`: a Go string or a `float64`. -/
inductive Value where
  | str (text : List Nat)
  | number (num : Float64)
  deriving DecidableEq, Repr

/-- `token.Token`.  `Literal` is an `interface{}`: `none` is the nil
interface (the `EOF` token), `some vs` is the variadic slice `literal` that
`addToken` stores (`some []` when `addToken` is called without a literal). -/
structure Token where
  Typ : TokenType
  Lexeme : List Nat
  Literal : Option (List Value)
  Line : Nat
  deriving DecidableEq, Repr

/-- The `Scanner` struct. -/
structure Scanner where
  source : List Nat
  tokens : List Token
  start : Nat
  current : Nat
  line : Nat
  deriving DecidableEq, Repr

/-- Result of running a piece of the scanner. -/
inductive Res (α : Type) where
  | ok (a : α)
  | panic
  | timeout (s : Scanner)
  deriving DecidableEq, Repr

/-- Sequencing of results. -/
def Res.bind {α β : Type} (r : Res α) (f : α → Res β) : Res β :=
  match r with
  | .ok a => f a
  | .panic => .panic
  | .timeout s => .timeout s

instance : Monad Res where
  pure := Res.ok
  bind := Res.bind

/-- One invocation of the `onError` callback: line and message. -/
abbrev Call := Nat × String

/-- Modelled from the spec: the table `keywords` that `identifier` reads is
declared in a file that is not at hand.  It is a static mapping from reserved
spellings to token categories with exact, case-sensitive lookup; `none` is
Go's `ok == false`.  The scanner takes the table as a parameter. -/
abbrev Keywords := List Nat → Option TokenType

/-- `s.source[i]`, panicking when `i` is out of range. -/
def index (source : List Nat) (i : Nat) : Res Nat :=
  match source[i]? with
  | some b => .ok b
  | none => .panic

/-- `s.source[a:b]`, panicking unless `a ≤ b ≤ len(source)`. -/
def slice (source : List Nat) (a b : Nat) : Res (List Nat) :=
  if a ≤ b ∧ b ≤ source.length then .ok ((source.drop a).take (b - a)) else .panic

/-- `New(source)`. -/
def New (source : List Nat) : Scanner :=
  { source := source, tokens := [], start := 0, current := 0, line := 1 }

/-- `isAtEnd`: `s.current >= len(s.source)`. -/
def isAtEnd (s : Scanner) : Bool :=
  decide (s.current ≥ s.source.length)

/-- `advance`: increment `current`, return the byte just passed. -/
def advance (s : Scanner) : Res (Nat × Scanner) :=
  let s1 := { s with current := s.current + 1 }
  match index s1.source (s1.current - 1) with
  | .ok b => .ok (b, s1)
  | .panic => .panic
  | .timeout t => .timeout t

/-- `addToken(tokenType, literal...)`. -/
def addToken (s : Scanner) (tokenType : TokenType) (literal : List Value) : Res Scanner :=
  match slice s.source s.start s.current with
  | .ok text =>
    .ok { s with tokens := s.tokens ++
            [{ Typ := tokenType, Lexeme := text, Literal := some literal, Line := s.line }] }
  | .panic => .panic
  | .timeout t => .timeout t

/-- `match(expected)` (the name `match` is reserved in Lean). -/
def match_ (s : Scanner) (expected : Nat) : Res (Bool × Scanner) :=
  if isAtEnd s then .ok (false, s)
  else
    match index s.source s.current with
    | .ok b =>
      if b ≠ expected then .ok (false, s)
      else .ok (true, { s with current := s.current + 1 })
    | .panic => .panic
    | .timeout t => .timeout t

/-- `peek`. -/
def peek (s : Scanner) : Res Nat :=
  if isAtEnd s then .ok 0 else index s.source s.current

/-- `peekNext`. -/
def peekNext (s : Scanner) : Res Nat :=
  if s.current + 1 ≥ s.source.length then .ok 0 else index s.source (s.current + 1)

/-- `isDigit`. -/
def isDigit (ch : Nat) : Bool :=
  decide (ch ≥ 48) && decide (ch ≤ 57)

/-- `isAlpha`. -/
def isAlpha (ch : Nat) : Bool :=
  (decide (ch ≥ 97) && decide (ch ≤ 122)) || (decide (ch ≥ 65) && decide (ch ≤ 90))
    || decide (ch = 95)

/-- `isAlphaNumeric`. -/
def isAlphaNumeric (ch : Nat) : Bool :=
  isAlpha ch || isDigit ch

/-! ### The decoder that `number` calls

`number` calls `strconv.ParseFloat` of the Go standard library.  The five
definitions below are not translated from `scanner.go`: they compute the
`float64` that the decoder returns for a decimal numeral, and `RoundsTo` further
down states, independently of them, what IEEE 754 rounding to nearest requires;
`roundFloat64_rounds` proves that the computation meets it. -/

/-- The natural number nearest to `n / d`, the even one of the two when
`n / d` lies half-way between two natural numbers. -/
def roundHalfEven (n d : Nat) : Nat :=
  let q := n / d
  let r := n % d
  if 2 * r < d then q
  else if d < 2 * r then q + 1
  else if q % 2 = 0 then q else q + 1

/-- The least exponent `e' ≥ e` with `x < 2^(e' + 53)`, looking at `fuel`
exponents at most. -/
def exponentFrom (fuel : Nat) (x e : Nat) : Nat :=
  match fuel with
  | 0 => e
  | k + 1 => if x < 2 ^ (e + 53) then e else exponentFrom k x (e + 1)

/-- The `float64` that IEEE 754 rounding to nearest, ties to even, gives for
the fraction `n / d`: the exponent is the least one that leaves at most 53
bits, the quotient is rounded to that exponent, and a result beyond the
largest `float64` is `+Inf`. -/
def roundFloat64 (n d : Nat) : Float64 :=
  let e := exponentFrom 2046 (n * 2 ^ 1074 / d) 0
  let m := roundHalfEven (n * 2 ^ 1074) (d * 2 ^ e)
  if 2045 < e then Float64.inf
  else if m = 2 ^ 53 then (if e = 2045 then Float64.inf else Float64.finite (2 ^ 52) (e + 1))
  else Float64.finite m e

/-- The number written by the ASCII digits `ds`. -/
def digitsValue (ds : List Nat) : Nat :=
  ds.foldl (fun n b => 10 * n + (b - 48)) 0

/-- The value of `strconv.ParseFloat(text, 64)`, whose error `number` discards,
on the texts `number` passes to it: ASCII digits, optionally followed by a dot
and ASCII digits.  The function belongs to the Go standard library; by its
documentation it returns the nearest floating-point number, rounded with IEEE
754 unbiased rounding, and `+Inf` (with a range error) when that rounding
passes the largest `float64`.  A text of another shape never reaches it from
`number`; the model gives zero there. -/
def ParseFloat (text : List Nat) : Float64 :=
  let ip := text.takeWhile isDigit
  let fp := (text.drop ip.length).drop 1
  if ip ≠ [] ∧ (text.drop ip.length = [] ∨
      ((text.drop ip.length).head? = some 46 ∧ fp ≠ [] ∧ fp.all isDigit = true)) then
    roundFloat64 (digitsValue (ip ++ fp)) (10 ^ fp.length)
  else Float64.finite 0 0

/-- A scanner result that makes no `onError` call. -/
def quiet (r : Res Scanner) : Res (Scanner × List Call) :=
  match r with
  | .ok s => .ok (s, [])
  | .panic => .panic
  | .timeout t => .timeout t

/-- The loop of the `//` branch of `scanToken`:
`for s.peek() != '\n' && !s.isAtEnd() { s.advance() }`. -/
def commentLoop (fuel : Nat) (s : Scanner) : Res Scanner := do
  let c ← peek s
  if c ≠ 10 ∧ isAtEnd s = false then
    match fuel with
    | 0 => Res.timeout s
    | fuel + 1 => do
      let (_, s1) ← advance s
      commentLoop fuel s1
  else pure s

/-- The loop of `string`:
`for s.peek() != '"' && !s.isAtEnd() { if s.peek() == '\n' { s.line += 1; s.advance() } }`.
The body advances only inside the `if`. -/
def stringLoop (fuel : Nat) (s : Scanner) : Res Scanner := do
  let c ← peek s
  if c ≠ 34 ∧ isAtEnd s = false then
    match fuel with
    | 0 => Res.timeout s
    | fuel + 1 => do
      let c1 ← peek s
      if c1 = 10 then
        let (_, s1) ← advance { s with line := s.line + 1 }
        stringLoop fuel s1
      else stringLoop fuel s
  else pure s

/-- `string(onError)`; the second component lists the `onError` calls made. -/
def string (fuel : Nat) (s : Scanner) : Res (Scanner × List Call) := do
  let s1 ← stringLoop fuel s
  if isAtEnd s1 then
    pure (s1, [(s1.line, "Unterminated string.")])
  else
    let (_, s2) ← advance s1
    let value ← slice s2.source (s2.start + 1) (s2.current - 1)
    let s3 ← addToken s2 TokenType.STRING [Value.str value]
    pure (s3, [])

/-- The loop `for s.isDigit(s.peek()) { s.advance() }`, which `number` runs
for the integer part and again for the fractional part. -/
def digitLoop (fuel : Nat) (s : Scanner) : Res Scanner := do
  let c ← peek s
  if isDigit c then
    match fuel with
    | 0 => Res.timeout s
    | fuel + 1 => do
      let (_, s1) ← advance s
      digitLoop fuel s1
  else pure s

/-- `number`. -/
def number (fuel : Nat) (s : Scanner) : Res Scanner := do
  let s1 ← digitLoop fuel s
  let c ← peek s1
  let frac ← (if c = 46 then do let d ← peekNext s1; pure (isDigit d) else pure false)
  let s2 ← (if frac then do let (_, s') ← advance s1; digitLoop fuel s' else pure s1)
  let text ← slice s2.source s2.start s2.current
  let num := ParseFloat text
  addToken s2 TokenType.NUMBER [Value.number num]

/-- The loop of `identifier`: `for s.isAlphaNumeric(s.peek()) { s.advance() }`. -/
def identLoop (fuel : Nat) (s : Scanner) : Res Scanner := do
  let c ← peek s
  if isAlphaNumeric c then
    match fuel with
    | 0 => Res.timeout s
    | fuel + 1 => do
      let (_, s1) ← advance s
      identLoop fuel s1
  else pure s

/-- `identifier`, reading the keyword table `keywords`. -/
def identifier (keywords : Keywords) (fuel : Nat) (s : Scanner) : Res Scanner := do
  let s1 ← identLoop fuel s
  let text ← slice s1.source s1.start s1.current
  let tokenType := match keywords text with
    | some t => t
    | none => TokenType.IDENTIFIER
  addToken s1 tokenType []

/-- `scanToken(onError)`; the second component lists the `onError` calls made. -/
def scanToken (keywords : Keywords) (fuel : Nat) (s0 : Scanner) : Res (Scanner × List Call) := do
  let (ch, s) ← advance s0
  if ch = 40 then quiet (addToken s TokenType.LEFT_PAREN [])        -- '('
  else if ch = 41 then quiet (addToken s TokenType.RIGHT_PAREN [])  -- ')'
  else if ch = 123 then quiet (addToken s TokenType.LEFT_BRACE [])  -- '{'
  else if ch = 125 then quiet (addToken s TokenType.RIGHT_BRACE []) -- '}'
  else if ch = 44 then quiet (addToken s TokenType.COMMA [])        -- ','
  else if ch = 46 then quiet (addToken s TokenType.DOT [])          -- '.'
  else if ch = 45 then quiet (addToken s TokenType.MINUS [])        -- '-'
  else if ch = 43 then quiet (addToken s TokenType.PLUS [])         -- '+'
  else if ch = 59 then quiet (addToken s TokenType.SEMICOLON [])    -- ';'
  else if ch = 42 then quiet (addToken s TokenType.STAR [])         -- '*'
  else if ch = 33 then do                                           -- '!'
    let (m, s1) ← match_ s 61
    if m then quiet (addToken s1 TokenType.BANG_EQUAL [])
    else quiet (addToken s1 TokenType.BANG [])
  else if ch = 61 then do                                           -- '='
    let (m, s1) ← match_ s 61
    if m then quiet (addToken s1 TokenType.EQUAL_EQUAL [])
    else quiet (addToken s1 TokenType.EQUAL [])
  else if ch = 60 then do                                           -- '<'
    let (m, s1) ← match_ s 61
    if m then quiet (addToken s1 TokenType.LESS_EQUAL [])
    else quiet (addToken s1 TokenType.LESS [])
  else if ch = 62 then do                                           -- '>'
    let (m, s1) ← match_ s 61
    if m then quiet (addToken s1 TokenType.GREATER_EQUAL [])
    else quiet (addToken s1 TokenType.GREATER [])
  else if ch = 47 then do                                           -- '/'
    let (m, s1) ← match_ s 47
    if m then quiet (commentLoop fuel s1)
    else quiet (addToken s1 TokenType.SLASH [])
  else if ch = 32 then pure (s, [])                                 -- ' '
  else if ch = 13 then pure (s, [])                                 -- '\r'
  else if ch = 9 then pure (s, [])                                  -- '\t'
  else if ch = 10 then pure ({ s with line := s.line + 1 }, [])     -- '\n'
  else if ch = 34 then string fuel s                                -- '"'
  else if isDigit ch then quiet (number fuel s)
  else if isAlpha ch then quiet (identifier keywords fuel s)
  else pure (s, [(s.line, "Unexpected character.")])

/-- The loop of `ScanTokens`:
`for !s.isAtEnd() { s.start = s.current; s.scanToken(onError) }`.
The loops that `scanToken` runs get the fuel this loop has left. -/
def scanLoop (keywords : Keywords) (fuel : Nat) (s : Scanner) : Res (Scanner × List Call) :=
  if isAtEnd s = false then
    match fuel with
    | 0 => Res.timeout s
    | fuel + 1 => do
      let (s1, c1) ← scanToken keywords fuel { s with start := s.current }
      let (s2, c2) ← scanLoop keywords fuel s1
      pure (s2, c1 ++ c2)
  else pure (s, [])

/-- `ScanTokens(onError)`: the returned token slice, the scanner state left
behind, and the `onError` calls made, in order. -/
def ScanTokens (keywords : Keywords) (fuel : Nat) (s : Scanner) :
    Res (List Token × Scanner × List Call) := do
  let (s1, calls) ← scanLoop keywords fuel s
  let s2 := { s1 with tokens := s1.tokens ++
    [{ Typ := TokenType.EOF, Lexeme := [], Literal := none, Line := s1.line }] }
  pure (s2.tokens, s2, calls)

/-- The bytes of an ASCII string literal. -/
def bytes (str : String) : List Nat :=
  str.toList.map Char.toNat

/-! ## One `scanToken` call as a function of the unread text

The definitions below are not translated from the source: they describe, on
the list of unread bytes, what one call of `scanToken` does, and the lemmas
further down prove that `scanToken` does exactly that. -/

/-- Bytes a `//` comment runs over: everything but a newline. -/
def notNewline (b : Nat) : Bool := decide (b ≠ 10)

/-- Bytes the loop of `string` advances over: newlines. -/
def isNewline (b : Nat) : Bool := decide (b = 10)

/-- What follows the newlines after an opening quote lets the loop of
`string` stop: the end of the input or a closing quote. -/
def stringStops (rest : List Nat) : Bool :=
  match rest.dropWhile isNewline with
  | [] => true
  | c :: _ => decide (c = 34)

/-- Effect of one `scanToken` call: bytes consumed, token appended (if any),
line counter afterwards, `onError` calls made. -/
structure StepOut where
  used : Nat
  tok : Option Token
  line : Nat
  calls : List Call
  deriving DecidableEq, Repr

/-- A token without literal spanning the first `k` unread bytes. -/
def plainStep (ln : Nat) (text : List Nat) (k : Nat) (ty : TokenType) : StepOut :=
  { used := k, tok := some { Typ := ty, Lexeme := text.take k, Literal := some [], Line := ln },
    line := ln, calls := [] }

/-- A step that appends no token and reports nothing. -/
def skipStep (ln : Nat) (k : Nat) : StepOut :=
  { used := k, tok := none, line := ln, calls := [] }

/-- Number of bytes a number literal spans when its first digit is followed by `r`. -/
def numberLen (r : List Nat) : Nat :=
  let k1 := (r.takeWhile isDigit).length
  let r1 := r.drop k1
  if r1.headD 0 = 46 ∧ isDigit ((r1.drop 1).headD 0) = true then
    1 + k1 + 1 + ((r1.drop 1).takeWhile isDigit).length
  else 1 + k1

/-- Effect of `scanToken` at line `ln` when the unread text is `c :: r`;
`none` when the call does not return. -/
def stepL (keywords : Keywords) (ln : Nat) (c : Nat) (r : List Nat) : Option StepOut :=
  if c = 40 then some (plainStep ln (c :: r) 1 TokenType.LEFT_PAREN)
  else if c = 41 then some (plainStep ln (c :: r) 1 TokenType.RIGHT_PAREN)
  else if c = 123 then some (plainStep ln (c :: r) 1 TokenType.LEFT_BRACE)
  else if c = 125 then some (plainStep ln (c :: r) 1 TokenType.RIGHT_BRACE)
  else if c = 44 then some (plainStep ln (c :: r) 1 TokenType.COMMA)
  else if c = 46 then some (plainStep ln (c :: r) 1 TokenType.DOT)
  else if c = 45 then some (plainStep ln (c :: r) 1 TokenType.MINUS)
  else if c = 43 then some (plainStep ln (c :: r) 1 TokenType.PLUS)
  else if c = 59 then some (plainStep ln (c :: r) 1 TokenType.SEMICOLON)
  else if c = 42 then some (plainStep ln (c :: r) 1 TokenType.STAR)
  else if c = 33 then
    if r.head? = some 61 then some (plainStep ln (c :: r) 2 TokenType.BANG_EQUAL)
    else some (plainStep ln (c :: r) 1 TokenType.BANG)
  else if c = 61 then
    if r.head? = some 61 then some (plainStep ln (c :: r) 2 TokenType.EQUAL_EQUAL)
    else some (plainStep ln (c :: r) 1 TokenType.EQUAL)
  else if c = 60 then
    if r.head? = some 61 then some (plainStep ln (c :: r) 2 TokenType.LESS_EQUAL)
    else some (plainStep ln (c :: r) 1 TokenType.LESS)
  else if c = 62 then
    if r.head? = some 61 then some (plainStep ln (c :: r) 2 TokenType.GREATER_EQUAL)
    else some (plainStep ln (c :: r) 1 TokenType.GREATER)
  else if c = 47 then
    if r.head? = some 47 then
      some (skipStep ln (2 + ((r.drop 1).takeWhile notNewline).length))
    else some (plainStep ln (c :: r) 1 TokenType.SLASH)
  else if c = 32 then some (skipStep ln 1)
  else if c = 13 then some (skipStep ln 1)
  else if c = 9 then some (skipStep ln 1)
  else if c = 10 then some (skipStep (ln + 1) 1)
  else if c = 34 then
    if stringStops r = true then
      let k := (r.takeWhile isNewline).length
      if r.drop k = [] then
        some { used := 1 + k, tok := none, line := ln + k,
               calls := [(ln + k, "Unterminated string.")] }
      else
        some { used := k + 2,
               tok := some { Typ := TokenType.STRING, Lexeme := (c :: r).take (k + 2),
                             Literal := some [Value.str (r.take k)], Line := ln + k },
               line := ln + k, calls := [] }
    else none
  else if isDigit c = true then
    some { used := numberLen r,
           tok := some { Typ := TokenType.NUMBER, Lexeme := (c :: r).take (numberLen r),
                         Literal := some [Value.number (ParseFloat ((c :: r).take (numberLen r)))],
                         Line := ln },
           line := ln, calls := [] }
  else if isAlpha c = true then
    let k := 1 + (r.takeWhile isAlphaNumeric).length
    some (plainStep ln (c :: r) k
      (match keywords ((c :: r).take k) with
       | some t => t
       | none => TokenType.IDENTIFIER))
  else some { used := 1, tok := none, line := ln, calls := [(ln, "Unexpected character.")] }

/-- The state `scanToken` leaves when it was entered at `pre.length` and had
the effect `o`. -/
def applyStep (s : Scanner) (pre : List Nat) (o : StepOut) : Scanner :=
  { s with tokens := s.tokens ++ o.tok.toList, current := pre.length + o.used, line := o.line }

/-- The scan of the unread text `rest` starting at line `ln` appends the
tokens `ts`, ends at line `ln'` and makes the `onError` calls `cs`. -/
inductive Lex (keywords : Keywords) : Nat → List Nat → List Token → Nat → List Call → Prop where
  | done (ln : Nat) : Lex keywords ln [] [] ln []
  | step (ln : Nat) (c : Nat) (r : List Nat) (o : StepOut) (ts : List Token) (ln' : Nat)
      (cs : List Call) (ho : stepL keywords ln c r = some o)
      (hrest : Lex keywords o.line ((c :: r).drop o.used) ts ln' cs) :
      Lex keywords ln (c :: r) (o.tok.toList ++ ts) ln' (o.calls ++ cs)

/-- Category of the ten single-character tokens. -/
def punctType (c : Nat) : Option TokenType :=
  if c = 40 then some TokenType.LEFT_PAREN
  else if c = 41 then some TokenType.RIGHT_PAREN
  else if c = 123 then some TokenType.LEFT_BRACE
  else if c = 125 then some TokenType.RIGHT_BRACE
  else if c = 44 then some TokenType.COMMA
  else if c = 46 then some TokenType.DOT
  else if c = 45 then some TokenType.MINUS
  else if c = 43 then some TokenType.PLUS
  else if c = 59 then some TokenType.SEMICOLON
  else if c = 42 then some TokenType.STAR
  else none

/-- Categories of the operators that may be followed by `=`: the
one-character form and the two-character form. -/
def operatorTypes (c : Nat) : Option (TokenType × TokenType) :=
  if c = 33 then some (TokenType.BANG, TokenType.BANG_EQUAL)
  else if c = 61 then some (TokenType.EQUAL, TokenType.EQUAL_EQUAL)
  else if c = 60 then some (TokenType.LESS, TokenType.LESS_EQUAL)
  else if c = 62 then some (TokenType.GREATER, TokenType.GREATER_EQUAL)
  else none

/-- The shapes the effect of one `scanToken` call can have, one constructor
for each way through the `switch`. -/
inductive StepShape (keywords : Keywords) (ln c : Nat) (r : List Nat) : StepOut → Prop where
  | punct (ty : TokenType) (hc : punctType c = some ty) :
      StepShape keywords ln c r (plainStep ln (c :: r) 1 ty)
  | op1 (ty1 ty2 : TokenType) (hc : operatorTypes c = some (ty1, ty2))
      (hn : ¬ r.head? = some 61) : StepShape keywords ln c r (plainStep ln (c :: r) 1 ty1)
  | op2 (ty1 ty2 : TokenType) (hc : operatorTypes c = some (ty1, ty2))
      (hn : r.head? = some 61) : StepShape keywords ln c r (plainStep ln (c :: r) 2 ty2)
  | slash (hc : c = 47) (hn : ¬ r.head? = some 47) :
      StepShape keywords ln c r (plainStep ln (c :: r) 1 TokenType.SLASH)
  | comment (hc : c = 47) (hn : r.head? = some 47) :
      StepShape keywords ln c r (skipStep ln (2 + ((r.drop 1).takeWhile notNewline).length))
  | blank (hc : c = 32 ∨ c = 13 ∨ c = 9) : StepShape keywords ln c r (skipStep ln 1)
  | newline (hc : c = 10) : StepShape keywords ln c r (skipStep (ln + 1) 1)
  | unterminated (hc : c = 34) (hg : stringStops r = true)
      (hend : r.drop (r.takeWhile isNewline).length = []) :
      StepShape keywords ln c r
        { used := 1 + (r.takeWhile isNewline).length, tok := none,
          line := ln + (r.takeWhile isNewline).length,
          calls := [(ln + (r.takeWhile isNewline).length, "Unterminated string.")] }
  | str (hc : c = 34) (hg : stringStops r = true)
      (hend : ¬ r.drop (r.takeWhile isNewline).length = []) :
      StepShape keywords ln c r
        { used := (r.takeWhile isNewline).length + 2,
          tok := some { Typ := TokenType.STRING,
                        Lexeme := (c :: r).take ((r.takeWhile isNewline).length + 2),
                        Literal := some [Value.str (r.take (r.takeWhile isNewline).length)],
                        Line := ln + (r.takeWhile isNewline).length },
          line := ln + (r.takeWhile isNewline).length, calls := [] }
  | num (hc : isDigit c = true) :
      StepShape keywords ln c r
        { used := numberLen r,
          tok := some { Typ := TokenType.NUMBER, Lexeme := (c :: r).take (numberLen r),
                        Literal := some [Value.number (ParseFloat ((c :: r).take (numberLen r)))],
                        Line := ln },
          line := ln, calls := [] }
  | ident (hc : isAlpha c = true) :
      StepShape keywords ln c r
        (plainStep ln (c :: r) (1 + (r.takeWhile isAlphaNumeric).length)
          (match keywords ((c :: r).take (1 + (r.takeWhile isAlphaNumeric).length)) with
           | some t => t
           | none => TokenType.IDENTIFIER))
  | unexpected
      (hc : c ∉ [40, 41, 123, 125, 44, 46, 45, 43, 59, 42, 33, 61, 60, 62, 47, 32, 13, 9, 10, 34])
      (h4 : isDigit c = false) (h5 : isAlpha c = false) :
      StepShape keywords ln c r
        { used := 1, tok := none, line := ln, calls := [(ln, "Unexpected character.")] }

/-- The end-of-input token `ScanTokens` appends. -/
def eofToken (ln : Nat) : Token :=
  { Typ := TokenType.EOF, Lexeme := [], Literal := none, Line := ln }

/-- The result `r` is not a panic; a returned value satisfies `P` and the
state of a timeout satisfies `Q`. -/
def Res.Holds {α : Type} (r : Res α) (P : α → Prop) (Q : Scanner → Prop) : Prop :=
  match r with
  | .ok a => P a
  | .panic => False
  | .timeout t => Q t

/-- The scanner state `s` works on the source `src`, its `start` is `st`, and
its `current` lies between `lo` and the length of the source. -/
def Within (src : List Nat) (st lo : Nat) (s : Scanner) : Prop :=
  s.source = src ∧ s.start = st ∧ lo ≤ s.current ∧ s.current ≤ src.length

/-- A whitespace byte: space, carriage return, tab or newline. -/
def IsBlank (sp : List Nat) : Prop :=
  ∃ c, sp = [c] ∧ (c = 32 ∨ c = 13 ∨ c = 9 ∨ c = 10)

/-- A `//` line comment followed by the text `rest`: two slashes and the bytes
up to the next newline, or up to the end of the input when no newline follows. -/
def IsComment (sp rest : List Nat) : Prop :=
  ∃ t, sp = 47 :: 47 :: t ∧ (∀ b ∈ t, b ≠ 10) ∧ (rest = [] ∨ rest.head? = some 10)

/-- A byte that starts no token and is not whitespace. -/
def IsUnexpected (sp : List Nat) : Prop :=
  ∃ c, sp = [c] ∧
    c ∉ [40, 41, 123, 125, 44, 46, 45, 43, 59, 42, 33, 61, 60, 62, 47, 32, 13, 9, 10, 34] ∧
    isDigit c = false ∧ isAlpha c = false

/-- An unterminated string followed by the text `rest`: an opening quote
followed only by newlines up to the end of the input. -/
def IsUnterminated (sp rest : List Nat) : Prop :=
  ∃ ns : List Nat, sp = 34 :: ns ∧ (∀ b ∈ ns, b = 10) ∧ rest = []

/-- The span `sp`, followed by the text `rest`, is a whitespace byte or a `//`
line comment. -/
def IsBlankOrComment (sp rest : List Nat) : Prop :=
  IsBlank sp ∨ IsComment sp rest

/-- The span `sp`, followed by the text `rest`, is one of the spans the scanner
passes over without a token: a whitespace byte, a `//` line comment, a byte
that starts no token, or an unterminated string. -/
def IsSkipped (sp rest : List Nat) : Prop :=
  IsBlank sp ∨ IsComment sp rest ∨ IsUnexpected sp ∨ IsUnterminated sp rest

/-- The layout `Layout Q before src pts`: the text `src`, which follows the text
`before`, is made, in order and without gap or overlap, of skipped spans of the
kind `Q` and of the lexemes of the tokens of `pts`; each token of `pts` comes
with the whole text that precedes its lexeme.  A skipped span is judged together with
the text that follows it; a lexeme is not empty and starts where no skipped
span starts. -/
inductive Layout (Q : List Nat → List Nat → Prop) :
    List Nat → List Nat → List (List Nat × Token) → Prop where
  | done (before : List Nat) : Layout Q before [] []
  | skip (before sp rest src : List Nat) (pts : List (List Nat × Token))
      (hsrc : src = sp ++ rest) (hsp : Q sp rest) (h : Layout Q (before ++ sp) rest pts) :
      Layout Q before src pts
  | token (before : List Nat) (t : Token) (rest src : List Nat) (pts : List (List Nat × Token))
      (hsrc : src = t.Lexeme ++ rest) (hne : t.Lexeme ≠ [])
      (hno : ∀ sp r, src = sp ++ r → ¬ Q sp r)
      (h : Layout Q (before ++ t.Lexeme) rest pts) :
      Layout Q before src ((before, t) :: pts)

/-- A well-formed number lexeme: one or more ASCII digits, optionally followed
by a dot and one or more ASCII digits. -/
def WellFormedNumber (l : List Nat) : Prop :=
  ∃ d e : List Nat, d ≠ [] ∧ (∀ b ∈ d, isDigit b = true) ∧ (∀ b ∈ e, isDigit b = true) ∧
    (l = d ∨ (e ≠ [] ∧ l = d ++ 46 :: e))

/-- A keyword table in which `var` is the only reserved word. -/
def varKeywords : Keywords :=
  fun w => if w = bytes "var" then some (TokenType.KEYWORD 0) else none

/-- The tokens of the source `var x = 10;` when `var` is a keyword. -/
def varExampleTokens : List Token :=
  [{ Typ := TokenType.KEYWORD 0, Lexeme := bytes "var", Literal := some [], Line := 1 },
   { Typ := TokenType.IDENTIFIER, Lexeme := bytes "x", Literal := some [], Line := 1 },
   { Typ := TokenType.EQUAL, Lexeme := bytes "=", Literal := some [], Line := 1 },
   { Typ := TokenType.NUMBER, Lexeme := bytes "10",
     Literal := some [Value.number (ParseFloat (bytes "10"))], Line := 1 },
   { Typ := TokenType.SEMICOLON, Lexeme := bytes ";", Literal := some [], Line := 1 },
   eofToken 1]

/-- The token `t` attributed to a line `d` lines further down. -/
def bumpTok (d : Nat) (t : Token) : Token :=
  { t with Line := t.Line + d }

/-- The `onError` call `c` made for a line `d` lines further down. -/
def bumpCall (d : Nat) (c : Call) : Call :=
  (c.1 + d, c.2)

/-- The effect `o` of a `scanToken` call when it happens `d` lines further down. -/
def bumpStep (d : Nat) (o : StepOut) : StepOut :=
  { used := o.used, tok := o.tok.map (bumpTok d), line := o.line + d,
    calls := o.calls.map (bumpCall d) }

/-- The categories of the punctuation and operator tokens. -/
def operatorCategories : List TokenType :=
  [TokenType.LEFT_PAREN, TokenType.RIGHT_PAREN, TokenType.LEFT_BRACE, TokenType.RIGHT_BRACE,
   TokenType.COMMA, TokenType.DOT, TokenType.MINUS, TokenType.PLUS, TokenType.SEMICOLON,
   TokenType.STAR, TokenType.SLASH, TokenType.BANG, TokenType.BANG_EQUAL, TokenType.EQUAL,
   TokenType.EQUAL_EQUAL, TokenType.LESS, TokenType.LESS_EQUAL, TokenType.GREATER,
   TokenType.GREATER_EQUAL]

/-- The tokens of the source `a == b`. -/
def roundTripTokens : List Token :=
  [{ Typ := TokenType.IDENTIFIER, Lexeme := bytes "a", Literal := some [], Line := 1 },
   { Typ := TokenType.EQUAL_EQUAL, Lexeme := bytes "==", Literal := some [], Line := 1 },
   { Typ := TokenType.IDENTIFIER, Lexeme := bytes "b", Literal := some [], Line := 1 },
   eofToken 1]

/-- The tokens of the source made of a double quote, a newline and a double
quote. -/
def newlineStringTokens : List Token :=
  [{ Typ := TokenType.STRING, Lexeme := [34, 10, 34], Literal := some [Value.str [10]],
     Line := 2 },
   eofToken 2]

/-- The scanner state after the scan of the source made of a double quote, a
newline and a double quote. -/
def newlineStringState : Scanner :=
  { source := [34, 10, 34], tokens := newlineStringTokens, start := 0, current := 3, line := 2 }

/-- The tokens of the source `(`. -/
def parenTokens : List Token :=
  [{ Typ := TokenType.LEFT_PAREN, Lexeme := [40], Literal := some [], Line := 1 }, eofToken 1]

/-- The scanner state after the scan of the source `(`. -/
def parenState : Scanner :=
  { source := [40], tokens := parenTokens, start := 0, current := 1, line := 1 }

/-- The tokens of the source `===`. -/
def tripleEqualTokens : List Token :=
  [{ Typ := TokenType.EQUAL_EQUAL, Lexeme := [61, 61], Literal := some [], Line := 1 },
   { Typ := TokenType.EQUAL, Lexeme := [61], Literal := some [], Line := 1 },
   eofToken 1]

/-- The scanner state after the scan of the source `===`. -/
def tripleEqualState : Scanner :=
  { source := [61, 61, 61], tokens := tripleEqualTokens, start := 2, current := 3, line := 1 }

/-- The number that the `float64` with mantissa `m` and exponent `e` stands
for. -/
def floatValue (m e : Nat) : ℚ :=
  (m : ℚ) * 2 ^ e / 2 ^ 1074

/-- The `float64` is the one that IEEE 754 rounding to nearest, ties to even,
assigns to the non-negative number `v`: `+Inf` from `2^1024 - 2^970` on (half a
unit in the last place beyond the largest `float64`); otherwise a `float64` in
canonical form that no other `float64` is nearer to `v`, with an even mantissa
when another `float64` is as near. -/
def RoundsTo (v : ℚ) : Float64 → Prop
  | Float64.finite m e =>
    m < 2 ^ 53 ∧ e ≤ 2045 ∧ (e = 0 ∨ 2 ^ 52 ≤ m) ∧ v < 2 ^ 1024 - 2 ^ 970 ∧
    ∀ m' e' : Nat, m' < 2 ^ 53 → e' ≤ 2045 →
      |floatValue m e - v| ≤ |floatValue m' e' - v| ∧
      (|floatValue m e - v| = |floatValue m' e' - v| → floatValue m' e' ≠ floatValue m e →
        m % 2 = 0)
  | Float64.inf => 2 ^ 1024 - 2 ^ 970 ≤ v

/-- The base-10 value of a number lexeme: the number its integer part writes,
plus the number its fractional part writes divided by the matching power of
ten. -/
def decimalValue (text : List Nat) : ℚ :=
  let ip := text.takeWhile isDigit
  let fp := (text.drop ip.length).drop 1
  (digitsValue ip : ℚ) + (digitsValue fp : ℚ) / 10 ^ fp.length

/-- The tokens of the source `9007199254740993`, which is `2^53 + 1`. -/
def roundedNumberTokens : List Token :=
  [{ Typ := TokenType.NUMBER, Lexeme := bytes "9007199254740993",
     Literal := some [Value.number (Float64.finite (2 ^ 52) 1075)], Line := 1 },
   eofToken 1]

/-- The scanner state after the scan of the source `9007199254740993`. -/
def roundedNumberState : Scanner :=
  { source := bytes "9007199254740993", tokens := roundedNumberTokens, start := 0,
    current := 16, line := 1 }

/-! ## Basic facts about results -/

@[simp] theorem Res.ok_bind {α β : Type} (a : α) (f : α → Res β) :
    (Res.ok a >>= f) = f a := rfl

@[simp] theorem Res.panic_bind {α β : Type} (f : α → Res β) :
    ((Res.panic : Res α) >>= f) = Res.panic := rfl

@[simp] theorem Res.timeout_bind {α β : Type} (t : Scanner) (f : α → Res β) :
    ((Res.timeout t : Res α) >>= f) = Res.timeout t := rfl

@[simp] theorem Res.pure_eq {α : Type} (a : α) : (pure a : Res α) = Res.ok a := rfl

theorem Res.bind_eq_ok {α β : Type} {r : Res α} {f : α → Res β} {b : β}
    (h : (r >>= f) = Res.ok b) : ∃ a, r = Res.ok a ∧ f a = Res.ok b := by
  cases r with
  | ok a => exact ⟨a, rfl, h⟩
  | panic => cases h
  | timeout t => cases h

@[simp] theorem quiet_ok (s : Scanner) : quiet (Res.ok s) = Res.ok (s, []) := rfl

theorem quiet_eq_ok {r : Res Scanner} {x : Scanner × List Call}
    (h : quiet r = Res.ok x) : ∃ s, r = Res.ok s ∧ x = (s, []) := by
  cases r with
  | ok a => exact ⟨a, rfl, by cases h; rfl⟩
  | panic => cases h
  | timeout t => cases h

/-! ## The scanner seen through a window

A state `s` is *at* `(pre, rest)` when `pre` is the text already consumed and
`rest` the text still to be read. -/

theorem index_append (pre rest : List Nat) (c : Nat) :
    index (pre ++ c :: rest) pre.length = Res.ok c := by
  have h : (pre ++ c :: rest)[pre.length]? = some c := by
    rw [List.getElem?_append_right (Nat.le_refl _)]
    simp
  simp only [index, h]

theorem slice_append (pre rest : List Nat) (k : Nat) (hk : k ≤ rest.length) :
    slice (pre ++ rest) pre.length (pre.length + k) = Res.ok (rest.take k) := by
  simp [slice, hk]

theorem peek_at (s : Scanner) (pre rest : List Nat)
    (hsrc : s.source = pre ++ rest) (hcur : s.current = pre.length) :
    peek s = Res.ok (rest.headD 0) := by
  cases rest with
  | nil => simp [peek, isAtEnd, hsrc, hcur]
  | cons c r => simp [peek, isAtEnd, hsrc, hcur, index_append]

theorem isAtEnd_at (s : Scanner) (pre rest : List Nat)
    (hsrc : s.source = pre ++ rest) (hcur : s.current = pre.length) :
    isAtEnd s = decide (rest = []) := by
  cases rest with
  | nil => simp [isAtEnd, hsrc, hcur]
  | cons c r => simp [isAtEnd, hsrc, hcur]

theorem advance_at (s : Scanner) (pre r : List Nat) (c : Nat)
    (hsrc : s.source = pre ++ c :: r) (hcur : s.current = pre.length) :
    advance s = Res.ok (c, { s with current := pre.length + 1 }) := by
  simp [advance, hsrc, hcur, index_append]

theorem match_at (s : Scanner) (pre rest : List Nat) (e : Nat)
    (hsrc : s.source = pre ++ rest) (hcur : s.current = pre.length) :
    match_ s e = Res.ok (if rest.head? = some e
      then (true, { s with current := pre.length + 1 }) else (false, s)) := by
  cases rest with
  | nil => simp [match_, isAtEnd, hsrc, hcur]
  | cons c r =>
    by_cases h : c = e
    · simp [match_, isAtEnd, hsrc, hcur, index_append, h]
    · simp [match_, isAtEnd, hsrc, hcur, index_append, h]

theorem peekNext_at (s : Scanner) (pre rest : List Nat)
    (hsrc : s.source = pre ++ rest) (hcur : s.current = pre.length) :
    peekNext s = Res.ok ((rest.drop 1).headD 0) := by
  match rest with
  | [] => simp [peekNext, hsrc, hcur]
  | [c] => simp [peekNext, hsrc, hcur]
  | c :: d :: r =>
    have : (pre ++ c :: d :: r)[pre.length + 1]? = some d := by
      rw [List.getElem?_append_right (by omega)]
      simp
    simp [peekNext, hsrc, hcur, index, this]

theorem addToken_at (s : Scanner) (pre rest : List Nat) (k : Nat) (ty : TokenType)
    (lit : List Value) (hsrc : s.source = pre ++ rest) (hst : s.start = pre.length)
    (hcur : s.current = pre.length + k) (hk : k ≤ rest.length) :
    addToken s ty lit = Res.ok { s with tokens := s.tokens ++
      [{ Typ := ty, Lexeme := rest.take k, Literal := some lit, Line := s.line }] } := by
  simp [addToken, hsrc, hst, hcur, slice_append pre rest k hk]

theorem digitLoop_at (rest : List Nat) : ∀ (pre : List Nat) (s : Scanner) (fuel : Nat),
    s.source = pre ++ rest → s.current = pre.length →
    (rest.takeWhile isDigit).length ≤ fuel →
    digitLoop fuel s =
      Res.ok { s with current := pre.length + (rest.takeWhile isDigit).length } := by
  induction rest with
  | nil =>
    intro pre s fuel hsrc hcur _
    rw [digitLoop.eq_def, peek_at s pre [] hsrc hcur]
    simp [isDigit, ← hcur]
  | cons c r ih =>
    intro pre s fuel hsrc hcur hf
    rw [digitLoop.eq_def, peek_at s pre (c :: r) hsrc hcur]
    by_cases hc : isDigit c = true
    · simp only [List.takeWhile_cons, hc, if_true, List.length_cons] at hf ⊢
      obtain ⟨f, rfl⟩ : ∃ f, fuel = f + 1 := ⟨fuel - 1, by omega⟩
      simp only [Res.ok_bind, List.headD_cons, hc, if_true, advance_at s pre r c hsrc hcur]
      rw [ih (pre ++ [c]) _ f (by simp [hsrc]) (by simp) (by omega)]
      simp
      omega
    · simp only [List.takeWhile_cons, hc, Res.ok_bind, List.headD_cons]
      simp [← hcur]

theorem identLoop_at (rest : List Nat) : ∀ (pre : List Nat) (s : Scanner) (fuel : Nat),
    s.source = pre ++ rest → s.current = pre.length →
    (rest.takeWhile isAlphaNumeric).length ≤ fuel →
    identLoop fuel s =
      Res.ok { s with current := pre.length + (rest.takeWhile isAlphaNumeric).length } := by
  induction rest with
  | nil =>
    intro pre s fuel hsrc hcur _
    rw [identLoop.eq_def, peek_at s pre [] hsrc hcur]
    simp [isAlphaNumeric, isAlpha, isDigit, ← hcur]
  | cons c r ih =>
    intro pre s fuel hsrc hcur hf
    rw [identLoop.eq_def, peek_at s pre (c :: r) hsrc hcur]
    by_cases hc : isAlphaNumeric c = true
    · simp only [List.takeWhile_cons, hc, if_true, List.length_cons] at hf ⊢
      obtain ⟨f, rfl⟩ : ∃ f, fuel = f + 1 := ⟨fuel - 1, by omega⟩
      simp only [Res.ok_bind, List.headD_cons, hc, if_true, advance_at s pre r c hsrc hcur]
      rw [ih (pre ++ [c]) _ f (by simp [hsrc]) (by simp) (by omega)]
      simp
      omega
    · simp only [List.takeWhile_cons, hc, Res.ok_bind, List.headD_cons]
      simp [← hcur]

theorem commentLoop_at (rest : List Nat) : ∀ (pre : List Nat) (s : Scanner) (fuel : Nat),
    s.source = pre ++ rest → s.current = pre.length →
    (rest.takeWhile notNewline).length ≤ fuel →
    commentLoop fuel s =
      Res.ok { s with current := pre.length + (rest.takeWhile notNewline).length } := by
  induction rest with
  | nil =>
    intro pre s fuel hsrc hcur _
    rw [commentLoop.eq_def, peek_at s pre [] hsrc hcur, isAtEnd_at s pre [] hsrc hcur]
    simp [← hcur]
  | cons c r ih =>
    intro pre s fuel hsrc hcur hf
    rw [commentLoop.eq_def, peek_at s pre (c :: r) hsrc hcur,
      isAtEnd_at s pre (c :: r) hsrc hcur]
    by_cases hc : c = 10
    · simp [notNewline, hc, ← hcur]
    · have hc2 : notNewline c = true := by simp [notNewline, hc]
      simp only [List.takeWhile_cons, hc2, if_true, List.length_cons] at hf ⊢
      obtain ⟨f, rfl⟩ : ∃ f, fuel = f + 1 := ⟨fuel - 1, by omega⟩
      simp only [Res.ok_bind, List.headD_cons, advance_at s pre r c hsrc hcur]
      rw [ih (pre ++ [c]) _ f (by simp [hsrc]) (by simp) (by omega)]
      simp [hc]
      omega

theorem stringLoop_at (rest : List Nat) : ∀ (pre : List Nat) (s : Scanner) (fuel : Nat),
    s.source = pre ++ rest → s.current = pre.length →
    stringStops rest = true → (rest.takeWhile isNewline).length ≤ fuel →
    stringLoop fuel s =
      Res.ok { s with current := pre.length + (rest.takeWhile isNewline).length,
                      line := s.line + (rest.takeWhile isNewline).length } := by
  induction rest with
  | nil =>
    intro pre s fuel hsrc hcur _ _
    rw [stringLoop.eq_def, peek_at s pre [] hsrc hcur, isAtEnd_at s pre [] hsrc hcur]
    simp [← hcur]
  | cons c r ih =>
    intro pre s fuel hsrc hcur hg hf
    rw [stringLoop.eq_def, peek_at s pre (c :: r) hsrc hcur,
      isAtEnd_at s pre (c :: r) hsrc hcur]
    by_cases hc : c = 10
    · subst hc
      have hg2 : stringStops r = true := by
        simpa [stringStops, isNewline] using hg
      simp only [List.takeWhile_cons, isNewline, decide_True, if_true, List.length_cons] at hf ⊢
      obtain ⟨f, rfl⟩ : ∃ f, fuel = f + 1 := ⟨fuel - 1, by omega⟩
      simp only [Res.ok_bind, List.headD_cons]
      have hadv := advance_at { s with line := s.line + 1 } pre r 10 hsrc hcur
      simp only [] at hadv
      simp [hadv]
      have := ih (pre ++ [10]) { s with line := s.line + 1, current := pre.length + 1 } f
        (by simp [hsrc]) (by simp) hg2 (by simpa [isNewline] using hf)
      simp only [isNewline] at this
      rw [this]
      simp
      omega
    · have hc34 : c = 34 := by
        simpa [stringStops, isNewline, hc] using hg
      simp [isNewline, hc, hc34, ← hcur]

theorem stringLoop_stuck (s : Scanner) (c : Nat) (hp : peek s = Res.ok c)
    (he : isAtEnd s = false) (h34 : c ≠ 34) (h10 : c ≠ 10) (fuel : Nat) :
    stringLoop fuel s = Res.timeout s := by
  induction fuel with
  | zero => rw [stringLoop.eq_def]; simp [hp, he, h34]
  | succ f ih => rw [stringLoop.eq_def]; simp [hp, he, h34, h10, ih]

theorem stringLoop_diverges (rest : List Nat) : ∀ (pre : List Nat) (s : Scanner) (fuel : Nat),
    s.source = pre ++ rest → s.current = pre.length →
    stringStops rest = false → ∃ t, stringLoop fuel s = Res.timeout t := by
  induction rest with
  | nil => intro pre s fuel _ _ hg; simp [stringStops] at hg
  | cons c r ih =>
    intro pre s fuel hsrc hcur hg
    by_cases hc : c = 10
    · subst hc
      have hg2 : stringStops r = false := by
        simpa [stringStops, isNewline] using hg
      rw [stringLoop.eq_def, peek_at s pre (10 :: r) hsrc hcur,
        isAtEnd_at s pre (10 :: r) hsrc hcur]
      cases fuel with
      | zero => exact ⟨s, by simp⟩
      | succ f =>
        have hadv := advance_at { s with line := s.line + 1 } pre r 10 hsrc hcur
        simp only [] at hadv
        obtain ⟨t, ht⟩ := ih (pre ++ [10])
          { s with line := s.line + 1, current := pre.length + 1 } f
          (by simp [hsrc]) (by simp) hg2
        exact ⟨t, by simp [hadv, ht]⟩
    · have hc34 : c ≠ 34 := by
        intro h
        simp [stringStops, isNewline, h] at hg
      exact ⟨s, stringLoop_stuck s c (peek_at s pre (c :: r) hsrc hcur)
        (by simp [isAtEnd_at s pre (c :: r) hsrc hcur]) hc34 hc fuel⟩

theorem emit_at (s : Scanner) (pre rest : List Nat) (k : Nat) (ty : TokenType)
    (hsrc : s.source = pre ++ rest) (hst : s.start = pre.length) (hk : k ≤ rest.length) :
    quiet (addToken { s with current := pre.length + k } ty []) =
      Res.ok (applyStep s pre (plainStep s.line rest k ty), []) := by
  rw [addToken_at { s with current := pre.length + k } pre rest k ty [] hsrc hst rfl hk]
  simp [applyStep, plainStep]

theorem length_takeWhile_le (p : Nat → Bool) (l : List Nat) :
    (l.takeWhile p).length ≤ l.length :=
  (List.takeWhile_sublist p).length_le

theorem string_at (s : Scanner) (pre r : List Nat) (fuel : Nat)
    (hsrc : s.source = pre ++ 34 :: r) (hst : s.start = pre.length)
    (hcur : s.current = pre.length + 1)
    (hg : stringStops r = true) (hf : r.length ≤ fuel) :
    string fuel s =
      if r.drop (r.takeWhile isNewline).length = [] then
        Res.ok ({ s with current := pre.length + 1 + (r.takeWhile isNewline).length,
                         line := s.line + (r.takeWhile isNewline).length },
                [(s.line + (r.takeWhile isNewline).length, "Unterminated string.")])
      else
        Res.ok ({ s with current := pre.length + ((r.takeWhile isNewline).length + 2),
                         line := s.line + (r.takeWhile isNewline).length,
                         tokens := s.tokens ++
                           [{ Typ := TokenType.STRING,
                              Lexeme := (34 :: r).take ((r.takeWhile isNewline).length + 2),
                              Literal := some [Value.str (r.take (r.takeWhile isNewline).length)],
                              Line := s.line + (r.takeWhile isNewline).length }] }, []) := by
  have hk : (r.takeWhile isNewline).length ≤ r.length := length_takeWhile_le _ _
  generalize hkdef : (r.takeWhile isNewline).length = k at hk
  have hloop := stringLoop_at r (pre ++ [34]) s fuel (by simp [hsrc]) (by simp [hcur]) hg
    (by omega)
  rw [hkdef] at hloop
  simp only [List.length_append, List.length_singleton] at hloop
  have hsplit : pre ++ 34 :: r = (pre ++ 34 :: r.take k) ++ r.drop k := by simp
  have hlen : (pre ++ 34 :: r.take k).length = pre.length + 1 + k := by
    simp [List.length_take, hk]; omega
  rw [string, hloop]
  simp only [Res.ok_bind]
  rw [isAtEnd_at _ (pre ++ 34 :: r.take k) (r.drop k) (by rw [← hsplit]; exact hsrc)
    (by rw [hlen])]
  cases hd : r.drop k with
  | nil => simp
  | cons d r2 =>
    have hk2 : k + 1 ≤ r.length := by
      have := congrArg List.length hd
      simp at this
      omega
    rw [advance_at _ (pre ++ 34 :: r.take k) r2 d (by rw [← hd, ← hsplit]; exact hsrc)
      (by rw [hlen])]
    simp only [decide_False, Bool.false_eq_true, if_false, Res.ok_bind, hlen, hst, hsrc]
    have hs1 : slice (pre ++ 34 :: r) (pre.length + 1) (pre.length + 1 + k + 1 - 1)
        = Res.ok (r.take k) := by
      have := slice_append (pre ++ [34]) r k hk
      simpa using this
    rw [hs1]
    simp only [Res.ok_bind]
    rw [addToken_at _ pre (34 :: r) (k + 2) TokenType.STRING _ rfl rfl (by simp; omega)
      (by simp; omega)]
    simp
    omega

theorem number_at (s : Scanner) (pre : List Nat) (c : Nat) (r : List Nat) (fuel : Nat)
    (hsrc : s.source = pre ++ c :: r) (hst : s.start = pre.length)
    (hcur : s.current = pre.length + 1) (hf : r.length ≤ fuel) :
    numberLen r ≤ (c :: r).length ∧
    number fuel s =
      Res.ok { s with current := pre.length + numberLen r,
                      tokens := s.tokens ++
                        [{ Typ := TokenType.NUMBER, Lexeme := (c :: r).take (numberLen r),
                           Literal := some [Value.number (ParseFloat ((c :: r).take (numberLen r)))],
                           Line := s.line }] } := by
  have hk1 : (r.takeWhile isDigit).length ≤ r.length := length_takeWhile_le _ _
  have hloop := digitLoop_at r (pre ++ [c]) s fuel (by simp [hsrc]) (by simp [hcur]) (by omega)
  simp only [List.length_append, List.length_singleton] at hloop
  unfold numberLen
  generalize hkdef : (r.takeWhile isDigit).length = k1 at hk1 hloop ⊢
  have hsplit : pre ++ c :: r = (pre ++ c :: r.take k1) ++ r.drop k1 := by simp
  have hlen : (pre ++ c :: r.take k1).length = pre.length + 1 + k1 := by
    simp [List.length_take, hk1]; omega
  have hpeek := peek_at { s with current := pre.length + 1 + k1 } (pre ++ c :: r.take k1)
    (r.drop k1) (by rw [← hsplit]; exact hsrc) (by rw [hlen])
  have hnext := peekNext_at { s with current := pre.length + 1 + k1 } (pre ++ c :: r.take k1)
    (r.drop k1) (by rw [← hsplit]; exact hsrc) (by rw [hlen])
  have hsl : ∀ cur k, cur = pre.length + k → k ≤ r.length + 1 →
      slice s.source s.start cur = Res.ok ((c :: r).take k) := by
    intro cur k hc hk
    rw [hsrc, hst, hc]
    exact slice_append pre (c :: r) k (by simpa using hk)
  have hadd : ∀ cur k lit, cur = pre.length + k → k ≤ r.length + 1 →
      addToken { s with current := cur } TokenType.NUMBER lit =
        Res.ok { s with current := pre.length + k, tokens := s.tokens ++
          [{ Typ := TokenType.NUMBER, Lexeme := (c :: r).take k, Literal := some lit,
             Line := s.line }] } := by
    intro cur k lit hc hk
    rw [addToken_at { s with current := cur } pre (c :: r) k TokenType.NUMBER lit hsrc hst hc
      (by simpa using hk)]
    simp [hc]
  rw [number, hloop]
  simp only [Res.ok_bind, hpeek]
  by_cases hfrac : (r.drop k1).headD 0 = 46 ∧ isDigit (((r.drop k1).drop 1).headD 0) = true
  · obtain ⟨h46, hdig⟩ := hfrac
    cases hd : r.drop k1 with
    | nil => simp [hd] at h46
    | cons d r3 =>
      have hd46 : d = 46 := by simpa [hd] using h46
      subst hd46
      have hr3 : (r.drop k1).drop 1 = r3 := by simp [hd]
      have hlen3 : r3.length + k1 + 1 = r.length := by
        have := congrArg List.length hd
        simp at this
        omega
      have hk2 : (r3.takeWhile isDigit).length ≤ r3.length := length_takeWhile_le _ _
      have hadv := advance_at { s with current := pre.length + 1 + k1 }
        (pre ++ c :: r.take k1) r3 46 (by rw [← hd, ← hsplit]; exact hsrc) (by rw [hlen])
      have hsplit2 : pre ++ c :: r = (pre ++ c :: r.take k1 ++ [46]) ++ r3 := by
        rw [hsplit, hd]; simp
      have hlen2 : (pre ++ c :: r.take k1 ++ [46]).length = pre.length + 1 + k1 + 1 := by
        simp [List.length_take, hk1]; omega
      have hloop2 := digitLoop_at r3 (pre ++ c :: r.take k1 ++ [46])
        { s with current := pre.length + 1 + k1 + 1 } fuel
        (by rw [← hsplit2]; exact hsrc) (by rw [hlen2]) (by omega)
      rw [hlen2] at hloop2
      rw [hlen] at hadv
      simp only [] at hadv hloop2
      rw [hr3] at hnext hdig
      simp only [List.drop_succ_cons, List.drop_zero, List.headD_cons, hdig, and_self, if_true,
        true_and]
      generalize hk2def : (r3.takeWhile isDigit).length = k2 at hk2 hloop2 ⊢
      refine ⟨by simp; omega, ?_⟩
      simp only [hnext, hdig, hadv, hloop2, Res.ok_bind, Res.pure_eq, if_true]
      rw [hsl _ (1 + k1 + 1 + k2) (by omega) (by omega),
        Res.ok_bind, hadd _ (1 + k1 + 1 + k2) _ (by omega) (by omega)]
  · simp only [if_neg hfrac]
    refine ⟨by simp; omega, ?_⟩
    have hfr : (if (r.drop k1).headD 0 = 46 then
        (peekNext { s with current := pre.length + 1 + k1 } >>= fun d => Res.ok (isDigit d))
        else Res.ok false) = Res.ok false := by
      by_cases h46 : (r.drop k1).headD 0 = 46
      · have : isDigit (((r.drop k1).drop 1).headD 0) = false := by
          cases hx : isDigit (((r.drop k1).drop 1).headD 0)
          · rfl
          · exact absurd ⟨h46, hx⟩ hfrac
        rw [if_pos h46, hnext]
        simp only [Res.ok_bind, this]
      · rw [if_neg h46]
    simp only [Res.pure_eq]
    simp only [hfr, Res.ok_bind, if_false, Bool.false_eq_true]
    rw [hsl _ (1 + k1) (by omega) (by omega), Res.ok_bind,
      hadd _ (1 + k1) _ (by omega) (by omega)]

theorem identifier_at (kw : Keywords) (s : Scanner) (pre : List Nat) (c : Nat) (r : List Nat)
    (fuel : Nat) (hsrc : s.source = pre ++ c :: r) (hst : s.start = pre.length)
    (hcur : s.current = pre.length + 1) (hf : r.length ≤ fuel) :
    identifier kw fuel s =
      Res.ok { s with current := pre.length + (1 + (r.takeWhile isAlphaNumeric).length),
                      tokens := s.tokens ++
                        [{ Typ := (match kw ((c :: r).take
                                     (1 + (r.takeWhile isAlphaNumeric).length)) with
                                   | some t => t
                                   | none => TokenType.IDENTIFIER),
                           Lexeme := (c :: r).take (1 + (r.takeWhile isAlphaNumeric).length),
                           Literal := some [], Line := s.line }] } := by
  have hk1 : (r.takeWhile isAlphaNumeric).length ≤ r.length := length_takeWhile_le _ _
  have hloop := identLoop_at r (pre ++ [c]) s fuel (by simp [hsrc]) (by simp [hcur]) (by omega)
  simp only [List.length_append, List.length_singleton] at hloop
  generalize hkdef : (r.takeWhile isAlphaNumeric).length = k1 at hk1 hloop ⊢
  have hsl : slice s.source s.start (pre.length + 1 + k1) = Res.ok ((c :: r).take (1 + k1)) := by
    rw [hsrc, hst, Nat.add_assoc]
    exact slice_append pre (c :: r) (1 + k1) (by simp; omega)
  rw [identifier, hloop]
  simp only [Res.ok_bind, hsl]
  rw [addToken_at { s with current := pre.length + 1 + k1 } pre (c :: r) (1 + k1) _ [] hsrc hst
    (by simp; omega) (by simp; omega)]
  simp
  omega

theorem twoChar_at (s : Scanner) (pre : List Nat) (c : Nat) (r : List Nat)
    (ty2 ty1 : TokenType) (hsrc : s.source = pre ++ c :: r) (hst : s.start = pre.length) :
    (match_ { s with current := pre.length + 1 } 61 >>= fun p =>
      if p.1 = true then quiet (addToken p.2 ty2 []) else quiet (addToken p.2 ty1 [])) =
    Res.ok (applyStep s pre (if r.head? = some 61 then plainStep s.line (c :: r) 2 ty2
      else plainStep s.line (c :: r) 1 ty1), []) := by
  rw [match_at { s with current := pre.length + 1 } (pre ++ [c]) r 61 (by simp [hsrc])
    (by simp)]
  by_cases h : r.head? = some 61
  · have hr : 2 ≤ (c :: r).length := by
      cases r with
      | nil => simp at h
      | cons d r2 => simp
    simp only [if_pos h, Res.ok_bind, if_true, List.length_append, List.length_singleton]
    exact emit_at s pre (c :: r) 2 ty2 hsrc hst hr
  · simp only [if_neg h, Res.ok_bind, Bool.false_eq_true, if_false]
    exact emit_at s pre (c :: r) 1 ty1 hsrc hst (by simp)

theorem scanToken_at (kw : Keywords) (s : Scanner) (pre : List Nat) (c : Nat) (r : List Nat)
    (o : StepOut) (fuel : Nat)
    (hsrc : s.source = pre ++ c :: r) (hcur : s.current = pre.length)
    (hst : s.start = pre.length)
    (ho : stepL kw s.line c r = some o) (hf : r.length ≤ fuel) :
    scanToken kw fuel s = Res.ok (applyStep s pre o, o.calls) := by
  have hadv := advance_at s pre r c hsrc hcur
  have hemit := fun ty => emit_at s pre (c :: r) 1 ty hsrc hst (by simp)
  simp only [scanToken, hadv, Res.ok_bind]
  unfold stepL at ho
  by_cases h40 : c = 40
  · rw [if_pos h40] at ho ⊢
    cases ho
    exact hemit _
  rw [if_neg h40] at ho ⊢
  by_cases h41 : c = 41
  · rw [if_pos h41] at ho ⊢
    cases ho
    exact hemit _
  rw [if_neg h41] at ho ⊢
  by_cases h123 : c = 123
  · rw [if_pos h123] at ho ⊢
    cases ho
    exact hemit _
  rw [if_neg h123] at ho ⊢
  by_cases h125 : c = 125
  · rw [if_pos h125] at ho ⊢
    cases ho
    exact hemit _
  rw [if_neg h125] at ho ⊢
  by_cases h44 : c = 44
  · rw [if_pos h44] at ho ⊢
    cases ho
    exact hemit _
  rw [if_neg h44] at ho ⊢
  by_cases h46 : c = 46
  · rw [if_pos h46] at ho ⊢
    cases ho
    exact hemit _
  rw [if_neg h46] at ho ⊢
  by_cases h45 : c = 45
  · rw [if_pos h45] at ho ⊢
    cases ho
    exact hemit _
  rw [if_neg h45] at ho ⊢
  by_cases h43 : c = 43
  · rw [if_pos h43] at ho ⊢
    cases ho
    exact hemit _
  rw [if_neg h43] at ho ⊢
  by_cases h59 : c = 59
  · rw [if_pos h59] at ho ⊢
    cases ho
    exact hemit _
  rw [if_neg h59] at ho ⊢
  by_cases h42 : c = 42
  · rw [if_pos h42] at ho ⊢
    cases ho
    exact hemit _
  rw [if_neg h42] at ho ⊢
  by_cases h33 : c = 33
  · rw [if_pos h33] at ho ⊢
    rw [twoChar_at s pre c r _ _ hsrc hst]
    split_ifs at ho ⊢ <;> cases ho <;> rfl
  rw [if_neg h33] at ho ⊢
  by_cases h61 : c = 61
  · rw [if_pos h61] at ho ⊢
    rw [twoChar_at s pre c r _ _ hsrc hst]
    split_ifs at ho ⊢ <;> cases ho <;> rfl
  rw [if_neg h61] at ho ⊢
  by_cases h60 : c = 60
  · rw [if_pos h60] at ho ⊢
    rw [twoChar_at s pre c r _ _ hsrc hst]
    split_ifs at ho ⊢ <;> cases ho <;> rfl
  rw [if_neg h60] at ho ⊢
  by_cases h62 : c = 62
  · rw [if_pos h62] at ho ⊢
    rw [twoChar_at s pre c r _ _ hsrc hst]
    split_ifs at ho ⊢ <;> cases ho <;> rfl
  rw [if_neg h62] at ho ⊢
  by_cases h47 : c = 47
  · rw [if_pos h47] at ho ⊢
    rw [match_at { s with current := pre.length + 1 } (pre ++ [c]) r 47 (by simp [hsrc])
      (by simp)]
    by_cases h : r.head? = some 47
    · rw [if_pos h] at ho ⊢
      cases ho
      cases r with
      | nil => simp at h
      | cons d r2 =>
        have hd : d = 47 := by simpa using h
        subst hd
        have hk := length_takeWhile_le notNewline r2
        have hloop := commentLoop_at r2 (pre ++ [c, 47]) { s with current := pre.length + 2 } fuel
          (by simp [hsrc]) (by simp) (by simp at hf; omega)
        simp only [Res.ok_bind, if_true, List.length_append, List.length_singleton]
        rw [hloop]
        simp [applyStep, skipStep]
        omega
    · rw [if_neg h] at ho ⊢
      cases ho
      simp only [Res.ok_bind, Bool.false_eq_true, if_false]
      exact hemit _
  rw [if_neg h47] at ho ⊢
  by_cases h32 : c = 32
  · rw [if_pos h32] at ho ⊢
    cases ho
    simp [applyStep, skipStep]
  rw [if_neg h32] at ho ⊢
  by_cases h13 : c = 13
  · rw [if_pos h13] at ho ⊢
    cases ho
    simp [applyStep, skipStep]
  rw [if_neg h13] at ho ⊢
  by_cases h9 : c = 9
  · rw [if_pos h9] at ho ⊢
    cases ho
    simp [applyStep, skipStep]
  rw [if_neg h9] at ho ⊢
  by_cases h10 : c = 10
  · rw [if_pos h10] at ho ⊢
    cases ho
    simp [applyStep, skipStep]
  rw [if_neg h10] at ho ⊢
  by_cases h34 : c = 34
  · rw [if_pos h34] at ho ⊢
    subst h34
    by_cases hg : stringStops r = true
    · rw [if_pos hg] at ho
      rw [string_at { s with current := pre.length + 1 } pre r fuel hsrc hst rfl hg hf]
      simp only [] at ho
      split_ifs at ho ⊢ <;> cases ho <;> (simp [applyStep]; try omega)
    · rw [if_neg hg] at ho
      cases ho
  rw [if_neg h34] at ho ⊢
  by_cases hdig : isDigit c = true
  · rw [if_pos hdig] at ho ⊢
    cases ho
    rw [(number_at { s with current := pre.length + 1 } pre c r fuel hsrc hst rfl hf).2]
    simp [applyStep]
  rw [if_neg hdig] at ho ⊢
  by_cases halpha : isAlpha c = true
  · rw [if_pos halpha] at ho ⊢
    cases ho
    rw [identifier_at kw { s with current := pre.length + 1 } pre c r fuel hsrc hst rfl hf]
    simp [applyStep, plainStep]
  rw [if_neg halpha] at ho ⊢
  cases ho
  simp [applyStep]

/-! ## More fuel does not change a result -/

theorem digitLoop_mono (n : Nat) : ∀ (m : Nat) (s a : Scanner), n ≤ m →
    digitLoop n s = Res.ok a → digitLoop m s = Res.ok a := by
  induction n with
  | zero =>
    intro m s a _ h
    rw [digitLoop.eq_def] at h ⊢
    cases hp : peek s with
    | ok c =>
      rw [hp] at h
      simp only [Res.ok_bind] at h ⊢
      by_cases hc : isDigit c = true
      · rw [if_pos hc] at h
        cases h
      · rw [if_neg hc] at h ⊢
        exact h
    | panic => rw [hp] at h; simp at h
    | timeout t => rw [hp] at h; simp at h
  | succ n ih =>
    intro m s a hm h
    obtain ⟨m', rfl⟩ : ∃ m', m = m' + 1 := ⟨m - 1, by omega⟩
    rw [digitLoop.eq_def] at h ⊢
    cases hp : peek s with
    | ok c =>
      rw [hp] at h
      simp only [Res.ok_bind] at h ⊢
      by_cases hc : isDigit c = true
      · rw [if_pos hc] at h ⊢
        cases ha : advance s with
        | ok p =>
          rw [ha] at h
          simp only [Res.ok_bind] at h ⊢
          exact ih m' _ a (by omega) h
        | panic => rw [ha] at h; simp at h
        | timeout t => rw [ha] at h; simp at h
      · rw [if_neg hc] at h ⊢
        exact h
    | panic => rw [hp] at h; simp at h
    | timeout t => rw [hp] at h; simp at h

theorem identLoop_mono (n : Nat) : ∀ (m : Nat) (s a : Scanner), n ≤ m →
    identLoop n s = Res.ok a → identLoop m s = Res.ok a := by
  induction n with
  | zero =>
    intro m s a _ h
    rw [identLoop.eq_def] at h ⊢
    cases hp : peek s with
    | ok c =>
      rw [hp] at h
      simp only [Res.ok_bind] at h ⊢
      by_cases hc : isAlphaNumeric c = true
      · rw [if_pos hc] at h
        cases h
      · rw [if_neg hc] at h ⊢
        exact h
    | panic => rw [hp] at h; simp at h
    | timeout t => rw [hp] at h; simp at h
  | succ n ih =>
    intro m s a hm h
    obtain ⟨m', rfl⟩ : ∃ m', m = m' + 1 := ⟨m - 1, by omega⟩
    rw [identLoop.eq_def] at h ⊢
    cases hp : peek s with
    | ok c =>
      rw [hp] at h
      simp only [Res.ok_bind] at h ⊢
      by_cases hc : isAlphaNumeric c = true
      · rw [if_pos hc] at h ⊢
        cases ha : advance s with
        | ok p =>
          rw [ha] at h
          simp only [Res.ok_bind] at h ⊢
          exact ih m' _ a (by omega) h
        | panic => rw [ha] at h; simp at h
        | timeout t => rw [ha] at h; simp at h
      · rw [if_neg hc] at h ⊢
        exact h
    | panic => rw [hp] at h; simp at h
    | timeout t => rw [hp] at h; simp at h

theorem commentLoop_mono (n : Nat) : ∀ (m : Nat) (s a : Scanner), n ≤ m →
    commentLoop n s = Res.ok a → commentLoop m s = Res.ok a := by
  induction n with
  | zero =>
    intro m s a _ h
    rw [commentLoop.eq_def] at h ⊢
    cases hp : peek s with
    | ok c =>
      rw [hp] at h
      simp only [Res.ok_bind] at h ⊢
      by_cases hc : c ≠ 10 ∧ isAtEnd s = false
      · rw [if_pos hc] at h
        cases h
      · rw [if_neg hc] at h ⊢
        exact h
    | panic => rw [hp] at h; simp at h
    | timeout t => rw [hp] at h; simp at h
  | succ n ih =>
    intro m s a hm h
    obtain ⟨m', rfl⟩ : ∃ m', m = m' + 1 := ⟨m - 1, by omega⟩
    rw [commentLoop.eq_def] at h ⊢
    cases hp : peek s with
    | ok c =>
      rw [hp] at h
      simp only [Res.ok_bind] at h ⊢
      by_cases hc : c ≠ 10 ∧ isAtEnd s = false
      · rw [if_pos hc] at h ⊢
        cases ha : advance s with
        | ok p =>
          rw [ha] at h
          simp only [Res.ok_bind] at h ⊢
          exact ih m' _ a (by omega) h
        | panic => rw [ha] at h; simp at h
        | timeout t => rw [ha] at h; simp at h
      · rw [if_neg hc] at h ⊢
        exact h
    | panic => rw [hp] at h; simp at h
    | timeout t => rw [hp] at h; simp at h

theorem stringLoop_mono (n : Nat) : ∀ (m : Nat) (s a : Scanner), n ≤ m →
    stringLoop n s = Res.ok a → stringLoop m s = Res.ok a := by
  induction n with
  | zero =>
    intro m s a _ h
    rw [stringLoop.eq_def] at h ⊢
    cases hp : peek s with
    | ok c =>
      rw [hp] at h
      simp only [Res.ok_bind] at h ⊢
      by_cases hc : c ≠ 34 ∧ isAtEnd s = false
      · rw [if_pos hc] at h
        cases h
      · rw [if_neg hc] at h ⊢
        exact h
    | panic => rw [hp] at h; simp at h
    | timeout t => rw [hp] at h; simp at h
  | succ n ih =>
    intro m s a hm h
    obtain ⟨m', rfl⟩ : ∃ m', m = m' + 1 := ⟨m - 1, by omega⟩
    rw [stringLoop.eq_def] at h ⊢
    cases hp : peek s with
    | ok c =>
      rw [hp] at h
      simp only [Res.ok_bind] at h ⊢
      by_cases hc : c ≠ 34 ∧ isAtEnd s = false
      · rw [if_pos hc] at h ⊢
        by_cases h10 : c = 10
        · rw [if_pos h10] at h ⊢
          cases ha : advance { s with line := s.line + 1 } with
          | ok p =>
            rw [ha] at h
            simp only [Res.ok_bind] at h ⊢
            exact ih m' _ a (by omega) h
          | panic => rw [ha] at h; simp at h
          | timeout t => rw [ha] at h; simp at h
        · rw [if_neg h10] at h ⊢
          exact ih m' _ a (by omega) h
      · rw [if_neg hc] at h ⊢
        exact h
    | panic => rw [hp] at h; simp at h
    | timeout t => rw [hp] at h; simp at h

theorem string_mono (n m : Nat) (s : Scanner) (x : Scanner × List Call) (hm : n ≤ m)
    (h : string n s = Res.ok x) : string m s = Res.ok x := by
  rw [string] at h ⊢
  obtain ⟨s1, h1, h2⟩ := Res.bind_eq_ok h
  rw [stringLoop_mono n m s s1 hm h1]
  exact h2

theorem number_mono (n m : Nat) (s a : Scanner) (hm : n ≤ m)
    (h : number n s = Res.ok a) : number m s = Res.ok a := by
  rw [number] at h ⊢
  obtain ⟨s1, h1, h2⟩ := Res.bind_eq_ok h
  rw [digitLoop_mono n m s s1 hm h1]
  simp only [Res.ok_bind]
  obtain ⟨c, h3, h4⟩ := Res.bind_eq_ok h2
  rw [h3]
  simp only [Res.ok_bind]
  obtain ⟨frac, h5, h6⟩ := Res.bind_eq_ok h4
  rw [h5]
  simp only [Res.ok_bind]
  obtain ⟨s2, h7, h8⟩ := Res.bind_eq_ok h6
  have h9 : (if frac = true then (advance s1 >>= fun p => digitLoop m p.2)
      else pure s1) = Res.ok s2 := by
    by_cases hfr : frac = true
    · rw [if_pos hfr] at h7 ⊢
      obtain ⟨p, h10, h11⟩ := Res.bind_eq_ok h7
      rw [h10]
      exact digitLoop_mono n m _ _ hm h11
    · rw [if_neg hfr] at h7 ⊢
      exact h7
  rw [h9]
  exact h8

theorem identifier_mono (kw : Keywords) (n m : Nat) (s a : Scanner) (hm : n ≤ m)
    (h : identifier kw n s = Res.ok a) : identifier kw m s = Res.ok a := by
  rw [identifier] at h ⊢
  obtain ⟨s1, h1, h2⟩ := Res.bind_eq_ok h
  rw [identLoop_mono n m s s1 hm h1]
  exact h2

theorem quiet_mono (f : Nat → Res Scanner) (n m : Nat) (x : Scanner × List Call)
    (hf : ∀ a, f n = Res.ok a → f m = Res.ok a) (h : quiet (f n) = Res.ok x) :
    quiet (f m) = Res.ok x := by
  obtain ⟨a, ha, hx⟩ := quiet_eq_ok h
  rw [hf a ha, hx]
  rfl

theorem scanToken_mono (kw : Keywords) (n m : Nat) (s : Scanner) (x : Scanner × List Call)
    (hm : n ≤ m) (h : scanToken kw n s = Res.ok x) : scanToken kw m s = Res.ok x := by
  rw [scanToken] at h ⊢
  obtain ⟨p, h1, h2⟩ := Res.bind_eq_ok h
  obtain ⟨ch, s1⟩ := p
  rw [h1]
  simp only [Res.ok_bind] at h2 ⊢
  by_cases h40 : ch = 40
  · rw [if_pos h40] at h2 ⊢
    exact h2
  rw [if_neg h40] at h2 ⊢
  by_cases h41 : ch = 41
  · rw [if_pos h41] at h2 ⊢
    exact h2
  rw [if_neg h41] at h2 ⊢
  by_cases h123 : ch = 123
  · rw [if_pos h123] at h2 ⊢
    exact h2
  rw [if_neg h123] at h2 ⊢
  by_cases h125 : ch = 125
  · rw [if_pos h125] at h2 ⊢
    exact h2
  rw [if_neg h125] at h2 ⊢
  by_cases h44 : ch = 44
  · rw [if_pos h44] at h2 ⊢
    exact h2
  rw [if_neg h44] at h2 ⊢
  by_cases h46 : ch = 46
  · rw [if_pos h46] at h2 ⊢
    exact h2
  rw [if_neg h46] at h2 ⊢
  by_cases h45 : ch = 45
  · rw [if_pos h45] at h2 ⊢
    exact h2
  rw [if_neg h45] at h2 ⊢
  by_cases h43 : ch = 43
  · rw [if_pos h43] at h2 ⊢
    exact h2
  rw [if_neg h43] at h2 ⊢
  by_cases h59 : ch = 59
  · rw [if_pos h59] at h2 ⊢
    exact h2
  rw [if_neg h59] at h2 ⊢
  by_cases h42 : ch = 42
  · rw [if_pos h42] at h2 ⊢
    exact h2
  rw [if_neg h42] at h2 ⊢
  by_cases h33 : ch = 33
  · rw [if_pos h33] at h2 ⊢
    exact h2
  rw [if_neg h33] at h2 ⊢
  by_cases h61 : ch = 61
  · rw [if_pos h61] at h2 ⊢
    exact h2
  rw [if_neg h61] at h2 ⊢
  by_cases h60 : ch = 60
  · rw [if_pos h60] at h2 ⊢
    exact h2
  rw [if_neg h60] at h2 ⊢
  by_cases h62 : ch = 62
  · rw [if_pos h62] at h2 ⊢
    exact h2
  rw [if_neg h62] at h2 ⊢
  by_cases h47 : ch = 47
  · rw [if_pos h47] at h2 ⊢
    obtain ⟨q, h3, h4⟩ := Res.bind_eq_ok h2
    rw [h3]
    simp only [Res.ok_bind] at h4 ⊢
    by_cases hq : q.1 = true
    · rw [if_pos hq] at h4 ⊢
      exact quiet_mono (fun k => commentLoop k q.2) n m x
        (fun a ha => commentLoop_mono n m _ a hm ha) h4
    · rw [if_neg hq] at h4 ⊢
      exact h4
  rw [if_neg h47] at h2 ⊢
  by_cases h32 : ch = 32
  · rw [if_pos h32] at h2 ⊢
    exact h2
  rw [if_neg h32] at h2 ⊢
  by_cases h13 : ch = 13
  · rw [if_pos h13] at h2 ⊢
    exact h2
  rw [if_neg h13] at h2 ⊢
  by_cases h9 : ch = 9
  · rw [if_pos h9] at h2 ⊢
    exact h2
  rw [if_neg h9] at h2 ⊢
  by_cases h10 : ch = 10
  · rw [if_pos h10] at h2 ⊢
    exact h2
  rw [if_neg h10] at h2 ⊢
  by_cases h34 : ch = 34
  · rw [if_pos h34] at h2 ⊢
    exact string_mono n m _ x hm h2
  rw [if_neg h34] at h2 ⊢
  by_cases hdig : isDigit ch = true
  · rw [if_pos hdig] at h2 ⊢
    exact quiet_mono (fun k => number k s1) n m x (fun a ha => number_mono n m _ a hm ha) h2
  rw [if_neg hdig] at h2 ⊢
  by_cases halpha : isAlpha ch = true
  · rw [if_pos halpha] at h2 ⊢
    exact quiet_mono (fun k => identifier kw k s1) n m x
      (fun a ha => identifier_mono kw n m _ a hm ha) h2
  rw [if_neg halpha] at h2 ⊢
  exact h2

/-! ## Facts about `stepL` -/

theorem numberLen_le (r : List Nat) : 1 ≤ numberLen r ∧ numberLen r ≤ r.length + 1 := by
  have hk1 := length_takeWhile_le isDigit r
  unfold numberLen
  simp only []
  split_ifs with h
  · have hk2 := length_takeWhile_le isDigit
      ((r.drop (r.takeWhile isDigit).length).drop 1)
    have hne : r.drop (r.takeWhile isDigit).length ≠ [] := by
      intro h0
      rw [h0] at h
      simp at h
    have hl : (r.drop (r.takeWhile isDigit).length).length ≥ 1 :=
      List.length_pos.mpr hne
    simp only [List.length_drop] at hk2 hl
    omega
  · omega

theorem stepL_shape (kw : Keywords) (ln c : Nat) (r : List Nat) (o : StepOut)
    (h : stepL kw ln c r = some o) : StepShape kw ln c r o := by
  unfold stepL at h
  by_cases h40 : c = 40
  · rw [if_pos h40] at h
    cases h
    exact StepShape.punct _ (by rw [h40]; rfl)
  rw [if_neg h40] at h
  by_cases h41 : c = 41
  · rw [if_pos h41] at h
    cases h
    exact StepShape.punct _ (by rw [h41]; rfl)
  rw [if_neg h41] at h
  by_cases h123 : c = 123
  · rw [if_pos h123] at h
    cases h
    exact StepShape.punct _ (by rw [h123]; rfl)
  rw [if_neg h123] at h
  by_cases h125 : c = 125
  · rw [if_pos h125] at h
    cases h
    exact StepShape.punct _ (by rw [h125]; rfl)
  rw [if_neg h125] at h
  by_cases h44 : c = 44
  · rw [if_pos h44] at h
    cases h
    exact StepShape.punct _ (by rw [h44]; rfl)
  rw [if_neg h44] at h
  by_cases h46 : c = 46
  · rw [if_pos h46] at h
    cases h
    exact StepShape.punct _ (by rw [h46]; rfl)
  rw [if_neg h46] at h
  by_cases h45 : c = 45
  · rw [if_pos h45] at h
    cases h
    exact StepShape.punct _ (by rw [h45]; rfl)
  rw [if_neg h45] at h
  by_cases h43 : c = 43
  · rw [if_pos h43] at h
    cases h
    exact StepShape.punct _ (by rw [h43]; rfl)
  rw [if_neg h43] at h
  by_cases h59 : c = 59
  · rw [if_pos h59] at h
    cases h
    exact StepShape.punct _ (by rw [h59]; rfl)
  rw [if_neg h59] at h
  by_cases h42 : c = 42
  · rw [if_pos h42] at h
    cases h
    exact StepShape.punct _ (by rw [h42]; rfl)
  rw [if_neg h42] at h
  by_cases h33 : c = 33
  · rw [if_pos h33] at h
    by_cases h1 : r.head? = some 61
    · rw [if_pos h1] at h
      cases h
      exact StepShape.op2 _ _ (by rw [h33]; rfl) h1
    · rw [if_neg h1] at h
      cases h
      exact StepShape.op1 _ _ (by rw [h33]; rfl) h1
  rw [if_neg h33] at h
  by_cases h61 : c = 61
  · rw [if_pos h61] at h
    by_cases h1 : r.head? = some 61
    · rw [if_pos h1] at h
      cases h
      exact StepShape.op2 _ _ (by rw [h61]; rfl) h1
    · rw [if_neg h1] at h
      cases h
      exact StepShape.op1 _ _ (by rw [h61]; rfl) h1
  rw [if_neg h61] at h
  by_cases h60 : c = 60
  · rw [if_pos h60] at h
    by_cases h1 : r.head? = some 61
    · rw [if_pos h1] at h
      cases h
      exact StepShape.op2 _ _ (by rw [h60]; rfl) h1
    · rw [if_neg h1] at h
      cases h
      exact StepShape.op1 _ _ (by rw [h60]; rfl) h1
  rw [if_neg h60] at h
  by_cases h62 : c = 62
  · rw [if_pos h62] at h
    by_cases h1 : r.head? = some 61
    · rw [if_pos h1] at h
      cases h
      exact StepShape.op2 _ _ (by rw [h62]; rfl) h1
    · rw [if_neg h1] at h
      cases h
      exact StepShape.op1 _ _ (by rw [h62]; rfl) h1
  rw [if_neg h62] at h
  by_cases h47 : c = 47
  · rw [if_pos h47] at h
    by_cases h1 : r.head? = some 47
    · rw [if_pos h1] at h
      cases h
      exact StepShape.comment h47 h1
    · rw [if_neg h1] at h
      cases h
      exact StepShape.slash h47 h1
  rw [if_neg h47] at h
  by_cases h32 : c = 32
  · rw [if_pos h32] at h
    cases h
    exact StepShape.blank (Or.inl h32)
  rw [if_neg h32] at h
  by_cases h13 : c = 13
  · rw [if_pos h13] at h
    cases h
    exact StepShape.blank (Or.inr (Or.inl h13))
  rw [if_neg h13] at h
  by_cases h9 : c = 9
  · rw [if_pos h9] at h
    cases h
    exact StepShape.blank (Or.inr (Or.inr h9))
  rw [if_neg h9] at h
  by_cases h10 : c = 10
  · rw [if_pos h10] at h
    cases h
    exact StepShape.newline h10
  rw [if_neg h10] at h
  by_cases h34 : c = 34
  · rw [if_pos h34] at h
    by_cases hg : stringStops r = true
    · rw [if_pos hg] at h
      simp only [] at h
      by_cases hend : r.drop (r.takeWhile isNewline).length = []
      · rw [if_pos hend] at h
        cases h
        exact StepShape.unterminated h34 hg hend
      · rw [if_neg hend] at h
        cases h
        exact StepShape.str h34 hg hend
    · rw [if_neg hg] at h
      cases h
  rw [if_neg h34] at h
  by_cases hdig : isDigit c = true
  · rw [if_pos hdig] at h
    cases h
    exact StepShape.num hdig
  rw [if_neg hdig] at h
  by_cases halpha : isAlpha c = true
  · rw [if_pos halpha] at h
    cases h
    exact StepShape.ident halpha
  rw [if_neg halpha] at h
  cases h
  refine StepShape.unexpected ?_ (by simpa using hdig) (by simpa using halpha)
  simp only [List.mem_cons, List.mem_singleton, List.mem_nil_iff, or_false, not_or]
  exact ⟨h40, h41, h123, h125, h44, h46, h45, h43, h59, h42, h33, h61, h60, h62, h47, h32, h13,
    h9, h10, h34⟩

theorem stepL_eq_none (kw : Keywords) (ln c : Nat) (r : List Nat)
    (h : stepL kw ln c r = none) : c = 34 ∧ stringStops r = false := by
  unfold stepL at h
  by_cases h40 : c = 40
  · rw [if_pos h40] at h
    cases h
  rw [if_neg h40] at h
  by_cases h41 : c = 41
  · rw [if_pos h41] at h
    cases h
  rw [if_neg h41] at h
  by_cases h123 : c = 123
  · rw [if_pos h123] at h
    cases h
  rw [if_neg h123] at h
  by_cases h125 : c = 125
  · rw [if_pos h125] at h
    cases h
  rw [if_neg h125] at h
  by_cases h44 : c = 44
  · rw [if_pos h44] at h
    cases h
  rw [if_neg h44] at h
  by_cases h46 : c = 46
  · rw [if_pos h46] at h
    cases h
  rw [if_neg h46] at h
  by_cases h45 : c = 45
  · rw [if_pos h45] at h
    cases h
  rw [if_neg h45] at h
  by_cases h43 : c = 43
  · rw [if_pos h43] at h
    cases h
  rw [if_neg h43] at h
  by_cases h59 : c = 59
  · rw [if_pos h59] at h
    cases h
  rw [if_neg h59] at h
  by_cases h42 : c = 42
  · rw [if_pos h42] at h
    cases h
  rw [if_neg h42] at h
  by_cases h33 : c = 33
  · rw [if_pos h33] at h
    split_ifs at h
  rw [if_neg h33] at h
  by_cases h61 : c = 61
  · rw [if_pos h61] at h
    split_ifs at h
  rw [if_neg h61] at h
  by_cases h60 : c = 60
  · rw [if_pos h60] at h
    split_ifs at h
  rw [if_neg h60] at h
  by_cases h62 : c = 62
  · rw [if_pos h62] at h
    split_ifs at h
  rw [if_neg h62] at h
  by_cases h47 : c = 47
  · rw [if_pos h47] at h
    split_ifs at h
  rw [if_neg h47] at h
  by_cases h32 : c = 32
  · rw [if_pos h32] at h
    cases h
  rw [if_neg h32] at h
  by_cases h13 : c = 13
  · rw [if_pos h13] at h
    cases h
  rw [if_neg h13] at h
  by_cases h9 : c = 9
  · rw [if_pos h9] at h
    cases h
  rw [if_neg h9] at h
  by_cases h10 : c = 10
  · rw [if_pos h10] at h
    cases h
  rw [if_neg h10] at h
  by_cases h34 : c = 34
  · refine ⟨h34, ?_⟩
    cases hs : stringStops r
    · rfl
    · rw [if_pos h34, if_pos hs] at h
      simp only [] at h
      split_ifs at h
  rw [if_neg h34] at h
  split_ifs at h

theorem stepL_used (kw : Keywords) (ln c : Nat) (r : List Nat) (o : StepOut)
    (h : stepL kw ln c r = some o) : 1 ≤ o.used ∧ o.used ≤ (c :: r).length := by
  have hnum := numberLen_le r
  have hid := length_takeWhile_le isAlphaNumeric r
  have hnl := length_takeWhile_le isNewline r
  have hcm := length_takeWhile_le notNewline (r.drop 1)
  have h2 : ∀ v, r.head? = some v → 1 ≤ r.length := by
    intro v hv
    cases r with
    | nil => simp at hv
    | cons d r2 => simp
  have hd : ∀ k, ¬ r.drop k = [] → k + 1 ≤ r.length := by
    intro k hk
    by_contra hlt
    exact hk (List.drop_eq_nil_of_le (by omega))
  simp only [List.length_drop] at hcm
  cases stepL_shape kw ln c r o h with
  | punct ty hc => simp [plainStep]
  | op1 ty1 ty2 hc hn => simp [plainStep]
  | op2 ty1 ty2 hc hn => have := h2 _ hn; simp [plainStep]; omega
  | slash hc hn => simp [plainStep]
  | comment hc hn => have := h2 _ hn; simp only [skipStep, List.length_cons]; omega
  | blank hc => simp [skipStep]
  | newline hc => simp [skipStep]
  | unterminated hc hg hend => simp; omega
  | str hc hg hend => have := hd _ hend; simp; omega
  | num hc => simp; omega
  | ident hc => simp [plainStep]; omega
  | unexpected hc h4 h5 => simp

theorem scanToken_diverges (kw : Keywords) (s : Scanner) (pre : List Nat) (c : Nat)
    (r : List Nat) (fuel : Nat)
    (hsrc : s.source = pre ++ c :: r) (hcur : s.current = pre.length)
    (ho : stepL kw s.line c r = none) : ∃ t, scanToken kw fuel s = Res.timeout t := by
  obtain ⟨hc, hg⟩ := stepL_eq_none kw s.line c r ho
  subst hc
  obtain ⟨t, ht⟩ := stringLoop_diverges r (pre ++ [34]) { s with current := pre.length + 1 } fuel
    (by simp [hsrc]) (by simp) hg
  exact ⟨t, by simp [scanToken, advance_at s pre r 34 hsrc hcur, string, ht]⟩

theorem scanToken_inv (kw : Keywords) (s : Scanner) (pre : List Nat) (c : Nat) (r : List Nat)
    (fuel : Nat) (x : Scanner × List Call)
    (hsrc : s.source = pre ++ c :: r) (hcur : s.current = pre.length)
    (hst : s.start = pre.length) (h : scanToken kw fuel s = Res.ok x) :
    ∃ o, stepL kw s.line c r = some o ∧ x = (applyStep s pre o, o.calls) := by
  cases ho : stepL kw s.line c r with
  | none =>
    obtain ⟨t, ht⟩ := scanToken_diverges kw s pre c r fuel hsrc hcur ho
    rw [ht] at h
    cases h
  | some o =>
    refine ⟨o, rfl, ?_⟩
    have h1 := scanToken_mono kw fuel (max fuel r.length) s x (Nat.le_max_left _ _) h
    rw [scanToken_at kw s pre c r o _ hsrc hcur hst ho (Nat.le_max_right _ _)] at h1
    cases h1
    rfl

/-! ## The loop of `ScanTokens` and the relation `Lex` -/

theorem scanLoop_of_Lex {kw : Keywords} {ln : Nat} {rest : List Nat} {ts : List Token}
    {ln' : Nat} {cs : List Call} (hL : Lex kw ln rest ts ln' cs) :
    ∀ (pre : List Nat) (s : Scanner) (fuel : Nat), s.source = pre ++ rest →
      s.current = pre.length → s.line = ln → rest.length ≤ fuel →
      ∃ st, scanLoop kw fuel s =
        Res.ok ({ source := s.source, tokens := s.tokens ++ ts, start := st,
                  current := s.source.length, line := ln' }, cs) := by
  induction hL with
  | done ln =>
    intro pre s fuel hsrc hcur hln _
    refine ⟨s.start, ?_⟩
    rw [scanLoop.eq_def, isAtEnd_at s pre [] hsrc hcur]
    cases s
    simp at hsrc hcur hln
    simp [hsrc, hcur, hln]
  | step ln c r o ts ln' cs ho _ ih =>
    intro pre s fuel hsrc hcur hln hf
    obtain ⟨f, rfl⟩ : ∃ f, fuel = f + 1 := ⟨fuel - 1, by simp at hf; omega⟩
    obtain ⟨hu1, hu2⟩ := stepL_used kw ln c r o ho
    simp only [List.length_cons] at hu2
    have hstep := scanToken_at kw { s with start := s.current } pre c r o f hsrc hcur hcur
      (by rw [← hln] at ho; exact ho) (by simp at hf; omega)
    have hlen : (pre ++ (c :: r).take o.used).length = pre.length + o.used := by
      simp [List.length_take]
      omega
    obtain ⟨st, hrest⟩ := ih (pre ++ (c :: r).take o.used)
      (applyStep { s with start := s.current } pre o) f
      (by simp [applyStep, hsrc]) (by rw [hlen]; rfl) rfl
      (by simp only [List.length_drop]; simp at hf hu2 ⊢; omega)
    refine ⟨st, ?_⟩
    rw [scanLoop.eq_def, isAtEnd_at s pre (c :: r) hsrc hcur]
    simp only [hstep, hrest, Res.ok_bind]
    simp [applyStep]

theorem Lex_of_scanLoop (kw : Keywords) (fuel : Nat) : ∀ (pre rest : List Nat)
    (s s' : Scanner) (cs : List Call), s.source = pre ++ rest → s.current = pre.length →
    scanLoop kw fuel s = Res.ok (s', cs) →
    ∃ ts, Lex kw s.line rest ts s'.line cs ∧ s'.tokens = s.tokens ++ ts ∧
      s'.source = s.source ∧ s'.current = s.source.length := by
  induction fuel with
  | zero =>
    intro pre rest s s' cs hsrc hcur h
    rw [scanLoop.eq_def, isAtEnd_at s pre rest hsrc hcur] at h
    cases rest with
    | nil =>
      simp at h
      obtain ⟨rfl, rfl⟩ := h
      exact ⟨[], Lex.done _, by simp, rfl, by simp [hsrc, hcur]⟩
    | cons c r => simp at h
  | succ f ih =>
    intro pre rest s s' cs hsrc hcur h
    rw [scanLoop.eq_def, isAtEnd_at s pre rest hsrc hcur] at h
    cases rest with
    | nil =>
      simp at h
      obtain ⟨rfl, rfl⟩ := h
      exact ⟨[], Lex.done _, by simp, rfl, by simp [hsrc, hcur]⟩
    | cons c r =>
      simp only [decide_False, if_true] at h
      obtain ⟨⟨s1, c1⟩, h1, h2⟩ := Res.bind_eq_ok h
      obtain ⟨⟨s2, c2⟩, h3, h4⟩ := Res.bind_eq_ok h2
      simp only [Res.pure_eq, Res.ok.injEq, Prod.mk.injEq] at h4
      obtain ⟨rfl, rfl⟩ := h4
      obtain ⟨o, ho, hx⟩ := scanToken_inv kw { s with start := s.current } pre c r f _
        hsrc hcur hcur h1
      simp only [Prod.mk.injEq] at hx
      obtain ⟨rfl, rfl⟩ := hx
      obtain ⟨hu1, hu2⟩ := stepL_used kw _ c r o ho
      simp only [List.length_cons] at hu2
      have hlen : (pre ++ (c :: r).take o.used).length = pre.length + o.used := by
        simp [List.length_take]
        omega
      obtain ⟨ts, hL, htok, hs, hc⟩ := ih (pre ++ (c :: r).take o.used)
        ((c :: r).drop o.used) (applyStep { s with start := s.current } pre o) s2 c2
        (by simp [applyStep, hsrc]) (by rw [hlen]; rfl) h3
      refine ⟨o.tok.toList ++ ts, Lex.step _ c r o ts _ c2 ho hL, ?_, ?_, ?_⟩
      · rw [htok]; simp [applyStep]
      · rw [hs]; rfl
      · rw [hc]; rfl

theorem ScanTokens_of_Lex {kw : Keywords} {src : List Nat} {ts : List Token} {ln' : Nat}
    {cs : List Call} (hL : Lex kw 1 src ts ln' cs) (fuel : Nat) (hf : src.length ≤ fuel) :
    ∃ s', ScanTokens kw fuel (New src) = Res.ok (ts ++ [eofToken ln'], s', cs) := by
  obtain ⟨st, h⟩ := scanLoop_of_Lex hL [] (New src) fuel rfl rfl rfl hf
  refine ⟨{ source := src, tokens := ts ++ [eofToken ln'], start := st,
             current := src.length, line := ln' }, ?_⟩
  rw [ScanTokens, h]
  rfl

theorem Lex_of_ScanTokens {kw : Keywords} {src : List Nat} {fuel : Nat} {toks : List Token}
    {s' : Scanner} {cs : List Call}
    (h : ScanTokens kw fuel (New src) = Res.ok (toks, s', cs)) :
    ∃ ts ln', Lex kw 1 src ts ln' cs ∧ toks = ts ++ [eofToken ln'] := by
  rw [ScanTokens] at h
  obtain ⟨⟨s1, c1⟩, h1, h2⟩ := Res.bind_eq_ok h
  simp only [Res.pure_eq, Res.ok.injEq, Prod.mk.injEq] at h2
  obtain ⟨rfl, rfl, rfl⟩ := h2
  obtain ⟨ts, hL, htok, _, _⟩ := Lex_of_scanLoop kw fuel [] src (New src) s1 c1 rfl rfl h1
  exact ⟨ts, s1.line, hL, by simp [htok, New, eofToken]⟩

/-! ## Evaluating `stepL` -/

theorem stepL_unexpected (kw : Keywords) (ln c : Nat) (r : List Nat)
    (hc : c ∉ [40, 41, 123, 125, 44, 46, 45, 43, 59, 42, 33, 61, 60, 62, 47, 32, 13, 9, 10, 34])
    (hd : isDigit c = false) (ha : isAlpha c = false) :
    stepL kw ln c r =
      some { used := 1, tok := none, line := ln, calls := [(ln, "Unexpected character.")] } := by
  simp only [List.mem_cons, List.mem_singleton, not_or, List.mem_nil_iff, or_false] at hc
  obtain ⟨h1, h2, h3, h4, h5, h6, h7, h8, h9, h10, h11, h12, h13, h14, h15, h16, h17, h18,
    h19, h20⟩ := hc
  unfold stepL
  rw [if_neg h1, if_neg h2, if_neg h3, if_neg h4, if_neg h5, if_neg h6, if_neg h7, if_neg h8,
    if_neg h9, if_neg h10, if_neg h11, if_neg h12, if_neg h13, if_neg h14, if_neg h15,
    if_neg h16, if_neg h17, if_neg h18, if_neg h19, if_neg h20, if_neg (by simp [hd]),
    if_neg (by simp [ha])]

theorem stepL_quote_stuck (kw : Keywords) (ln : Nat) (r : List Nat)
    (hg : stringStops r = false) : stepL kw ln 34 r = none := by
  simp [stepL, hg]

theorem ScanTokens_stuck (kw : Keywords) (r : List Nat) (hg : stringStops r = false)
    (fuel : Nat) : ∃ t, ScanTokens kw fuel (New (34 :: r)) = Res.timeout t := by
  cases fuel with
  | zero => exact ⟨New (34 :: r), by simp [ScanTokens, scanLoop, isAtEnd, New]⟩
  | succ f =>
    obtain ⟨t, ht⟩ := scanToken_diverges kw { New (34 :: r) with start := (New (34 :: r)).current }
      [] 34 r f rfl rfl (stepL_quote_stuck kw _ r hg)
    refine ⟨t, ?_⟩
    rw [ScanTokens, scanLoop.eq_def]
    simp only [ht, Res.timeout_bind]
    simp [isAtEnd, New]

/-! ## Cursor bounds and absence of panics -/

theorem Res.Holds_bind {α β : Type} {r : Res α} {f : α → Res β} {P : α → Prop}
    {P' : β → Prop} {Q : Scanner → Prop} (h : r.Holds P Q)
    (hf : ∀ a, P a → (f a).Holds P' Q) : (r >>= f).Holds P' Q := by
  cases r with
  | ok a => exact hf a h
  | panic => exact h
  | timeout t => exact h

theorem Res.Holds_ite {α : Type} {c : Prop} [Decidable c] {a b : Res α} {P : α → Prop}
    {Q : Scanner → Prop} (ha : c → a.Holds P Q) (hb : ¬ c → b.Holds P Q) :
    (if c then a else b).Holds P Q := by
  by_cases h : c
  · rw [if_pos h]; exact ha h
  · rw [if_neg h]; exact hb h

theorem Res.Holds_quiet {r : Res Scanner} {P : Scanner → Prop} {Q : Scanner → Prop}
    (h : r.Holds P Q) : (quiet r).Holds (fun x => P x.1) Q := by
  cases r with
  | ok a => exact h
  | panic => exact h
  | timeout t => exact h

theorem index_ok (src : List Nat) (i : Nat) (h : i < src.length) :
    ∃ b, index src i = Res.ok b := by
  refine ⟨src[i], ?_⟩
  simp [index, List.getElem?_eq_getElem h]

theorem peek_ok (s : Scanner) : ∃ c, peek s = Res.ok c ∧ (c ≠ 0 → s.current < s.source.length) := by
  by_cases h : s.current < s.source.length
  · obtain ⟨b, hb⟩ := index_ok s.source s.current h
    refine ⟨b, ?_, fun _ => h⟩
    simp [peek, isAtEnd, h, hb]
  · refine ⟨0, ?_, fun h0 => absurd rfl h0⟩
    have : s.source.length ≤ s.current := by omega
    simp [peek, isAtEnd, this]

theorem peekNext_ok (s : Scanner) : ∃ c, peekNext s = Res.ok c := by
  by_cases h : s.current + 1 < s.source.length
  · obtain ⟨b, hb⟩ := index_ok s.source (s.current + 1) h
    refine ⟨b, ?_⟩
    simp [peekNext, h, hb]
  · refine ⟨0, ?_⟩
    have : s.source.length ≤ s.current + 1 := by omega
    simp [peekNext, this]

theorem advance_ok (s : Scanner) (h : s.current < s.source.length) :
    ∃ c, advance s = Res.ok (c, { s with current := s.current + 1 }) := by
  obtain ⟨b, hb⟩ := index_ok s.source s.current h
  exact ⟨b, by simp [advance, hb]⟩

theorem match_ok (s : Scanner) (e : Nat) (src : List Nat) (st lo : Nat)
    (h : Within src st lo s) :
    (match_ s e).Holds (fun p => Within src st lo p.2) (Within src st lo) := by
  obtain ⟨h1, h2, h3, h4⟩ := h
  by_cases hlt : s.current < s.source.length
  · obtain ⟨b, hb⟩ := index_ok s.source s.current hlt
    have hne : ¬ s.source.length ≤ s.current := by omega
    by_cases hbe : b = e
    · simp only [match_, isAtEnd, ge_iff_le, hne, decide_False, Bool.false_eq_true, if_false, hb,
        hbe, ne_eq, not_true_eq_false]
      exact ⟨h1, h2, by simp only; omega, by simp only; rw [← h1]; omega⟩
    · simp only [match_, isAtEnd, ge_iff_le, hne, decide_False, Bool.false_eq_true, if_false, hb,
        ne_eq, hbe, not_false_eq_true, if_true]
      exact ⟨h1, h2, h3, h4⟩
  · have : s.source.length ≤ s.current := by omega
    simp only [match_, isAtEnd, ge_iff_le, this, decide_True, if_true]
    exact ⟨h1, h2, h3, h4⟩

theorem addToken_ok (s : Scanner) (ty : TokenType) (lit : List Value) (src : List Nat)
    (st lo : Nat) (h : Within src st lo s) (hst : st ≤ lo) :
    (addToken s ty lit).Holds (Within src st lo) (Within src st lo) := by
  obtain ⟨h1, h2, h3, h4⟩ := h
  have hc : s.start ≤ s.current ∧ s.current ≤ s.source.length := by
    rw [h1, h2]; omega
  simp only [addToken, slice, hc, and_self, if_true]
  exact ⟨h1, h2, h3, h4⟩

theorem commentLoop_safe (src : List Nat) (st lo : Nat) (fuel : Nat) : ∀ (s : Scanner),
    Within src st lo s → (commentLoop fuel s).Holds (Within src st lo) (Within src st lo) := by
  induction fuel with
  | zero =>
    intro s h
    obtain ⟨c, hp, hne⟩ := peek_ok s
    rw [commentLoop.eq_def, hp]
    simp only [Res.ok_bind]
    exact Res.Holds_ite (fun _ => h) (fun _ => h)
  | succ f ih =>
    intro s h
    obtain ⟨c, hp, hne⟩ := peek_ok s
    rw [commentLoop.eq_def, hp]
    simp only [Res.ok_bind]
    refine Res.Holds_ite (fun hc => ?_) (fun _ => h)
    have hlt : s.current < s.source.length := by
      have := hc.2
      simp [isAtEnd] at this
      exact this
    obtain ⟨b, hb⟩ := advance_ok s hlt
    rw [hb]
    simp only [Res.ok_bind]
    obtain ⟨h1, h2, h3, h4⟩ := h
    exact ih _ ⟨h1, h2, by simp only; omega, by simp only; rw [← h1]; omega⟩

theorem digitLoop_safe (src : List Nat) (st lo : Nat) (fuel : Nat) : ∀ (s : Scanner),
    Within src st lo s → (digitLoop fuel s).Holds (Within src st lo) (Within src st lo) := by
  induction fuel with
  | zero =>
    intro s h
    obtain ⟨c, hp, hne⟩ := peek_ok s
    rw [digitLoop.eq_def, hp]
    simp only [Res.ok_bind]
    exact Res.Holds_ite (fun _ => h) (fun _ => h)
  | succ f ih =>
    intro s h
    obtain ⟨c, hp, hne⟩ := peek_ok s
    rw [digitLoop.eq_def, hp]
    simp only [Res.ok_bind]
    refine Res.Holds_ite (fun hc => ?_) (fun _ => h)
    have hlt : s.current < s.source.length := by
      apply hne
      intro h0
      rw [h0] at hc
      simp [isDigit] at hc
    obtain ⟨b, hb⟩ := advance_ok s hlt
    rw [hb]
    simp only [Res.ok_bind]
    obtain ⟨h1, h2, h3, h4⟩ := h
    exact ih _ ⟨h1, h2, by simp only; omega, by simp only; rw [← h1]; omega⟩

theorem identLoop_safe (src : List Nat) (st lo : Nat) (fuel : Nat) : ∀ (s : Scanner),
    Within src st lo s → (identLoop fuel s).Holds (Within src st lo) (Within src st lo) := by
  induction fuel with
  | zero =>
    intro s h
    obtain ⟨c, hp, hne⟩ := peek_ok s
    rw [identLoop.eq_def, hp]
    simp only [Res.ok_bind]
    exact Res.Holds_ite (fun _ => h) (fun _ => h)
  | succ f ih =>
    intro s h
    obtain ⟨c, hp, hne⟩ := peek_ok s
    rw [identLoop.eq_def, hp]
    simp only [Res.ok_bind]
    refine Res.Holds_ite (fun hc => ?_) (fun _ => h)
    have hlt : s.current < s.source.length := by
      apply hne
      intro h0
      rw [h0] at hc
      simp [isAlphaNumeric, isAlpha, isDigit] at hc
    obtain ⟨b, hb⟩ := advance_ok s hlt
    rw [hb]
    simp only [Res.ok_bind]
    obtain ⟨h1, h2, h3, h4⟩ := h
    exact ih _ ⟨h1, h2, by simp only; omega, by simp only; rw [← h1]; omega⟩

theorem stringLoop_safe (src : List Nat) (st lo : Nat) (fuel : Nat) : ∀ (s : Scanner),
    Within src st lo s → (stringLoop fuel s).Holds (Within src st lo) (Within src st lo) := by
  induction fuel with
  | zero =>
    intro s h
    obtain ⟨c, hp, hne⟩ := peek_ok s
    rw [stringLoop.eq_def, hp]
    simp only [Res.ok_bind]
    exact Res.Holds_ite (fun _ => h) (fun _ => h)
  | succ f ih =>
    intro s h
    obtain ⟨c, hp, hne⟩ := peek_ok s
    rw [stringLoop.eq_def, hp]
    simp only [Res.ok_bind]
    refine Res.Holds_ite (fun hc => ?_) (fun _ => h)
    have hlt : s.current < s.source.length := by
      have := hc.2
      simp [isAtEnd] at this
      exact this
    refine Res.Holds_ite (fun _ => ?_) (fun _ => ih s h)
    obtain ⟨b, hb⟩ := advance_ok { s with line := s.line + 1 } hlt
    rw [hb]
    simp only [Res.ok_bind]
    obtain ⟨h1, h2, h3, h4⟩ := h
    exact ih _ ⟨h1, h2, by simp only; omega, by simp only; rw [← h1]; omega⟩

theorem string_safe (src : List Nat) (st lo : Nat) (fuel : Nat) (s : Scanner)
    (h : Within src st lo s) (hst : st + 1 ≤ lo) :
    (string fuel s).Holds (fun x => Within src st lo x.1) (Within src st lo) := by
  rw [string]
  refine Res.Holds_bind (stringLoop_safe src st lo fuel s h) (fun s1 h1 => ?_)
  refine Res.Holds_ite (fun _ => h1) (fun hne => ?_)
  have hlt : s1.current < s1.source.length := by
    simp [isAtEnd] at hne
    exact hne
  obtain ⟨b, hb⟩ := advance_ok s1 hlt
  rw [hb]
  simp only [Res.ok_bind]
  obtain ⟨e1, e2, e3, e4⟩ := h1
  have hw : Within src st lo { s1 with current := s1.current + 1 } :=
    ⟨e1, e2, by simp only; omega, by simp only; rw [← e1]; omega⟩
  have hsl : s1.start + 1 ≤ s1.current + 1 - 1 ∧ s1.current + 1 - 1 ≤ s1.source.length := by
    rw [e2]; omega
  simp only [slice, hsl, and_self, if_true, Res.ok_bind]
  exact Res.Holds_bind (addToken_ok _ _ _ src st lo hw (by omega)) (fun s3 h3 => h3)

theorem number_safe (src : List Nat) (st lo : Nat) (fuel : Nat) (s : Scanner)
    (h : Within src st lo s) (hst : st ≤ lo) :
    (number fuel s).Holds (Within src st lo) (Within src st lo) := by
  rw [number]
  refine Res.Holds_bind (digitLoop_safe src st lo fuel s h) (fun s1 h1 => ?_)
  obtain ⟨c, hp, hne⟩ := peek_ok s1
  rw [hp]
  simp only [Res.ok_bind]
  obtain ⟨d, hd⟩ := peekNext_ok s1
  have hfrac : (if c = 46 then (peekNext s1 >>= fun d => pure (isDigit d)) else pure false).Holds
      (fun b => b = true → c = 46) (Within src st lo) := by
    refine Res.Holds_ite (fun h46 => ?_) (fun _ => ?_)
    · rw [hd]
      exact fun _ => h46
    · intro hb
      cases hb
  refine Res.Holds_bind hfrac (fun frac hfr => ?_)
  have hs2 : (if frac = true then (advance s1 >>= fun p => digitLoop fuel p.2)
      else pure s1).Holds (Within src st lo) (Within src st lo) := by
    refine Res.Holds_ite (fun hf => ?_) (fun _ => h1)
    have hlt : s1.current < s1.source.length := hne (by rw [hfr hf]; decide)
    obtain ⟨b, hb⟩ := advance_ok s1 hlt
    rw [hb]
    simp only [Res.ok_bind]
    obtain ⟨e1, e2, e3, e4⟩ := h1
    exact digitLoop_safe src st lo fuel _
      ⟨e1, e2, by simp only; omega, by simp only; rw [← e1]; omega⟩
  refine Res.Holds_bind hs2 (fun s2 h2 => ?_)
  obtain ⟨e1, e2, e3, e4⟩ := h2
  have hsl : s2.start ≤ s2.current ∧ s2.current ≤ s2.source.length := by
    rw [e1, e2]; omega
  simp only [slice, hsl, and_self, if_true, Res.ok_bind]
  exact addToken_ok _ _ _ src st lo ⟨e1, e2, e3, e4⟩ hst

theorem identifier_safe (kw : Keywords) (src : List Nat) (st lo : Nat) (fuel : Nat)
    (s : Scanner) (h : Within src st lo s) (hst : st ≤ lo) :
    (identifier kw fuel s).Holds (Within src st lo) (Within src st lo) := by
  rw [identifier]
  refine Res.Holds_bind (identLoop_safe src st lo fuel s h) (fun s1 h1 => ?_)
  obtain ⟨e1, e2, e3, e4⟩ := h1
  have hsl : s1.start ≤ s1.current ∧ s1.current ≤ s1.source.length := by
    rw [e1, e2]; omega
  simp only [slice, hsl, and_self, if_true, Res.ok_bind]
  exact addToken_ok _ _ _ src st lo ⟨e1, e2, e3, e4⟩ hst

theorem scanToken_safe (kw : Keywords) (fuel : Nat) (s : Scanner)
    (hst : s.start = s.current) (hlt : s.current < s.source.length) :
    (scanToken kw fuel s).Holds (fun x => Within s.source s.start (s.current + 1) x.1)
      (Within s.source s.start (s.current + 1)) := by
  obtain ⟨ch, hadv⟩ := advance_ok s hlt
  have hw : Within s.source s.start (s.current + 1) { s with current := s.current + 1 } :=
    ⟨rfl, rfl, Nat.le_refl _, hlt⟩
  have hle : s.start ≤ s.current + 1 := by omega
  have hemit : ∀ (s1 : Scanner) (ty : TokenType), Within s.source s.start (s.current + 1) s1 →
      (quiet (addToken s1 ty [])).Holds (fun x => Within s.source s.start (s.current + 1) x.1)
        (Within s.source s.start (s.current + 1)) :=
    fun s1 ty h1 => Res.Holds_quiet (addToken_ok s1 ty [] _ _ _ h1 hle)
  have hop : ∀ (e : Nat) (ty2 ty1 : TokenType),
      (match_ { s with current := s.current + 1 } e >>= fun p =>
        if p.1 = true then quiet (addToken p.2 ty2 []) else quiet (addToken p.2 ty1 [])).Holds
        (fun x => Within s.source s.start (s.current + 1) x.1)
        (Within s.source s.start (s.current + 1)) :=
    fun e ty2 ty1 => Res.Holds_bind (match_ok _ e _ _ _ hw)
      (fun p hp => Res.Holds_ite (fun _ => hemit _ _ hp) (fun _ => hemit _ _ hp))
  rw [scanToken, hadv]
  simp only [Res.ok_bind]
  refine Res.Holds_ite (fun _ => hemit _ _ hw) (fun _ => ?_)
  refine Res.Holds_ite (fun _ => hemit _ _ hw) (fun _ => ?_)
  refine Res.Holds_ite (fun _ => hemit _ _ hw) (fun _ => ?_)
  refine Res.Holds_ite (fun _ => hemit _ _ hw) (fun _ => ?_)
  refine Res.Holds_ite (fun _ => hemit _ _ hw) (fun _ => ?_)
  refine Res.Holds_ite (fun _ => hemit _ _ hw) (fun _ => ?_)
  refine Res.Holds_ite (fun _ => hemit _ _ hw) (fun _ => ?_)
  refine Res.Holds_ite (fun _ => hemit _ _ hw) (fun _ => ?_)
  refine Res.Holds_ite (fun _ => hemit _ _ hw) (fun _ => ?_)
  refine Res.Holds_ite (fun _ => hemit _ _ hw) (fun _ => ?_)
  refine Res.Holds_ite (fun _ => hop _ _ _) (fun _ => ?_)
  refine Res.Holds_ite (fun _ => hop _ _ _) (fun _ => ?_)
  refine Res.Holds_ite (fun _ => hop _ _ _) (fun _ => ?_)
  refine Res.Holds_ite (fun _ => hop _ _ _) (fun _ => ?_)
  refine Res.Holds_ite (fun _ => ?_) (fun _ => ?_)
  · exact Res.Holds_bind (match_ok _ 47 _ _ _ hw)
      (fun p hp => Res.Holds_ite
        (fun _ => Res.Holds_quiet (commentLoop_safe _ _ _ fuel _ hp))
        (fun _ => hemit _ _ hp))
  refine Res.Holds_ite (fun _ => hw) (fun _ => ?_)
  refine Res.Holds_ite (fun _ => hw) (fun _ => ?_)
  refine Res.Holds_ite (fun _ => hw) (fun _ => ?_)
  refine Res.Holds_ite (fun _ => hw) (fun _ => ?_)
  refine Res.Holds_ite (fun _ => string_safe _ _ _ fuel _ hw (by omega)) (fun _ => ?_)
  refine Res.Holds_ite (fun _ => Res.Holds_quiet (number_safe _ _ _ fuel _ hw hle)) (fun _ => ?_)
  refine Res.Holds_ite (fun _ => Res.Holds_quiet (identifier_safe kw _ _ _ fuel _ hw hle))
    (fun _ => hw)

theorem scanLoop_safe (kw : Keywords) (src : List Nat) (fuel : Nat) : ∀ (s : Scanner),
    s.source = src → s.start ≤ s.current → s.current ≤ src.length →
    (scanLoop kw fuel s).Holds
      (fun x => x.1.source = src ∧ x.1.start ≤ x.1.current ∧ x.1.current ≤ src.length)
      (fun t => t.source = src ∧ t.start ≤ t.current ∧ t.current ≤ src.length) := by
  induction fuel with
  | zero =>
    intro s h1 h2 h3
    rw [scanLoop.eq_def]
    exact Res.Holds_ite (fun _ => ⟨h1, h2, h3⟩) (fun _ => ⟨h1, h2, h3⟩)
  | succ f ih =>
    intro s h1 h2 h3
    rw [scanLoop.eq_def]
    refine Res.Holds_ite (fun hne => ?_) (fun _ => ⟨h1, h2, h3⟩)
    have hlt : s.current < s.source.length := by
      simp [isAtEnd] at hne
      exact hne
    have hstep := scanToken_safe kw f { s with start := s.current } rfl hlt
    have hQ : ∀ t : Scanner, Within s.source s.current (s.current + 1) t →
        t.source = src ∧ t.start ≤ t.current ∧ t.current ≤ src.length := by
      intro t ht
      obtain ⟨e1, e2, e3, e4⟩ := ht
      exact ⟨by rw [e1, h1], by omega, by rw [← h1]; exact e4⟩
    cases hr : scanToken kw f { s with start := s.current } with
    | ok x =>
      rw [hr] at hstep
      obtain ⟨e1, e2, e3⟩ := hQ _ hstep
      simp only [hr, Res.ok_bind]
      exact Res.Holds_bind (ih x.1 e1 e2 e3) (fun y hy => hy)
    | panic =>
      rw [hr] at hstep
      exact hstep.elim
    | timeout t =>
      rw [hr] at hstep
      simp only [hr, Res.timeout_bind]
      exact hQ _ hstep

/-- C5: on every source, with every keyword table and every amount of fuel,
`ScanTokens` on a fresh scanner never panics (no byte read and no substring is
out of range), and the state in which it returns or in which the fuel runs out
satisfies `start ≤ current ≤ len(source)`. -/
theorem scanner_cursors_in_bounds_no_panic (kw : Keywords) (source : List Nat) (fuel : Nat) :
    match ScanTokens kw fuel (New source) with
    | Res.ok x => x.2.1.start ≤ x.2.1.current ∧ x.2.1.current ≤ source.length
    | Res.timeout t => t.start ≤ t.current ∧ t.current ≤ source.length
    | Res.panic => False := by
  have h := scanLoop_safe kw source fuel (New source) rfl (Nat.le_refl _) (Nat.zero_le _)
  rw [ScanTokens]
  cases hr : scanLoop kw fuel (New source) with
  | ok x =>
    rw [hr] at h
    exact h.2
  | panic =>
    rw [hr] at h
    exact h
  | timeout t =>
    rw [hr] at h
    exact h.2

/-! ## Non-termination on string literals

`string` leaves its loop only at a closing quote or at the end of the input,
and the loop advances only over newlines: any other byte after an opening
quote is inspected for ever. -/

/-- C1 (evaluation at the failing input `"a`): whatever the keyword table and
however much fuel is given, `ScanTokens` does not return on the two-byte source
consisting of a double quote and the letter `a`; the scan stays in the loop of
`string`. -/
theorem scan_quote_letter_never_returns (kw : Keywords) (fuel : Nat) :
    ∃ t, ScanTokens kw fuel (New (bytes "\"a")) = Res.timeout t :=
  ScanTokens_stuck kw (bytes "a") (by decide) fuel

/-- C2 (evaluation at the failing input `"hello"`): whatever the keyword table
and however much fuel is given, `ScanTokens` does not return on the source
`"hello"` (with its quotes), so no `STRING` token is produced. -/
theorem scan_hello_literal_never_returns (kw : Keywords) (fuel : Nat) :
    ∃ t, ScanTokens kw fuel (New (bytes "\"hello\"")) = Res.timeout t :=
  ScanTokens_stuck kw (bytes "hello\"") (by decide) fuel

/-- C3 (evaluation at the failing input `"unterminated`): whatever the keyword
table and however much fuel is given, `ScanTokens` does not return on an opening
quote followed by the word `unterminated`; in particular no "Unterminated
string." report is ever made and no `EOF` token is returned. -/
theorem scan_unterminated_word_never_returns (kw : Keywords) (fuel : Nat) :
    ∃ t, ScanTokens kw fuel (New (bytes "\"unterminated")) = Res.timeout t :=
  ScanTokens_stuck kw (bytes "unterminated") (by decide) fuel

/-! ## Unexpected characters -/

/-- C4: for a byte `c` that starts no token and is not whitespace, and a text
`rest` whose scan completes with tokens `toks` and `onError` calls `cs`, the
scan of `c` followed by `rest` completes (with any fuel of at least the length
of the source), returns exactly `toks`, and calls `onError` with
`(1, "Unexpected character.")` first and then makes the calls `cs`. -/
theorem unexpected_character_skipped (kw : Keywords) (c : Nat) (rest : List Nat) (fuel : Nat)
    (toks : List Token) (s : Scanner) (cs : List Call)
    (hc : c ∉ [40, 41, 123, 125, 44, 46, 45, 43, 59, 42, 33, 61, 60, 62, 47, 32, 13, 9, 10, 34])
    (hd : isDigit c = false) (ha : isAlpha c = false)
    (h : ScanTokens kw fuel (New rest) = Res.ok (toks, s, cs)) :
    ∀ fuel', (c :: rest).length ≤ fuel' →
      ∃ s', ScanTokens kw fuel' (New (c :: rest)) =
        Res.ok (toks, s', (1, "Unexpected character.") :: cs) := by
  intro fuel' hf
  obtain ⟨ts, ln', hL, rfl⟩ := Lex_of_ScanTokens h
  have hstep := Lex.step 1 c rest _ ts ln' cs (stepL_unexpected kw 1 c rest hc hd ha) hL
  exact ScanTokens_of_Lex hstep fuel' hf

/-- Witness for C4: the source `@`. -/
theorem unexpected_character_skipped_witness :
    ∃ s', ScanTokens (fun _ => none) 1 (New (bytes "@")) =
      Res.ok ([eofToken 1], s', [(1, "Unexpected character.")]) :=
  unexpected_character_skipped (fun _ => none) 64 [] 0 [eofToken 1]
    { source := [], tokens := [eofToken 1], start := 0, current := 0, line := 1 } []
    (by decide) rfl rfl rfl 1 (by decide)

/-! ## Prefixes taken by `takeWhile` -/

theorem take_length_takeWhile (p : Nat → Bool) (l : List Nat) :
    l.take (l.takeWhile p).length = l.takeWhile p := by
  induction l with
  | nil => rfl
  | cons a l ih =>
    by_cases h : p a = true
    · simp [List.takeWhile_cons, h, ih]
    · simp [List.takeWhile_cons, h]

/-! ## Number literals -/

theorem Lex.step_eq {kw : Keywords} {ln c : Nat} {r : List Nat} (o : StepOut)
    {ts : List Token} {ln' : Nat} {cs : List Call} (rest' : List Nat) {toks' : List Token}
    {calls' : List Call} (ho : stepL kw ln c r = some o)
    (hr : (c :: r).drop o.used = rest') (hL : Lex kw o.line rest' ts ln' cs)
    (ht : toks' = o.tok.toList ++ ts) (hc : calls' = o.calls ++ cs) :
    Lex kw ln (c :: r) toks' ln' calls' := by
  subst hr ht hc
  exact Lex.step ln c r o ts ln' cs ho hL

theorem isDigit_bounds {c : Nat} (h : isDigit c = true) : 48 ≤ c ∧ c ≤ 57 := by
  simpa [isDigit] using h

theorem stepL_digit (kw : Keywords) (ln c : Nat) (r : List Nat) (hd : isDigit c = true) :
    stepL kw ln c r =
      some { used := numberLen r,
             tok := some { Typ := TokenType.NUMBER, Lexeme := (c :: r).take (numberLen r),
                           Literal := some [Value.number (ParseFloat ((c :: r).take (numberLen r)))],
                           Line := ln },
             line := ln, calls := [] } := by
  obtain ⟨h1, h2⟩ := isDigit_bounds hd
  unfold stepL
  rw [if_neg (show ¬ c = 40 by omega), if_neg (show ¬ c = 41 by omega), if_neg (show ¬ c = 123 by omega), if_neg (show ¬ c = 125 by omega), if_neg (show ¬ c = 44 by omega), if_neg (show ¬ c = 46 by omega), if_neg (show ¬ c = 45 by omega), if_neg (show ¬ c = 43 by omega), if_neg (show ¬ c = 59 by omega), if_neg (show ¬ c = 42 by omega), if_neg (show ¬ c = 33 by omega), if_neg (show ¬ c = 61 by omega), if_neg (show ¬ c = 60 by omega), if_neg (show ¬ c = 62 by omega), if_neg (show ¬ c = 47 by omega), if_neg (show ¬ c = 32 by omega), if_neg (show ¬ c = 13 by omega), if_neg (show ¬ c = 9 by omega), if_neg (show ¬ c = 10 by omega), if_neg (show ¬ c = 34 by omega), if_pos hd]

theorem takeWhile_digits_append (r tail : List Nat) (hr : ∀ b ∈ r, isDigit b = true)
    (ht : isDigit (tail.headD 0) = false) : (r ++ tail).takeWhile isDigit = r := by
  rw [List.takeWhile_append_of_pos hr]
  cases tail with
  | nil => simp
  | cons a t =>
    have : isDigit a = false := by simpa using ht
    simp [List.takeWhile_cons, this]

theorem numberLen_integer (r tail : List Nat) (hr : ∀ b ∈ r, isDigit b = true)
    (ht : isDigit (tail.headD 0) = false)
    (hfrac : ¬ (tail.headD 0 = 46 ∧ isDigit ((tail.drop 1).headD 0) = true)) :
    numberLen (r ++ tail) = 1 + r.length := by
  unfold numberLen
  simp only [takeWhile_digits_append r tail hr ht, List.drop_left, if_neg hfrac]

theorem numberLen_fraction (r e tail : List Nat) (hr : ∀ b ∈ r, isDigit b = true)
    (he : ∀ b ∈ e, isDigit b = true) (hne : e ≠ [])
    (ht : isDigit (tail.headD 0) = false) :
    numberLen (r ++ 46 :: (e ++ tail)) = 1 + r.length + 1 + e.length := by
  unfold numberLen
  have h46 : isDigit ((46 :: (e ++ tail)).headD 0) = false := by simp [isDigit]
  have hhead : isDigit ((e ++ tail).headD 0) = true := by
    cases e with
    | nil => exact absurd rfl hne
    | cons a e2 => exact he a (List.mem_cons_self _ _)
  simp only [takeWhile_digits_append r _ hr h46, List.drop_left, List.headD_cons,
    List.drop_succ_cons, List.drop_zero, hhead, and_self, if_true,
    takeWhile_digits_append e tail he ht]

/-! ### The `float64` of a number literal -/

theorem exponentFrom_spec (x : Nat) : ∀ (fuel e : Nat),
    e ≤ exponentFrom fuel x e ∧ exponentFrom fuel x e ≤ e + fuel ∧
    (exponentFrom fuel x e < e + fuel → x < 2 ^ (exponentFrom fuel x e + 53)) ∧
    (e < exponentFrom fuel x e → 2 ^ (exponentFrom fuel x e + 52) ≤ x) := by
  intro fuel
  induction fuel with
  | zero => intro e; simp [exponentFrom]
  | succ k ih =>
    intro e
    rw [exponentFrom]
    by_cases h : x < 2 ^ (e + 53)
    · rw [if_pos h]
      exact ⟨le_refl _, by omega, fun _ => h, fun h' => absurd h' (lt_irrefl _)⟩
    · rw [if_neg h]
      obtain ⟨h1, h2, h3, h4⟩ := ih (e + 1)
      refine ⟨by omega, by omega, fun h' => h3 (by omega), fun _ => ?_⟩
      by_cases h5 : e + 1 < exponentFrom k x (e + 1)
      · exact h4 h5
      · have h6 : exponentFrom k x (e + 1) = e + 1 := by omega
        rw [h6]
        have : e + 1 + 52 = e + 53 := by omega
        rw [this]
        omega

theorem roundHalfEven_cases (X P : Nat) :
    (roundHalfEven X P = X / P ∧ 2 * (X % P) ≤ P ∧ (2 * (X % P) = P → (X / P) % 2 = 0)) ∨
    (roundHalfEven X P = X / P + 1 ∧ P ≤ 2 * (X % P) ∧ (2 * (X % P) = P → (X / P) % 2 = 1)) := by
  unfold roundHalfEven
  simp only
  split_ifs with h1 h2 h3
  · exact Or.inl ⟨rfl, by omega, fun h => by omega⟩
  · exact Or.inr ⟨rfl, by omega, fun h => by omega⟩
  · exact Or.inl ⟨rfl, by omega, fun _ => h3⟩
  · exact Or.inr ⟨rfl, by omega, fun _ => by omega⟩

theorem roundHalfEven_frac (X P : Nat) (hP : 0 < P) :
    ∃ (q : Nat) (t : ℚ), (X : ℚ) / P = q + t ∧ 0 ≤ t ∧ t < 1 ∧
      ((roundHalfEven X P = q ∧ 2 * t ≤ 1 ∧ (2 * t = 1 → q % 2 = 0)) ∨
       (roundHalfEven X P = q + 1 ∧ 1 ≤ 2 * t ∧ (2 * t = 1 → q % 2 = 1))) := by
  have hPq : (0 : ℚ) < P := by exact_mod_cast hP
  have hX : (X : ℚ) = (P : ℚ) * ((X / P : Nat) : ℚ) + ((X % P : Nat) : ℚ) := by
    exact_mod_cast (Nat.div_add_mod X P).symm
  have hr : ((X % P : Nat) : ℚ) < P := by exact_mod_cast Nat.mod_lt X hP
  have hr0 : (0 : ℚ) ≤ ((X % P : Nat) : ℚ) := Nat.cast_nonneg _
  set q := X / P with hq
  set r := X % P with hrdef
  have hy : (X : ℚ) / P = (q : ℚ) + (r : ℚ) / P := by
    rw [hX]; field_simp; ring
  have h2a : 2 * r ≤ P → 2 * ((r : ℚ) / P) ≤ 1 := fun h => by
    have : (2 * (r : ℚ)) ≤ P := by exact_mod_cast h
    rw [← mul_div_assoc, div_le_one hPq]; exact this
  have h2b : P ≤ 2 * r → 1 ≤ 2 * ((r : ℚ) / P) := fun h => by
    have : (P : ℚ) ≤ 2 * (r : ℚ) := by exact_mod_cast h
    rw [← mul_div_assoc, le_div_iff₀ hPq]; linarith
  have h2c : 2 * ((r : ℚ) / P) = 1 → 2 * r = P := fun h => by
    have : 2 * (r : ℚ) = P := by
      rw [← mul_div_assoc, div_eq_iff hPq.ne'] at h; linarith
    exact_mod_cast this
  refine ⟨q, (r : ℚ) / P, hy, div_nonneg hr0 hPq.le, (div_lt_one hPq).mpr hr, ?_⟩
  rcases roundHalfEven_cases X P with ⟨hm, hle, hev⟩ | ⟨hm, hle, hev⟩
  · exact Or.inl ⟨hm, h2a hle, fun h => hev (h2c h)⟩
  · exact Or.inr ⟨hm, h2b hle, fun h => hev (h2c h)⟩

theorem roundHalfEven_nearest (X P : Nat) (hP : 0 < P) (j : Nat) :
    |((roundHalfEven X P : Nat) : ℚ) - (X : ℚ) / P| ≤ |(j : ℚ) - (X : ℚ) / P| ∧
    (|((roundHalfEven X P : Nat) : ℚ) - (X : ℚ) / P| = |(j : ℚ) - (X : ℚ) / P| →
      j ≠ roundHalfEven X P → roundHalfEven X P % 2 = 0) := by
  obtain ⟨q, t, hy, ht0, ht1, hm⟩ := roundHalfEven_frac X P hP
  rw [hy]
  rcases le_or_lt j q with hj | hj
  · have hjq : (j : ℚ) ≤ q := by exact_mod_cast hj
    rcases hm with ⟨hm, hle, hev⟩ | ⟨hm, hle, hev⟩
    · rw [hm]
      rw [abs_of_nonpos (by linarith), abs_of_nonpos (by linarith)]
      refine ⟨by linarith, fun he hne => ?_⟩
      exfalso; apply hne
      have : (j : ℚ) = q := by linarith
      exact_mod_cast this
    · rw [hm]
      push_cast
      rw [abs_of_nonneg (by linarith), abs_of_nonpos (by linarith)]
      refine ⟨by linarith, fun he hne => ?_⟩
      have h1 : 2 * t = 1 := by linarith
      have := hev h1
      omega
  · have hjq : (q : ℚ) + 1 ≤ j := by exact_mod_cast hj
    rcases hm with ⟨hm, hle, hev⟩ | ⟨hm, hle, hev⟩
    · rw [hm]
      rw [abs_of_nonpos (by linarith), abs_of_nonneg (by linarith)]
      refine ⟨by linarith, fun he hne => ?_⟩
      have h1 : 2 * t = 1 := by linarith
      exact hev h1
    · rw [hm]
      push_cast
      rw [abs_of_nonneg (by linarith), abs_of_nonneg (by linarith)]
      refine ⟨by linarith, fun he hne => ?_⟩
      exfalso; apply hne
      have : (j : ℚ) = q + 1 := by linarith
      exact_mod_cast this

theorem float_threshold : (2 : ℚ) ^ 1024 - 2 ^ 970 = (2 ^ 53 - 1 / 2) * 2 ^ 2045 / 2 ^ 1074 := by
  rw [eq_div_iff (by positivity)]
  norm_num

theorem floatValue_scale (a e : Nat) : floatValue a e = (a : ℚ) * ((2 : ℚ) ^ e / 2 ^ 1074) := by
  unfold floatValue; ring

theorem nearest_scaled (y c v : ℚ) (e m : Nat) (hc : 0 < c) (hcdef : c = (2 : ℚ) ^ e / 2 ^ 1074)
    (hv : v = y * c) (hy2 : 0 < e → (2 : ℚ) ^ 52 ≤ y)
    (hnear : ∀ j : Nat, |(m : ℚ) - y| ≤ |(j : ℚ) - y| ∧
      (|(m : ℚ) - y| = |(j : ℚ) - y| → j ≠ m → m % 2 = 0))
    (m' e' : Nat) (hm' : m' < 2 ^ 53) :
    |(m : ℚ) * c - v| ≤ |floatValue m' e' - v| ∧
    (|(m : ℚ) * c - v| = |floatValue m' e' - v| → floatValue m' e' ≠ (m : ℚ) * c →
      m % 2 = 0) := by
  have hscale : ∀ a : ℚ, |a * c - v| = |a - y| * c := fun a => by
    rw [hv, ← sub_mul, abs_mul, abs_of_pos hc]
  rw [hscale]
  rcases le_or_lt e e' with h | h
  · have hj : floatValue m' e' = ((m' * 2 ^ (e' - e) : Nat) : ℚ) * c := by
      rw [floatValue_scale]
      have : (2 : ℚ) ^ e' = 2 ^ (e' - e) * 2 ^ e := by
        rw [← pow_add]; congr 1; omega
      rw [this, hcdef]; push_cast; ring
    rw [hj, hscale]
    obtain ⟨h1, h2⟩ := hnear (m' * 2 ^ (e' - e))
    refine ⟨mul_le_mul_of_nonneg_right h1 hc.le, fun heq hne => h2 ?_ ?_⟩
    · exact mul_right_cancel₀ hc.ne' heq
    · intro hjm
      apply hne
      rw [hjm]
  · have he0 : 0 < e := by omega
    have hy52 := hy2 he0
    have hb : floatValue m' e' < (2 : ℚ) ^ 52 * c := by
      rw [floatValue_scale, hcdef]
      have h1 : (m' : ℚ) < 2 ^ 53 := by exact_mod_cast hm'
      have h2 : (2 : ℚ) ^ 53 * 2 ^ e' ≤ 2 ^ 52 * 2 ^ e := by
        rw [← pow_add, ← pow_add]
        exact pow_le_pow_right₀ (by norm_num) (by omega)
      have h3 : (0 : ℚ) < 2 ^ e' := by positivity
      have h4 : (m' : ℚ) * 2 ^ e' < 2 ^ 52 * 2 ^ e :=
        lt_of_lt_of_le (mul_lt_mul_of_pos_right h1 h3) h2
      have hK : (0 : ℚ) < 2 ^ 1074 := by positivity
      rw [← mul_div_assoc, ← mul_div_assoc]
      exact div_lt_div_of_pos_right h4 hK
    have h52 := (hnear (2 ^ 52)).1
    push_cast at h52
    have h5 : |(2 : ℚ) ^ 52 - y| = y - 2 ^ 52 := by
      rw [abs_of_nonpos (by linarith)]; ring
    have h6 : (2 : ℚ) ^ 52 * c ≤ v := by
      rw [hv]; exact mul_le_mul_of_nonneg_right hy52 hc.le
    have h7 : |floatValue m' e' - v| = v - floatValue m' e' := by
      rw [abs_of_nonpos (by linarith)]; ring
    have h9 : |(m : ℚ) - y| * c ≤ |(2 : ℚ) ^ 52 - y| * c :=
      mul_le_mul_of_nonneg_right h52 hc.le
    have h8 : |(m : ℚ) - y| * c ≤ v - 2 ^ 52 * c := by
      rw [h5] at h9
      rw [hv]
      linarith
    rw [h7]
    exact ⟨by linarith, fun heq => absurd heq (by linarith)⟩

theorem below_threshold (y c v : ℚ) (e : Nat) (hc : 0 < c) (hcdef : c = (2 : ℚ) ^ e / 2 ^ 1074)
    (hv : v = y * c) (he : e ≤ 2045) (hy : y < 2 ^ 53) (hy' : e = 2045 → y < 2 ^ 53 - 1 / 2) :
    v < 2 ^ 1024 - 2 ^ 970 := by
  rw [float_threshold, hv]
  rcases Nat.lt_or_ge e 2045 with h | h
  · have h1 : (2 : ℚ) ^ e ≤ 2 ^ 2044 := pow_le_pow_right₀ (by norm_num) (by omega)
    have hK : (0 : ℚ) < 2 ^ 1074 := by positivity
    have h2 : c ≤ 2 ^ 2044 / 2 ^ 1074 := by
      rw [hcdef]; exact div_le_div_of_nonneg_right h1 hK.le
    have h3 : y * c < 2 ^ 53 * c := mul_lt_mul_of_pos_right hy hc
    have h4 : (2 : ℚ) ^ 53 * c ≤ 2 ^ 53 * (2 ^ 2044 / 2 ^ 1074) :=
      mul_le_mul_of_nonneg_left h2 (by positivity)
    have h5 : (2 : ℚ) ^ 53 * (2 ^ 2044 / 2 ^ 1074) ≤ (2 ^ 53 - 1 / 2) * 2 ^ 2045 / 2 ^ 1074 := by
      rw [← mul_div_assoc]
      apply div_le_div_of_nonneg_right _ hK.le
      norm_num
    linarith
  · have h0 : e = 2045 := by omega
    have h1 := hy' h0
    rw [h0] at hcdef
    have h3 : y * c < (2 ^ 53 - 1 / 2) * c := mul_lt_mul_of_pos_right h1 hc
    rw [hcdef] at h3
    rw [hcdef, mul_div_assoc]
    exact h3

theorem roundFloat64_rounds (n d : Nat) (hd : 0 < d) :
    RoundsTo ((n : ℚ) / d) (roundFloat64 n d) := by
  obtain ⟨-, -, h3, h4⟩ := exponentFrom_spec (n * 2 ^ 1074 / d) 2046 0
  unfold roundFloat64
  simp only []
  have hXq : ((n * 2 ^ 1074 : Nat) : ℚ) = (n : ℚ) * 2 ^ 1074 := by
    rw [Nat.cast_mul, Nat.cast_pow, Nat.cast_ofNat]
  generalize n * 2 ^ 1074 = X at *
  have hxd1 : X / d * d ≤ X := Nat.div_mul_le_self X d
  have hxd2 : X < (X / d + 1) * d := (Nat.div_lt_iff_lt_mul hd).mp (Nat.lt_succ_self _)
  generalize X / d = x at *
  generalize exponentFrom 2046 x 0 = e at *
  have hP : 0 < d * 2 ^ e := Nat.mul_pos hd (by positivity)
  have hPq : ((d * 2 ^ e : Nat) : ℚ) = (d : ℚ) * 2 ^ e := by push_cast; ring
  have hdq : (0 : ℚ) < d := by exact_mod_cast hd
  have h2e : (0 : ℚ) < 2 ^ e := by positivity
  have hK : (0 : ℚ) < 2 ^ 1074 := by positivity
  -- the bounds on the scaled quotient
  have hY1 : e ≤ 2045 → (X : ℚ) / ((d * 2 ^ e : Nat) : ℚ) < 2 ^ 53 := fun hle => by
    have h5 : x < 2 ^ (e + 53) := h3 (by omega)
    have h6 : X < 2 ^ (e + 53) * d :=
      lt_of_lt_of_le hxd2 (Nat.mul_le_mul_right d h5)
    have h7 : (X : ℚ) < 2 ^ (e + 53) * d := by exact_mod_cast h6
    rw [hPq, div_lt_iff₀ (by positivity)]
    calc (X : ℚ) < 2 ^ (e + 53) * d := h7
      _ = 2 ^ 53 * (d * 2 ^ e) := by rw [pow_add]; ring
  have hY2 : 0 < e → (2 : ℚ) ^ 52 ≤ (X : ℚ) / ((d * 2 ^ e : Nat) : ℚ) := fun hpos => by
    have h5 : 2 ^ (e + 52) ≤ x := h4 hpos
    have h6 : 2 ^ (e + 52) * d ≤ X := le_trans (Nat.mul_le_mul_right d h5) hxd1
    have h7 : (2 : ℚ) ^ (e + 52) * d ≤ X := by exact_mod_cast h6
    rw [hPq, le_div_iff₀ (by positivity)]
    calc (2 : ℚ) ^ 52 * (d * 2 ^ e) = 2 ^ (e + 52) * d := by rw [pow_add]; ring
      _ ≤ X := h7
  obtain ⟨c, hcdef⟩ : ∃ c : ℚ, c = (2 : ℚ) ^ e / 2 ^ 1074 := ⟨_, rfl⟩
  have hc : 0 < c := by rw [hcdef]; positivity
  have hv : (n : ℚ) / d = (X : ℚ) / ((d * 2 ^ e : Nat) : ℚ) * c := by
    rw [hcdef, hPq, hXq]
    field_simp
    ring
  have hnear := roundHalfEven_nearest X (d * 2 ^ e) hP
  obtain ⟨q, t, hyq, ht0, ht1, hm⟩ := roundHalfEven_frac X (d * 2 ^ e) hP
  generalize (X : ℚ) / ((d * 2 ^ e : Nat) : ℚ) = y at *
  generalize roundHalfEven X (d * 2 ^ e) = m at *
  generalize (n : ℚ) / d = v at *
  have hfv : floatValue m e = (m : ℚ) * c := by rw [floatValue_scale, hcdef]
  have hqlt : e ≤ 2045 → q < 2 ^ 53 := fun hle => by
    have h5 : (q : ℚ) < 2 ^ 53 := by have := hY1 hle; linarith
    exact_mod_cast h5
  split_ifs with hbig hm53 he45
  · -- beyond every exponent
    show (2 : ℚ) ^ 1024 - 2 ^ 970 ≤ v
    have h5 := hY2 (by omega)
    have h6 : (2 : ℚ) ^ 2046 ≤ 2 ^ e := pow_le_pow_right₀ (by norm_num) (by omega)
    have h7 : (2 : ℚ) ^ 2046 / 2 ^ 1074 ≤ c := by
      rw [hcdef]; exact div_le_div_of_nonneg_right h6 hK.le
    have h8 : (2 : ℚ) ^ 52 * (2 ^ 2046 / 2 ^ 1074) ≤ y * c :=
      mul_le_mul h5 h7 (by positivity) (by linarith)
    have h9 : (2 : ℚ) ^ 1024 - 2 ^ 970 ≤ 2 ^ 52 * (2 ^ 2046 / 2 ^ 1074) := by
      rw [← mul_div_assoc, le_div_iff₀ hK]
      norm_num
    rw [hv]; linarith
  · -- rounded up past the largest mantissa at the largest exponent
    show (2 : ℚ) ^ 1024 - 2 ^ 970 ≤ v
    have hy : (2 : ℚ) ^ 53 - 1 / 2 ≤ y := by
      rcases hm with ⟨hmq, hle, _⟩ | ⟨hmq, hle, _⟩
      · have : (q : ℚ) = 2 ^ 53 := by rw [← hmq, hm53]; norm_num
        linarith
      · have : (q : ℚ) + 1 = 2 ^ 53 := by
          have h5 : ((q + 1 : Nat) : ℚ) = 2 ^ 53 := by rw [← hmq, hm53]; norm_num
          push_cast at h5; exact h5
        linarith
    rw [float_threshold, hv, hcdef, he45, mul_div_assoc]
    exact mul_le_mul_of_nonneg_right hy (by positivity)
  · -- rounded up to the next power of two
    refine ⟨by norm_num, by omega, Or.inr (le_refl _), ?_, fun m' e' hm' _ => ?_⟩
    · exact below_threshold y c v e hc hcdef hv (by omega) (hY1 (by omega))
        (fun h => absurd h he45)
    · have hval : floatValue (2 ^ 52) (e + 1) = (m : ℚ) * c := by
        rw [floatValue_scale, hcdef, hm53, pow_succ]; push_cast; ring
      rw [hval]
      obtain ⟨h5, _⟩ := nearest_scaled y c v e m hc hcdef hv hY2 hnear m' e' hm'
      exact ⟨h5, fun _ _ => by norm_num⟩
  · have hle : e ≤ 2045 := by omega
    have hq := hqlt hle
    have hmlt : m < 2 ^ 53 := by
      rcases hm with ⟨hmq, _, _⟩ | ⟨hmq, _, _⟩ <;> omega
    refine ⟨hmlt, hle, ?_, ?_, fun m' e' hm' _ => ?_⟩
    · rcases Nat.eq_zero_or_pos e with h0 | hpos
      · exact Or.inl h0
      · right
        have h5 := hY2 hpos
        have h6 : (2 : ℚ) ^ 52 < (q : ℚ) + 1 := by linarith
        have h7 : 2 ^ 52 < q + 1 := by exact_mod_cast h6
        rcases hm with ⟨hmq, _, _⟩ | ⟨hmq, _, _⟩ <;> omega
    · refine below_threshold y c v e hc hcdef hv hle (hY1 hle) (fun h45 => ?_)
      rcases hm with ⟨hmq, h2t, hev⟩ | ⟨hmq, h2t, hev⟩
      · rcases lt_or_eq_of_le h2t with hlt | heq
        · have h5 : (q : ℚ) ≤ 2 ^ 53 - 1 := by
            have : q ≤ 2 ^ 53 - 1 := by omega
            have h6 : (q : ℚ) ≤ ((2 ^ 53 - 1 : Nat) : ℚ) := by exact_mod_cast this
            have h7 : ((2 ^ 53 - 1 : Nat) : ℚ) = 2 ^ 53 - 1 := by norm_num
            linarith
          linarith
        · have h5 := hev heq
          have : q ≤ 2 ^ 53 - 2 := by omega
          have h6 : (q : ℚ) ≤ ((2 ^ 53 - 2 : Nat) : ℚ) := by exact_mod_cast this
          have h7 : ((2 ^ 53 - 2 : Nat) : ℚ) = 2 ^ 53 - 2 := by norm_num
          linarith
      · have : q ≤ 2 ^ 53 - 2 := by omega
        have h6 : (q : ℚ) ≤ ((2 ^ 53 - 2 : Nat) : ℚ) := by exact_mod_cast this
        have h7 : ((2 ^ 53 - 2 : Nat) : ℚ) = 2 ^ 53 - 2 := by norm_num
        linarith
    · rw [hfv]
      exact nearest_scaled y c v e m hc hcdef hv hY2 hnear m' e' hm'

theorem RoundsTo_exact (v : ℚ) (f : Float64) (h : RoundsTo v f) (m k : Nat)
    (hm : m < 2 ^ 53) (hk : k ≤ 2045) (hv : v = floatValue m k) :
    ∃ m0 e0, f = Float64.finite m0 e0 ∧ floatValue m0 e0 = v := by
  cases f with
  | finite m0 e0 =>
    obtain ⟨_, _, _, _, hn⟩ := h
    refine ⟨m0, e0, rfl, ?_⟩
    have h1 := (hn m k hm hk).1
    rw [← hv, sub_self, abs_zero] at h1
    have h2 := abs_nonneg (floatValue m0 e0 - v)
    have h3 : |floatValue m0 e0 - v| = 0 := le_antisymm h1 h2
    exact sub_eq_zero.mp (abs_eq_zero.mp h3)
  | inf =>
    exfalso
    have h0 : (2 : ℚ) ^ 1024 - 2 ^ 970 ≤ v := h
    rw [float_threshold, hv, floatValue] at h0
    have hK : (0 : ℚ) < 2 ^ 1074 := by positivity
    have h1 : (m : ℚ) ≤ 2 ^ 53 - 1 := by
      have : m ≤ 2 ^ 53 - 1 := by omega
      have h6 : (m : ℚ) ≤ ((2 ^ 53 - 1 : Nat) : ℚ) := by exact_mod_cast this
      have h7 : ((2 ^ 53 - 1 : Nat) : ℚ) = 2 ^ 53 - 1 := by norm_num
      linarith
    have h2 : (2 : ℚ) ^ k ≤ 2 ^ 2045 := pow_le_pow_right₀ (by norm_num) hk
    have h3 : (m : ℚ) * 2 ^ k ≤ (2 ^ 53 - 1) * 2 ^ 2045 :=
      mul_le_mul h1 h2 (by positivity) (by norm_num)
    have h4 := (div_le_div_iff_of_pos_right hK).mp h0
    have h5 : (0 : ℚ) < 2 ^ 2045 := by positivity
    nlinarith

theorem digitsValue_append (a b : List Nat) :
    digitsValue (a ++ b) = digitsValue a * 10 ^ b.length + digitsValue b := by
  unfold digitsValue
  rw [List.foldl_append]
  generalize List.foldl (fun n b => 10 * n + (b - 48)) 0 a = x
  induction b generalizing x with
  | nil => simp
  | cons c b ih =>
    rw [List.foldl_cons, ih, List.foldl_cons, ih (10 * 0 + (c - 48))]
    simp only [List.length_cons, pow_succ]
    ring

theorem ParseFloat_integer (d : List Nat) (hd : d ≠ []) (hdd : ∀ b ∈ d, isDigit b = true) :
    ParseFloat d = roundFloat64 (digitsValue d) 1 ∧ decimalValue d = (digitsValue d : ℚ) := by
  have h1 : d.takeWhile isDigit = d := by
    have := takeWhile_digits_append d [] hdd (by decide)
    simpa using this
  unfold ParseFloat decimalValue
  simp only [h1, List.drop_length, List.drop_nil, List.length_nil, pow_zero, List.append_nil]
  refine ⟨by rw [if_pos ⟨hd, by simp⟩], by simp [digitsValue]⟩

theorem ParseFloat_fraction (d e : List Nat) (hd : d ≠ []) (he : e ≠ [])
    (hdd : ∀ b ∈ d, isDigit b = true) (hee : ∀ b ∈ e, isDigit b = true) :
    ParseFloat (d ++ 46 :: e) = roundFloat64 (digitsValue (d ++ e)) (10 ^ e.length) ∧
    decimalValue (d ++ 46 :: e) = (digitsValue (d ++ e) : ℚ) / ((10 ^ e.length : Nat) : ℚ) := by
  have h1 : (d ++ 46 :: e).takeWhile isDigit = d :=
    takeWhile_digits_append d (46 :: e) hdd (by show isDigit 46 = false; decide)
  unfold ParseFloat decimalValue
  simp only [h1, List.drop_left, List.drop_succ_cons, List.drop_zero, List.head?_cons]
  constructor
  · rw [if_pos]
    exact ⟨hd, Or.inr ⟨by simp, he, List.all_eq_true.mpr hee⟩⟩
  · rw [digitsValue_append]
    push_cast
    field_simp

theorem ParseFloat_rounds (d e : List Nat) (hd : d ≠ []) (he : e ≠ [])
    (hdd : ∀ b ∈ d, isDigit b = true) (hee : ∀ b ∈ e, isDigit b = true) :
    RoundsTo (decimalValue d) (ParseFloat d) ∧
    RoundsTo (decimalValue (d ++ 46 :: e)) (ParseFloat (d ++ 46 :: e)) := by
  obtain ⟨h1, h2⟩ := ParseFloat_integer d hd hdd
  obtain ⟨h3, h4⟩ := ParseFloat_fraction d e hd he hdd hee
  constructor
  · rw [h1, h2]
    have := roundFloat64_rounds (digitsValue d) 1 (by norm_num)
    simpa using this
  · rw [h3, h4]
    exact roundFloat64_rounds (digitsValue (d ++ e)) (10 ^ e.length) (by positivity)

/-- C7 (counterexample): the scan of the source `9007199254740993`, which is
`2^53 + 1`, completes with one `NUMBER` token and `EOF`; the literal of the
`NUMBER` token is the `float64` 9007199254740992, which is not the base-10 value
of its lexeme. -/
theorem number_literal_not_base_ten_value :
    ScanTokens (fun _ => none) 16 (New (bytes "9007199254740993")) =
      Res.ok (roundedNumberTokens, roundedNumberState, []) ∧
    floatValue (2 ^ 52) 1075 = 9007199254740992 ∧
    decimalValue (bytes "9007199254740993") = 9007199254740993 ∧
    floatValue (2 ^ 52) 1075 ≠ decimalValue (bytes "9007199254740993") := by
  have h := (ParseFloat_integer (bytes "9007199254740993") (by decide) (by decide)).2
  have h3 : digitsValue (bytes "9007199254740993") = 9007199254740993 := by decide
  rw [h3] at h
  refine ⟨by decide!, ?_, ?_, ?_⟩
  · rw [floatValue]; norm_num
  · rw [h]; norm_num
  · rw [h, floatValue]; norm_num

/-- C7 (amended): for non-empty strings `d` and `e` of ASCII digits, and any
fuel of at least the source length: scanning `d` returns a `NUMBER` token with
lexeme `d` and `EOF`; scanning `d.e` returns one `NUMBER` token with lexeme
`d.e` and `EOF`; scanning `d.` returns a `NUMBER` token with lexeme `d`, a
`DOT` token and `EOF`.  No `onError` call is made.  The literal of each
`NUMBER` token is the `float64` that rounding to nearest, ties to even, assigns
to the base-10 value of its lexeme, and it is that value itself whenever a
`float64` can hold it. -/
theorem number_literals_scanned (kw : Keywords) (d e : List Nat) (hd : d ≠ []) (he : e ≠ [])
    (hdd : ∀ b ∈ d, isDigit b = true) (hee : ∀ b ∈ e, isDigit b = true) :
    (∀ fuel, d.length ≤ fuel → ∃ s', ScanTokens kw fuel (New d) =
      Res.ok ([{ Typ := TokenType.NUMBER, Lexeme := d,
                 Literal := some [Value.number (ParseFloat d)], Line := 1 },
               eofToken 1], s', [])) ∧
    (∀ fuel, (d ++ 46 :: e).length ≤ fuel → ∃ s', ScanTokens kw fuel (New (d ++ 46 :: e)) =
      Res.ok ([{ Typ := TokenType.NUMBER, Lexeme := d ++ 46 :: e,
                 Literal := some [Value.number (ParseFloat (d ++ 46 :: e))], Line := 1 },
               eofToken 1], s', [])) ∧
    (∀ fuel, (d ++ [46]).length ≤ fuel → ∃ s', ScanTokens kw fuel (New (d ++ [46])) =
      Res.ok ([{ Typ := TokenType.NUMBER, Lexeme := d,
                 Literal := some [Value.number (ParseFloat d)], Line := 1 },
               { Typ := TokenType.DOT, Lexeme := [46], Literal := some [], Line := 1 },
               eofToken 1], s', [])) ∧
    (∀ l, l = d ∨ l = d ++ 46 :: e →
      RoundsTo (decimalValue l) (ParseFloat l) ∧
      ∀ m k : Nat, m < 2 ^ 53 → k ≤ 2045 → decimalValue l = floatValue m k →
        ∃ m0 e0, ParseFloat l = Float64.finite m0 e0 ∧ floatValue m0 e0 = decimalValue l) := by
  cases d with
  | nil => exact absurd rfl hd
  | cons c r =>
    have hc : isDigit c = true := hdd c (List.mem_cons_self _ _)
    have hr : ∀ b ∈ r, isDigit b = true := fun b hb => hdd b (List.mem_cons_of_mem _ hb)
    have hnil : isDigit (([] : List Nat).headD 0) = false := by decide
    refine ⟨fun fuel hf => ?_, fun fuel hf => ?_, fun fuel hf => ?_, fun l hl => ?_⟩
    · have hlen : numberLen r = 1 + r.length := by
        have := numberLen_integer r [] hr hnil (by decide)
        simpa using this
      have hL : Lex kw 1 (c :: r)
          [{ Typ := TokenType.NUMBER, Lexeme := c :: r,
             Literal := some [Value.number (ParseFloat (c :: r))], Line := 1 }] 1 [] := by
        refine Lex.step_eq _ [] (stepL_digit kw 1 c r hc) ?_ (Lex.done 1) ?_ rfl
        · simp only [hlen]
          rw [show 1 + r.length = r.length + 1 by omega]
          simp
        · simp only [hlen]
          rw [show 1 + r.length = r.length + 1 by omega]
          simp
      exact ScanTokens_of_Lex hL fuel hf
    · have hlen : numberLen (r ++ 46 :: e) = 1 + r.length + 1 + e.length := by
        have := numberLen_fraction r e [] hr hee he hnil
        simpa using this
      have hx : 1 + r.length + 1 + e.length = (r ++ 46 :: e).length + 1 := by
        simp; omega
      have hL : Lex kw 1 (c :: (r ++ 46 :: e))
          [{ Typ := TokenType.NUMBER, Lexeme := c :: (r ++ 46 :: e),
             Literal := some [Value.number (ParseFloat (c :: (r ++ 46 :: e)))], Line := 1 }] 1 [] := by
        refine Lex.step_eq _ [] (stepL_digit kw 1 c _ hc) ?_ (Lex.done 1) ?_ rfl
        · simp only [hlen, hx]
          simp
        · simp only [hlen, hx]
          rw [List.take_of_length_le (by simp)]
          simp
      exact ScanTokens_of_Lex hL fuel hf
    · have hlen : numberLen (r ++ [46]) = 1 + r.length := by
        exact numberLen_integer r [46] hr (by decide) (by decide)
      have hdot : Lex kw 1 [46]
          [{ Typ := TokenType.DOT, Lexeme := [46], Literal := some [], Line := 1 }] 1 [] := by
        refine Lex.step_eq (plainStep 1 [46] 1 TokenType.DOT) [] ?_ rfl (Lex.done 1) rfl rfl
        simp [stepL]
      have hL : Lex kw 1 (c :: (r ++ [46]))
          [{ Typ := TokenType.NUMBER, Lexeme := c :: r,
             Literal := some [Value.number (ParseFloat (c :: r))], Line := 1 },
           { Typ := TokenType.DOT, Lexeme := [46], Literal := some [], Line := 1 }] 1 [] := by
        refine Lex.step_eq _ [46] (stepL_digit kw 1 c _ hc) ?_ hdot ?_ rfl
        · simp only [hlen]
          rw [show 1 + r.length = r.length + 1 by omega]
          simp
        · simp only [hlen]
          rw [show 1 + r.length = r.length + 1 by omega]
          simp
      exact ScanTokens_of_Lex hL fuel hf
    · obtain ⟨h1, h2⟩ := ParseFloat_rounds (c :: r) e hd he hdd hee
      have hR : RoundsTo (decimalValue l) (ParseFloat l) := by
        rcases hl with rfl | rfl
        · exact h1
        · exact h2
      exact ⟨hR, fun m k hm hk hv => RoundsTo_exact _ _ hR m k hm hk hv⟩

/-- Witness for C7 (amended): the sources `123`, `12.5` and `12.`, whose
`NUMBER` literals are the numbers 123, 12.5 and 12. -/
theorem number_literals_scanned_witness :
    (∃ s', ScanTokens (fun _ => none) 3 (New (bytes "123")) =
      Res.ok ([{ Typ := TokenType.NUMBER, Lexeme := bytes "123",
                 Literal := some [Value.number (ParseFloat (bytes "123"))], Line := 1 },
               eofToken 1], s', [])) ∧
    (∃ s', ScanTokens (fun _ => none) 4 (New (bytes "12.5")) =
      Res.ok ([{ Typ := TokenType.NUMBER, Lexeme := bytes "12.5",
                 Literal := some [Value.number (ParseFloat (bytes "12.5"))], Line := 1 },
               eofToken 1], s', [])) ∧
    (∃ s', ScanTokens (fun _ => none) 3 (New (bytes "12.")) =
      Res.ok ([{ Typ := TokenType.NUMBER, Lexeme := bytes "12",
                 Literal := some [Value.number (ParseFloat (bytes "12"))], Line := 1 },
               { Typ := TokenType.DOT, Lexeme := [46], Literal := some [], Line := 1 },
               eofToken 1], s', [])) ∧
    (∃ m0 e0, ParseFloat (bytes "123") = Float64.finite m0 e0 ∧ floatValue m0 e0 = 123) ∧
    (∃ m0 e0, ParseFloat (bytes "12.5") = Float64.finite m0 e0 ∧ floatValue m0 e0 = 25 / 2) ∧
    (∃ m0 e0, ParseFloat (bytes "12") = Float64.finite m0 e0 ∧ floatValue m0 e0 = 12) := by
  have v123 : decimalValue (bytes "123") = 123 := by
    have h := (ParseFloat_integer (bytes "123") (by decide) (by decide)).2
    have h3 : digitsValue (bytes "123") = 123 := by decide
    rw [h3] at h
    rw [h]; norm_num
  have v12 : decimalValue (bytes "12") = 12 := by
    have h := (ParseFloat_integer (bytes "12") (by decide) (by decide)).2
    have h3 : digitsValue (bytes "12") = 12 := by decide
    rw [h3] at h
    rw [h]; norm_num
  have v125 : decimalValue (bytes "12" ++ 46 :: bytes "5") = 25 / 2 := by
    have h := (ParseFloat_fraction (bytes "12") (bytes "5") (by decide) (by decide) (by decide)
      (by decide)).2
    have h3 : digitsValue (bytes "12" ++ bytes "5") = 125 := by decide
    have h4 : (bytes "5").length = 1 := by decide
    rw [h3, h4] at h
    rw [h]; norm_num
  have a := number_literals_scanned (fun _ => none) (bytes "123") (bytes "5") (by decide)
    (by decide) (by decide) (by decide)
  have b := number_literals_scanned (fun _ => none) (bytes "12") (bytes "5") (by decide)
    (by decide) (by decide) (by decide)
  refine ⟨a.1 3 (by decide), b.2.1 4 (by decide), b.2.2.1 3 (by decide), ?_, ?_, ?_⟩
  · obtain ⟨m0, e0, h1, h2⟩ := (a.2.2.2 (bytes "123") (Or.inl rfl)).2 (123 * 2 ^ 46) 1028
      (by norm_num) (by norm_num) (by rw [v123, floatValue]; norm_num)
    exact ⟨m0, e0, h1, by rw [h2, v123]⟩
  · obtain ⟨m0, e0, h1, h2⟩ := (b.2.2.2 (bytes "12" ++ 46 :: bytes "5") (Or.inr rfl)).2 25 1073
      (by norm_num) (by norm_num) (by rw [v125, floatValue]; norm_num)
    exact ⟨m0, e0, h1, by rw [h2, v125]⟩
  · obtain ⟨m0, e0, h1, h2⟩ := (b.2.2.2 (bytes "12") (Or.inl rfl)).2 3 1076
      (by norm_num) (by norm_num) (by rw [v12, floatValue]; norm_num)
    exact ⟨m0, e0, h1, by rw [h2, v12]⟩

theorem Lex_forall {kw : Keywords} {ln : Nat} {rest : List Nat} {ts : List Token}
    {ln' : Nat} {cs : List Call} (hL : Lex kw ln rest ts ln' cs) (P : Token → Prop)
    (hP : ∀ ln c r o t, stepL kw ln c r = some o → o.tok = some t → P t) :
    ∀ t ∈ ts, P t := by
  induction hL with
  | done ln => intro t ht; cases ht
  | step ln c r o ts ln' cs ho _ ih =>
    intro t ht
    rcases List.mem_append.mp ht with h | h
    · cases hto : o.tok with
      | none => rw [hto] at h; cases h
      | some t0 =>
        rw [hto] at h
        have : t = t0 := by simpa using h
        subst this
        exact hP ln c r o t ho hto
    · exact ih t h

theorem punctType_mem {c : Nat} {ty : TokenType} (h : punctType c = some ty) :
    ty ∈ [TokenType.LEFT_PAREN, TokenType.RIGHT_PAREN, TokenType.LEFT_BRACE,
      TokenType.RIGHT_BRACE, TokenType.COMMA, TokenType.DOT, TokenType.MINUS, TokenType.PLUS,
      TokenType.SEMICOLON, TokenType.STAR] := by
  unfold punctType at h
  split_ifs at h <;> cases h <;> simp

theorem operatorTypes_mem {c : Nat} {ty1 ty2 : TokenType}
    (h : operatorTypes c = some (ty1, ty2)) :
    (ty1, ty2) ∈ [(TokenType.BANG, TokenType.BANG_EQUAL), (TokenType.EQUAL, TokenType.EQUAL_EQUAL),
      (TokenType.LESS, TokenType.LESS_EQUAL), (TokenType.GREATER, TokenType.GREATER_EQUAL)] := by
  unfold operatorTypes at h
  split_ifs at h <;> cases h <;> simp

theorem take_numberLen_wellFormed (c : Nat) (r : List Nat) (hc : isDigit c = true) :
    WellFormedNumber ((c :: r).take (numberLen r)) := by
  have hd : ∀ b ∈ c :: r.takeWhile isDigit, isDigit b = true := by
    intro b hb
    rcases List.mem_cons.mp hb with h | h
    · rw [h]; exact hc
    · exact List.mem_takeWhile_imp h
  unfold numberLen
  simp only []
  split_ifs with hfrac
  · obtain ⟨h46, hdig⟩ := hfrac
    cases hdr : r.drop (r.takeWhile isDigit).length with
    | nil => rw [hdr] at h46; simp at h46
    | cons a r3 =>
      rw [hdr] at h46 hdig
      have ha : a = 46 := by simpa using h46
      subst ha
      simp only [List.drop_succ_cons, List.drop_zero] at hdig ⊢
      refine ⟨c :: r.takeWhile isDigit, r3.takeWhile isDigit, by simp, hd,
        fun b hb => List.mem_takeWhile_imp hb, Or.inr ⟨?_, ?_⟩⟩
      · cases r3 with
        | nil => simp [isDigit] at hdig
        | cons b r4 =>
          have hb : isDigit b = true := by simpa using hdig
          simp [List.takeWhile_cons, hb]
      · rw [show 1 + (r.takeWhile isDigit).length + 1 + (r3.takeWhile isDigit).length
            = ((r.takeWhile isDigit).length + (1 + (r3.takeWhile isDigit).length)) + 1 by omega]
        rw [List.take_succ_cons, List.take_add, hdr, take_length_takeWhile]
        rw [show 1 + (r3.takeWhile isDigit).length = (r3.takeWhile isDigit).length + 1 by omega]
        rw [List.take_succ_cons, take_length_takeWhile]
        simp
  · refine ⟨c :: r.takeWhile isDigit, [], by simp, hd, by simp, Or.inl ?_⟩
    rw [show 1 + (r.takeWhile isDigit).length = (r.takeWhile isDigit).length + 1 by omega]
    rw [List.take_succ_cons, take_length_takeWhile]

theorem stepL_number_wellFormed (kw : Keywords) (hkw : ∀ w, kw w ≠ some TokenType.NUMBER)
    (ln c : Nat) (r : List Nat) (o : StepOut) (t : Token)
    (ho : stepL kw ln c r = some o) (ht : o.tok = some t) (hty : t.Typ = TokenType.NUMBER) :
    WellFormedNumber t.Lexeme := by
  cases stepL_shape kw ln c r o ho with
  | punct ty hc =>
    cases ht
    have := punctType_mem hc
    simp only [plainStep] at hty
    subst hty
    simp at this
  | op1 ty1 ty2 hc hn =>
    cases ht
    have := operatorTypes_mem hc
    simp only [plainStep] at hty
    subst hty
    simp at this
  | op2 ty1 ty2 hc hn =>
    cases ht
    have := operatorTypes_mem hc
    simp only [plainStep] at hty
    subst hty
    simp at this
  | slash hc hn => cases ht; cases hty
  | comment hc hn => cases ht
  | blank hc => cases ht
  | newline hc => cases ht
  | unterminated hc hg hend => cases ht
  | str hc hg hend => cases ht; cases hty
  | num hc => cases ht; exact take_numberLen_wellFormed c r hc
  | ident hc =>
    cases ht
    simp only [plainStep] at hty
    cases hk : kw ((c :: r).take (1 + (r.takeWhile isAlphaNumeric).length)) with
    | none => rw [hk] at hty; cases hty
    | some ty =>
      rw [hk] at hty
      simp only at hty
      rw [hty] at hk
      exact absurd hk (hkw _)
  | unexpected hc h4 h5 => cases ht

/-- C8: when the keyword table maps no word to the `NUMBER` category, then in
every completed scan of any source the lexeme of every `NUMBER` token is one or
more ASCII digits, optionally followed by a dot and one or more ASCII digits;
this lexeme is the text `number` hands to the decimal decoder. -/
theorem number_lexemes_well_formed (kw : Keywords)
    (hkw : ∀ w, kw w ≠ some TokenType.NUMBER) (src : List Nat) (fuel : Nat)
    (toks : List Token) (s : Scanner) (cs : List Call)
    (h : ScanTokens kw fuel (New src) = Res.ok (toks, s, cs)) :
    ∀ t ∈ toks, t.Typ = TokenType.NUMBER → WellFormedNumber t.Lexeme := by
  obtain ⟨ts, ln', hL, rfl⟩ := Lex_of_ScanTokens h
  intro t ht hty
  rcases List.mem_append.mp ht with h1 | h1
  · exact Lex_forall hL (fun t => t.Typ = TokenType.NUMBER → WellFormedNumber t.Lexeme)
      (fun ln c r o t ho hto => stepL_number_wellFormed kw hkw ln c r o t ho hto) t h1 hty
  · have : t = eofToken ln' := by simpa using h1
    rw [this] at hty
    cases hty

/-- Witness for C8: the `NUMBER` token of the source `12.5`. -/
theorem number_lexemes_well_formed_witness : WellFormedNumber (bytes "12.5") :=
  number_lexemes_well_formed (fun _ => none) (fun _ => by simp) (bytes "12.5") 4
    [{ Typ := TokenType.NUMBER, Lexeme := bytes "12.5",
       Literal := some [Value.number (ParseFloat (bytes "12.5"))], Line := 1 },
     eofToken 1]
    { source := bytes "12.5",
      tokens := [{ Typ := TokenType.NUMBER, Lexeme := bytes "12.5",
                   Literal := some [Value.number (ParseFloat (bytes "12.5"))], Line := 1 },
                 eofToken 1],
      start := 0, current := 4, line := 1 }
    [] (by decide!)
    { Typ := TokenType.NUMBER, Lexeme := bytes "12.5",
      Literal := some [Value.number (ParseFloat (bytes "12.5"))], Line := 1 }
    (by simp) rfl

/-! ## Identifiers and keywords -/

theorem isAlpha_bounds {c : Nat} (h : isAlpha c = true) :
    (97 ≤ c ∧ c ≤ 122) ∨ (65 ≤ c ∧ c ≤ 90) ∨ c = 95 := by
  simp only [isAlpha, Bool.or_eq_true, Bool.and_eq_true, decide_eq_true_eq] at h
  omega

theorem stepL_alpha (kw : Keywords) (ln c : Nat) (r : List Nat) (ha : isAlpha c = true) :
    stepL kw ln c r =
      some (plainStep ln (c :: r) (1 + (r.takeWhile isAlphaNumeric).length)
        (match kw ((c :: r).take (1 + (r.takeWhile isAlphaNumeric).length)) with
         | some t => t
         | none => TokenType.IDENTIFIER)) := by
  have hb := isAlpha_bounds ha
  have hdig : ¬ isDigit c = true := by
    intro hd
    have := isDigit_bounds hd
    omega
  unfold stepL
  rw [if_neg (show ¬ c = 40 by omega), if_neg (show ¬ c = 41 by omega), if_neg (show ¬ c = 123 by omega), if_neg (show ¬ c = 125 by omega), if_neg (show ¬ c = 44 by omega), if_neg (show ¬ c = 46 by omega), if_neg (show ¬ c = 45 by omega), if_neg (show ¬ c = 43 by omega), if_neg (show ¬ c = 59 by omega), if_neg (show ¬ c = 42 by omega), if_neg (show ¬ c = 33 by omega), if_neg (show ¬ c = 61 by omega), if_neg (show ¬ c = 60 by omega), if_neg (show ¬ c = 62 by omega), if_neg (show ¬ c = 47 by omega), if_neg (show ¬ c = 32 by omega), if_neg (show ¬ c = 13 by omega), if_neg (show ¬ c = 9 by omega), if_neg (show ¬ c = 10 by omega), if_neg (show ¬ c = 34 by omega), if_neg hdig, if_pos ha]

/-- C9: for every keyword table and every word made of an ASCII letter or
underscore `c` followed by ASCII letters, digits and underscores `r`, the scan
of the word (with any fuel of at least its length) returns exactly one token
followed by `EOF` and reports nothing; the token's lexeme is the whole word, it
carries no literal value, and its category is the table's entry for the word if
there is one and `IDENTIFIER` otherwise. -/
theorem identifier_or_keyword_scanned (kw : Keywords) (c : Nat) (r : List Nat)
    (hc : isAlpha c = true) (hr : ∀ b ∈ r, isAlphaNumeric b = true)
    (fuel : Nat) (hf : (c :: r).length ≤ fuel) :
    ∃ s', ScanTokens kw fuel (New (c :: r)) =
      Res.ok ([{ Typ := (match kw (c :: r) with
                         | some t => t
                         | none => TokenType.IDENTIFIER),
                 Lexeme := c :: r, Literal := some [], Line := 1 },
               eofToken 1], s', []) := by
  have htw : r.takeWhile isAlphaNumeric = r := List.takeWhile_eq_self_iff.mpr hr
  have hstep := stepL_alpha kw 1 c r hc
  rw [htw] at hstep
  have htake : (c :: r).take (1 + r.length) = c :: r := by
    rw [show 1 + r.length = (c :: r).length by simp; omega]
    exact List.take_length _
  have hdrop : (c :: r).drop (1 + r.length) = [] := by
    rw [show 1 + r.length = (c :: r).length by simp; omega]
    exact List.drop_length _
  rw [htake] at hstep
  have hL : Lex kw 1 (c :: r)
      [{ Typ := (match kw (c :: r) with
                 | some t => t
                 | none => TokenType.IDENTIFIER),
         Lexeme := c :: r, Literal := some [], Line := 1 }] 1 [] := by
    refine Lex.step_eq _ [] hstep hdrop (Lex.done 1) ?_ rfl
    simp [plainStep, htake]
  exact ScanTokens_of_Lex hL fuel hf

/-- Witness for C9: with `var` registered as a keyword, the word `var` is a
keyword token, and the source `var x = 10;` yields the keyword, the identifier
`x`, `EQUAL`, the number `10`, `SEMICOLON` and `EOF`. -/
theorem identifier_or_keyword_scanned_witness :
    (∃ s', ScanTokens varKeywords 3 (New (bytes "var")) =
      Res.ok ([{ Typ := TokenType.KEYWORD 0, Lexeme := bytes "var", Literal := some [],
                 Line := 1 }, eofToken 1], s', [])) ∧
    (∃ s', ScanTokens varKeywords 11 (New (bytes "var x = 10;")) =
      Res.ok (varExampleTokens, s', [])) :=
  ⟨identifier_or_keyword_scanned varKeywords 118 [97, 114] (by decide) (by decide) 3
    (by decide),
   ⟨{ source := bytes "var x = 10;", tokens := varExampleTokens, start := 10, current := 11,
      line := 1 }, by decide!⟩⟩

/-! ## Line comments and line numbers -/

theorem stepL_shift (kw : Keywords) (ln d c : Nat) (r : List Nat) (o : StepOut)
    (ho : stepL kw ln c r = some o) : stepL kw (ln + d) c r = some (bumpStep d o) := by
  unfold stepL at ho ⊢
  by_cases h40 : c = 40
  · rw [if_pos h40] at ho ⊢
    cases ho
    rfl
  rw [if_neg h40] at ho ⊢
  by_cases h41 : c = 41
  · rw [if_pos h41] at ho ⊢
    cases ho
    rfl
  rw [if_neg h41] at ho ⊢
  by_cases h123 : c = 123
  · rw [if_pos h123] at ho ⊢
    cases ho
    rfl
  rw [if_neg h123] at ho ⊢
  by_cases h125 : c = 125
  · rw [if_pos h125] at ho ⊢
    cases ho
    rfl
  rw [if_neg h125] at ho ⊢
  by_cases h44 : c = 44
  · rw [if_pos h44] at ho ⊢
    cases ho
    rfl
  rw [if_neg h44] at ho ⊢
  by_cases h46 : c = 46
  · rw [if_pos h46] at ho ⊢
    cases ho
    rfl
  rw [if_neg h46] at ho ⊢
  by_cases h45 : c = 45
  · rw [if_pos h45] at ho ⊢
    cases ho
    rfl
  rw [if_neg h45] at ho ⊢
  by_cases h43 : c = 43
  · rw [if_pos h43] at ho ⊢
    cases ho
    rfl
  rw [if_neg h43] at ho ⊢
  by_cases h59 : c = 59
  · rw [if_pos h59] at ho ⊢
    cases ho
    rfl
  rw [if_neg h59] at ho ⊢
  by_cases h42 : c = 42
  · rw [if_pos h42] at ho ⊢
    cases ho
    rfl
  rw [if_neg h42] at ho ⊢
  by_cases h33 : c = 33
  · rw [if_pos h33] at ho ⊢
    by_cases h1 : r.head? = some 61
    · rw [if_pos h1] at ho ⊢
      cases ho
      rfl
    · rw [if_neg h1] at ho ⊢
      cases ho
      rfl
  rw [if_neg h33] at ho ⊢
  by_cases h61 : c = 61
  · rw [if_pos h61] at ho ⊢
    by_cases h1 : r.head? = some 61
    · rw [if_pos h1] at ho ⊢
      cases ho
      rfl
    · rw [if_neg h1] at ho ⊢
      cases ho
      rfl
  rw [if_neg h61] at ho ⊢
  by_cases h60 : c = 60
  · rw [if_pos h60] at ho ⊢
    by_cases h1 : r.head? = some 61
    · rw [if_pos h1] at ho ⊢
      cases ho
      rfl
    · rw [if_neg h1] at ho ⊢
      cases ho
      rfl
  rw [if_neg h60] at ho ⊢
  by_cases h62 : c = 62
  · rw [if_pos h62] at ho ⊢
    by_cases h1 : r.head? = some 61
    · rw [if_pos h1] at ho ⊢
      cases ho
      rfl
    · rw [if_neg h1] at ho ⊢
      cases ho
      rfl
  rw [if_neg h62] at ho ⊢
  by_cases h47 : c = 47
  · rw [if_pos h47] at ho ⊢
    by_cases h1 : r.head? = some 47
    · rw [if_pos h1] at ho ⊢
      cases ho
      rfl
    · rw [if_neg h1] at ho ⊢
      cases ho
      rfl
  rw [if_neg h47] at ho ⊢
  by_cases h32 : c = 32
  · rw [if_pos h32] at ho ⊢
    cases ho
    rfl
  rw [if_neg h32] at ho ⊢
  by_cases h13 : c = 13
  · rw [if_pos h13] at ho ⊢
    cases ho
    rfl
  rw [if_neg h13] at ho ⊢
  by_cases h9 : c = 9
  · rw [if_pos h9] at ho ⊢
    cases ho
    rfl
  rw [if_neg h9] at ho ⊢
  by_cases h10 : c = 10
  · rw [if_pos h10] at ho ⊢
    cases ho
    simp only [bumpStep, skipStep, Option.map_none', List.map_nil, StepOut.mk.injEq,
      Option.some.injEq, true_and, and_true]
    omega
  rw [if_neg h10] at ho ⊢
  by_cases h34 : c = 34
  · rw [if_pos h34] at ho ⊢
    by_cases hg : stringStops r = true
    · rw [if_pos hg] at ho ⊢
      simp only [] at ho ⊢
      by_cases hend : r.drop (r.takeWhile isNewline).length = []
      · rw [if_pos hend] at ho ⊢
        cases ho
        simp only [bumpStep, bumpCall, Option.map_none', List.map_cons, List.map_nil,
          Option.some.injEq, StepOut.mk.injEq, true_and, List.cons.injEq, Prod.mk.injEq,
          and_true]
        omega
      · rw [if_neg hend] at ho ⊢
        cases ho
        simp only [bumpStep, bumpTok, Option.map_some', List.map_nil, Option.some.injEq,
          StepOut.mk.injEq, true_and, and_true, Token.mk.injEq]
        omega
    · rw [if_neg hg] at ho
      cases ho
  rw [if_neg h34] at ho ⊢
  by_cases hdig : isDigit c = true
  · rw [if_pos hdig] at ho ⊢
    cases ho
    rfl
  rw [if_neg hdig] at ho ⊢
  by_cases halpha : isAlpha c = true
  · rw [if_pos halpha] at ho ⊢
    cases ho
    rfl
  rw [if_neg halpha] at ho ⊢
  cases ho
  rfl

theorem Lex_shift {kw : Keywords} {ln : Nat} {rest : List Nat} {ts : List Token}
    {ln' : Nat} {cs : List Call} (d : Nat) (hL : Lex kw ln rest ts ln' cs) :
    Lex kw (ln + d) rest (ts.map (bumpTok d)) (ln' + d) (cs.map (bumpCall d)) := by
  induction hL with
  | done ln => exact Lex.done _
  | step ln c r o ts ln' cs ho _ ih =>
    refine Lex.step_eq (bumpStep d o) _ (stepL_shift kw ln d c r o ho) rfl ih ?_ ?_
    · cases hto : o.tok <;> simp [bumpStep, hto]
    · simp [bumpStep]

theorem takeWhile_notNewline_append (t rest : List Nat) (ht : ∀ b ∈ t, b ≠ 10) :
    (t ++ 10 :: rest).takeWhile notNewline = t := by
  rw [List.takeWhile_append_of_pos (fun b hb => by simp [notNewline, ht b hb])]
  simp [List.takeWhile_cons, notNewline]

theorem takeWhile_notNewline_self (t : List Nat) (ht : ∀ b ∈ t, b ≠ 10) :
    t.takeWhile notNewline = t :=
  List.takeWhile_eq_self_iff.mpr (fun b hb => by simp [notNewline, ht b hb])

/-- C10: for a text `t` without newline and a text `rest` whose scan completes
with tokens `toks` and `onError` calls `cs`, the scan of `//`, `t`, a newline
and `rest` completes (with any fuel of at least the source length), emits no
token for the comment, and returns `toks` with every line increased by 1 and
makes the calls `cs` with every line increased by 1; and the scan of `//`
followed by `t` alone returns just the `EOF` token on line 1. -/
theorem line_comment_skipped (kw : Keywords) (t rest : List Nat) (ht : ∀ b ∈ t, b ≠ 10)
    (fuel : Nat) (toks : List Token) (s : Scanner) (cs : List Call)
    (h : ScanTokens kw fuel (New rest) = Res.ok (toks, s, cs)) :
    (∀ fuel', (47 :: 47 :: (t ++ 10 :: rest)).length ≤ fuel' →
      ∃ s', ScanTokens kw fuel' (New (47 :: 47 :: (t ++ 10 :: rest))) =
        Res.ok (toks.map (bumpTok 1), s', cs.map (bumpCall 1))) ∧
    (∀ fuel', (47 :: 47 :: t).length ≤ fuel' →
      ∃ s', ScanTokens kw fuel' (New (47 :: 47 :: t)) = Res.ok ([eofToken 1], s', [])) := by
  obtain ⟨ts, ln', hL, rfl⟩ := Lex_of_ScanTokens h
  constructor
  · intro fuel' hf
    have hcom : stepL kw 1 47 (47 :: (t ++ 10 :: rest)) = some (skipStep 1 (2 + t.length)) := by
      simp [stepL, takeWhile_notNewline_append t rest ht]
    have hnl : stepL kw 1 10 rest = some (skipStep (1 + 1) 1) := by
      simp [stepL]
    have h2 : Lex kw 1 (10 :: rest) (ts.map (bumpTok 1)) (ln' + 1) (cs.map (bumpCall 1)) :=
      Lex.step_eq _ rest hnl rfl (Lex_shift 1 hL) rfl rfl
    have h3 : Lex kw 1 (47 :: 47 :: (t ++ 10 :: rest)) (ts.map (bumpTok 1)) (ln' + 1)
        (cs.map (bumpCall 1)) := by
      refine Lex.step_eq _ (10 :: rest) hcom ?_ h2 rfl rfl
      simp only [skipStep]
      rw [show 2 + t.length = t.length + 1 + 1 by omega]
      simp
    obtain ⟨s', hs'⟩ := ScanTokens_of_Lex h3 fuel' hf
    exact ⟨s', by rw [hs']; simp [bumpTok, eofToken]⟩
  · intro fuel' hf
    have hcom : stepL kw 1 47 (47 :: t) = some (skipStep 1 (2 + t.length)) := by
      simp [stepL, takeWhile_notNewline_self t ht]
    have h3 : Lex kw 1 (47 :: 47 :: t) [] 1 [] := by
      refine Lex.step_eq _ [] hcom ?_ (Lex.done 1) rfl rfl
      simp only [skipStep]
      rw [show 2 + t.length = t.length + 1 + 1 by omega]
      simp
    exact ScanTokens_of_Lex h3 fuel' hf

/-- Witness for C10: the source `// comment`, newline, `123` yields one
`NUMBER` token for `123` on line 2 and `EOF` on line 2, and `// comment` alone
yields `EOF` on line 1. -/
theorem line_comment_skipped_witness :
    (∃ s', ScanTokens (fun _ => none) 14 (New (bytes "// comment\n123")) =
      Res.ok ([{ Typ := TokenType.NUMBER, Lexeme := bytes "123",
                 Literal := some [Value.number (ParseFloat (bytes "123"))], Line := 2 },
               eofToken 2], s', [])) ∧
    (∃ s', ScanTokens (fun _ => none) 10 (New (bytes "// comment")) =
      Res.ok ([eofToken 1], s', [])) :=
  ⟨(line_comment_skipped (fun _ => none) (bytes " comment") (bytes "123") (by decide) 3
      [{ Typ := TokenType.NUMBER, Lexeme := bytes "123",
         Literal := some [Value.number (ParseFloat (bytes "123"))], Line := 1 }, eofToken 1]
      { source := bytes "123",
        tokens := [{ Typ := TokenType.NUMBER, Lexeme := bytes "123",
                     Literal := some [Value.number (ParseFloat (bytes "123"))], Line := 1 },
                   eofToken 1],
        start := 0, current := 3, line := 1 } [] (by decide!)).1 14 (by decide),
   (line_comment_skipped (fun _ => none) (bytes " comment") (bytes "123") (by decide) 3
      [{ Typ := TokenType.NUMBER, Lexeme := bytes "123",
         Literal := some [Value.number (ParseFloat (bytes "123"))], Line := 1 }, eofToken 1]
      { source := bytes "123",
        tokens := [{ Typ := TokenType.NUMBER, Lexeme := bytes "123",
                     Literal := some [Value.number (ParseFloat (bytes "123"))], Line := 1 },
                   eofToken 1],
        start := 0, current := 3, line := 1 } [] (by decide!)).2 10 (by decide)⟩

/-! ## Round trip of punctuation and operators -/

theorem stepL_punct (kw : Keywords) (ln c : Nat) (r : List Nat) (ty : TokenType)
    (hc : punctType c = some ty) : stepL kw ln c r = some (plainStep ln (c :: r) 1 ty) := by
  unfold punctType at hc
  unfold stepL
  by_cases h40 : c = 40
  · rw [if_pos h40] at hc ⊢
    cases hc
    rfl
  rw [if_neg h40] at hc ⊢
  by_cases h41 : c = 41
  · rw [if_pos h41] at hc ⊢
    cases hc
    rfl
  rw [if_neg h41] at hc ⊢
  by_cases h123 : c = 123
  · rw [if_pos h123] at hc ⊢
    cases hc
    rfl
  rw [if_neg h123] at hc ⊢
  by_cases h125 : c = 125
  · rw [if_pos h125] at hc ⊢
    cases hc
    rfl
  rw [if_neg h125] at hc ⊢
  by_cases h44 : c = 44
  · rw [if_pos h44] at hc ⊢
    cases hc
    rfl
  rw [if_neg h44] at hc ⊢
  by_cases h46 : c = 46
  · rw [if_pos h46] at hc ⊢
    cases hc
    rfl
  rw [if_neg h46] at hc ⊢
  by_cases h45 : c = 45
  · rw [if_pos h45] at hc ⊢
    cases hc
    rfl
  rw [if_neg h45] at hc ⊢
  by_cases h43 : c = 43
  · rw [if_pos h43] at hc ⊢
    cases hc
    rfl
  rw [if_neg h43] at hc ⊢
  by_cases h59 : c = 59
  · rw [if_pos h59] at hc ⊢
    cases hc
    rfl
  rw [if_neg h59] at hc ⊢
  by_cases h42 : c = 42
  · rw [if_pos h42] at hc ⊢
    cases hc
    rfl
  rw [if_neg h42] at hc ⊢
  cases hc

theorem stepL_operator (kw : Keywords) (ln c : Nat) (r : List Nat) (ty1 ty2 : TokenType)
    (hc : operatorTypes c = some (ty1, ty2)) :
    stepL kw ln c r = some (if r.head? = some 61 then plainStep ln (c :: r) 2 ty2
      else plainStep ln (c :: r) 1 ty1) := by
  unfold operatorTypes at hc
  split_ifs at hc <;> cases hc <;> subst_vars <;> (rw [apply_ite some]; rfl)

theorem stepL_slash (kw : Keywords) (ln : Nat) (r : List Nat) (hn : ¬ r.head? = some 47) :
    stepL kw ln 47 r = some (plainStep ln (47 :: r) 1 TokenType.SLASH) := by
  have h : stepL kw ln 47 r = (if r.head? = some 47 then
      some (skipStep ln (2 + ((r.drop 1).takeWhile notNewline).length))
      else some (plainStep ln (47 :: r) 1 TokenType.SLASH)) := rfl
  rw [h, if_neg hn]

theorem stepL_operator_token (kw : Keywords)
    (hkw : ∀ w ty, ty ∈ operatorCategories → kw w ≠ some ty)
    (ln c : Nat) (r : List Nat) (o : StepOut) (t : Token)
    (ho : stepL kw ln c r = some o) (ht : o.tok = some t)
    (hty : t.Typ ∈ operatorCategories) :
    ∃ c' r', t.Lexeme = c' :: r' ∧
      stepL kw 1 c' r' = some (plainStep 1 (c' :: r') (r'.length + 1) t.Typ) := by
  cases stepL_shape kw ln c r o ho with
  | punct ty hc =>
    cases ht
    exact ⟨c, [], rfl, stepL_punct kw 1 c [] ty hc⟩
  | op1 ty1 ty2 hc hn =>
    cases ht
    refine ⟨c, [], rfl, ?_⟩
    rw [stepL_operator kw 1 c [] ty1 ty2 hc]
    simp [plainStep]
  | op2 ty1 ty2 hc hn =>
    cases ht
    cases r with
    | nil => simp at hn
    | cons d r2 =>
      have hd : d = 61 := by simpa using hn
      subst hd
      refine ⟨c, [61], rfl, ?_⟩
      rw [stepL_operator kw 1 c [61] ty1 ty2 hc]
      simp [plainStep]
  | slash hc hn =>
    cases ht
    subst hc
    exact ⟨47, [], rfl, stepL_slash kw 1 [] (by simp)⟩
  | comment hc hn => cases ht
  | blank hc => cases ht
  | newline hc => cases ht
  | unterminated hc hg hend => cases ht
  | str hc hg hend =>
    cases ht
    simp [operatorCategories] at hty
  | num hc =>
    cases ht
    simp [operatorCategories] at hty
  | ident hc =>
    cases ht
    simp only [plainStep] at hty
    cases hk : kw ((c :: r).take (1 + (r.takeWhile isAlphaNumeric).length)) with
    | none =>
      rw [hk] at hty
      simp [operatorCategories] at hty
    | some ty =>
      rw [hk] at hty
      exact absurd hk (hkw _ ty hty)
  | unexpected hc h4 h5 => cases ht

/-- C11: when the keyword table maps no word to a punctuation or operator
category, every token of such a category in a completed scan has a lexeme
whose scan on its own (with any fuel of at least its length) returns exactly
one token of the same category and the same lexeme, followed by `EOF`, and
reports nothing. -/
theorem operator_lexeme_round_trip (kw : Keywords)
    (hkw : ∀ w ty, ty ∈ operatorCategories → kw w ≠ some ty)
    (src : List Nat) (fuel : Nat) (toks : List Token) (s : Scanner) (cs : List Call)
    (h : ScanTokens kw fuel (New src) = Res.ok (toks, s, cs))
    (t : Token) (ht : t ∈ toks) (hty : t.Typ ∈ operatorCategories) :
    ∀ fuel', t.Lexeme.length ≤ fuel' →
      ∃ s', ScanTokens kw fuel' (New t.Lexeme) =
        Res.ok ([{ Typ := t.Typ, Lexeme := t.Lexeme, Literal := some [], Line := 1 },
                 eofToken 1], s', []) := by
  obtain ⟨ts, ln', hL, rfl⟩ := Lex_of_ScanTokens h
  intro fuel' hf
  rcases List.mem_append.mp ht with h1 | h1
  · obtain ⟨c', r', hlex, hstep⟩ := Lex_forall hL
      (fun t => t.Typ ∈ operatorCategories → ∃ c' r', t.Lexeme = c' :: r' ∧
        stepL kw 1 c' r' = some (plainStep 1 (c' :: r') (r'.length + 1) t.Typ))
      (fun ln c r o t ho hto hty => stepL_operator_token kw hkw ln c r o t ho hto hty) t h1 hty
    have hL' : Lex kw 1 (c' :: r')
        [{ Typ := t.Typ, Lexeme := c' :: r', Literal := some [], Line := 1 }] 1 [] := by
      refine Lex.step_eq _ [] hstep ?_ (Lex.done 1) ?_ rfl
      · simp [plainStep]
      · simp [plainStep]
    rw [hlex] at hf ⊢
    exact ScanTokens_of_Lex hL' fuel' hf
  · have : t = eofToken ln' := by simpa using h1
    rw [this] at hty
    simp [operatorCategories, eofToken] at hty

/-- Witness for C11: the `EQUAL_EQUAL` token of the source `a == b`, scanned
again from its lexeme `==`. -/
theorem operator_lexeme_round_trip_witness :
    ∃ s', ScanTokens (fun _ => none) 2 (New (bytes "==")) =
      Res.ok ([{ Typ := TokenType.EQUAL_EQUAL, Lexeme := bytes "==", Literal := some [],
                 Line := 1 }, eofToken 1], s', []) :=
  operator_lexeme_round_trip (fun _ => none) (fun _ _ _ => by simp) (bytes "a == b") 6
    roundTripTokens
    { source := bytes "a == b", tokens := roundTripTokens, start := 5, current := 6, line := 1 }
    [] (by decide!)
    { Typ := TokenType.EQUAL_EQUAL, Lexeme := bytes "==", Literal := some [], Line := 1 }
    (by decide) (by decide) 2 (by decide)

/-! ## The line counter -/

theorem count_newline_zero (l : List Nat) (h : ∀ b ∈ l, b ≠ 10) : l.count 10 = 0 :=
  List.count_eq_zero.mpr (fun hm => h 10 hm rfl)

theorem drop_length_takeWhile (p : Nat → Bool) (l : List Nat) :
    l.drop (l.takeWhile p).length = l.dropWhile p := by
  induction l with
  | nil => rfl
  | cons a l ih =>
    by_cases h : p a = true
    · simp [List.takeWhile_cons, List.dropWhile_cons, h, ih]
    · simp [List.takeWhile_cons, List.dropWhile_cons, h]

theorem punctType_ne_newline {c : Nat} {ty : TokenType} (hc : punctType c = some ty) :
    c ≠ 10 := by
  intro h
  subst h
  have : punctType 10 = none := rfl
  rw [this] at hc
  cases hc

theorem operatorTypes_ne_newline {c : Nat} {ty : TokenType × TokenType}
    (hc : operatorTypes c = some ty) : c ≠ 10 := by
  intro h
  subst h
  have : operatorTypes 10 = none := rfl
  rw [this] at hc
  cases hc

theorem isDigit_ne_newline {b : Nat} (h : isDigit b = true) : b ≠ 10 := by
  have := isDigit_bounds h
  omega

theorem isAlphaNumeric_ne_newline {b : Nat} (h : isAlphaNumeric b = true) : b ≠ 10 := by
  simp only [isAlphaNumeric, Bool.or_eq_true] at h
  rcases h with h | h
  · have := isAlpha_bounds h
    omega
  · exact isDigit_ne_newline h

theorem wellFormedNumber_no_newline {l : List Nat} (h : WellFormedNumber l) :
    ∀ b ∈ l, b ≠ 10 := by
  obtain ⟨d, e, _, hd, he, hl⟩ := h
  intro b hb
  rcases hl with rfl | ⟨_, rfl⟩
  · exact isDigit_ne_newline (hd b hb)
  · rcases List.mem_append.mp hb with h1 | h1
    · exact isDigit_ne_newline (hd b h1)
    · rcases List.mem_cons.mp h1 with h2 | h2
      · omega
      · exact isDigit_ne_newline (he b h2)

theorem take_string_lexeme (r : List Nat) (hg : stringStops r = true)
    (hend : ¬ r.drop (r.takeWhile isNewline).length = []) :
    (34 :: r).take ((r.takeWhile isNewline).length + 2) = 34 :: (r.takeWhile isNewline ++ [34]) := by
  have hdw := drop_length_takeWhile isNewline r
  cases hd : r.drop (r.takeWhile isNewline).length with
  | nil => exact absurd hd hend
  | cons d r2 =>
    have hd34 : d = 34 := by
      rw [hd] at hdw
      simp only [stringStops, ← hdw] at hg
      simpa using hg
    subst hd34
    rw [show (r.takeWhile isNewline).length + 2 = ((r.takeWhile isNewline).length + 1) + 1 by omega,
      List.take_succ_cons, List.take_add, hd, take_length_takeWhile]
    simp

theorem stepL_line (kw : Keywords) (ln c : Nat) (r : List Nat) (o : StepOut)
    (h : stepL kw ln c r = some o) : o.line = ln + ((c :: r).take o.used).count 10 := by
  cases stepL_shape kw ln c r o h with
  | punct ty hc =>
    have := punctType_ne_newline hc
    simp [plainStep, List.count_cons, this]
  | op1 ty1 ty2 hc hn =>
    have := operatorTypes_ne_newline hc
    simp [plainStep, List.count_cons, this]
  | op2 ty1 ty2 hc hn =>
    have := operatorTypes_ne_newline hc
    cases r with
    | nil => simp at hn
    | cons d r2 =>
      have hd : d = 61 := by simpa using hn
      subst hd
      simp [plainStep, List.count_cons, this]
  | slash hc hn =>
    subst hc
    simp [plainStep, List.count_cons]
  | comment hc hn =>
    cases r with
    | nil => simp at hn
    | cons d r2 =>
      have hd : d = 47 := by simpa using hn
      subst hd
      subst hc
      simp only [skipStep, List.drop_succ_cons, List.drop_zero]
      rw [show 2 + (r2.takeWhile notNewline).length = (r2.takeWhile notNewline).length + 1 + 1
        by omega, List.take_succ_cons, List.take_succ_cons, take_length_takeWhile,
        List.count_cons_of_ne (by decide), List.count_cons_of_ne (by decide),
        count_newline_zero _ (fun b hb => by
          have := List.mem_takeWhile_imp hb
          simpa [notNewline] using this)]
      rfl
  | blank hc =>
    have : c ≠ 10 := by omega
    simp [skipStep, List.count_cons, this]
  | newline hc =>
    subst hc
    simp [skipStep]
  | unterminated hc hg hend =>
    subst hc
    simp only
    rw [show 1 + (r.takeWhile isNewline).length = (r.takeWhile isNewline).length + 1 by omega,
      List.take_succ_cons, take_length_takeWhile, List.count_cons_of_ne (by decide),
      List.count_eq_length.mpr (fun b hb => by
        have := List.mem_takeWhile_imp hb
        simpa [isNewline, eq_comm] using this)]
  | str hc hg hend =>
    subst hc
    simp only
    rw [take_string_lexeme r hg hend, List.count_cons_of_ne (by decide), List.count_append,
      List.count_eq_length.mpr (fun b hb => by
        have := List.mem_takeWhile_imp hb
        simpa [isNewline, eq_comm] using this)]
    simp
  | num hc =>
    simp only
    rw [count_newline_zero _ (wellFormedNumber_no_newline (take_numberLen_wellFormed c r hc))]
    rfl
  | ident hc =>
    simp only [plainStep]
    rw [show 1 + (r.takeWhile isAlphaNumeric).length = (r.takeWhile isAlphaNumeric).length + 1
      by omega, List.take_succ_cons, take_length_takeWhile]
    rw [count_newline_zero _ (by
      intro b hb
      rcases List.mem_cons.mp hb with h1 | h1
      · have := isAlpha_bounds hc
        omega
      · exact isAlphaNumeric_ne_newline (List.mem_takeWhile_imp h1))]
    rfl
  | unexpected hc h4 h5 =>
    have : c ≠ 10 := by
      intro h10
      subst h10
      simp at hc
    simp [List.count_cons, this]

theorem Lex_line {kw : Keywords} {ln : Nat} {rest : List Nat} {ts : List Token}
    {ln' : Nat} {cs : List Call} (hL : Lex kw ln rest ts ln' cs) :
    ln' = ln + rest.count 10 := by
  induction hL with
  | done ln => simp
  | step ln c r o ts ln' cs ho _ ih =>
    have h1 := stepL_line kw ln c r o ho
    have h2 : (c :: r).count 10 =
        ((c :: r).take o.used).count 10 + ((c :: r).drop o.used).count 10 := by
      rw [← List.count_append, List.take_append_drop]
    omega

/-- C12: for every source whose scan completes, the last token returned has
category `EOF`, an empty lexeme and the nil literal, and its line is 1 plus
the number of newline bytes in the whole source. -/
theorem final_token_is_eof_on_last_line (kw : Keywords) (src : List Nat) (fuel : Nat)
    (toks : List Token) (s : Scanner) (cs : List Call)
    (h : ScanTokens kw fuel (New src) = Res.ok (toks, s, cs)) :
    toks.getLast? = some { Typ := TokenType.EOF, Lexeme := [], Literal := none,
                           Line := 1 + src.count 10 } := by
  obtain ⟨ts, ln', hL, rfl⟩ := Lex_of_ScanTokens h
  rw [List.getLast?_concat, Lex_line hL]
  rfl

/-- Witness for C12: the source `// c`, newline, `(`, newline ends on line 3. -/
theorem final_token_is_eof_on_last_line_witness :
    [{ Typ := TokenType.LEFT_PAREN, Lexeme := bytes "(", Literal := some [], Line := 2 },
      eofToken 3].getLast? =
      some { Typ := TokenType.EOF, Lexeme := [], Literal := none,
             Line := 1 + (bytes "// c\n(\n").count 10 } :=
  final_token_is_eof_on_last_line (fun _ => none) (bytes "// c\n(\n") 7
    [{ Typ := TokenType.LEFT_PAREN, Lexeme := bytes "(", Literal := some [], Line := 2 },
     eofToken 3]
    { source := bytes "// c\n(\n",
      tokens := [{ Typ := TokenType.LEFT_PAREN, Lexeme := bytes "(", Literal := some [],
                   Line := 2 }, eofToken 3],
      start := 6, current := 7, line := 3 } [] (by decide!)

/-! ## The layout of the source and the line of a token -/

theorem stepL_token_line (kw : Keywords) (ln c : Nat) (r : List Nat) (o : StepOut) (t : Token)
    (h : stepL kw ln c r = some o) (ht : o.tok = some t) :
    t.Line = o.line ∧ (t.Typ = TokenType.STRING ∨ o.line = ln) := by
  cases stepL_shape kw ln c r o h with
  | punct ty hc => cases ht; exact ⟨rfl, Or.inr rfl⟩
  | op1 ty1 ty2 hc hn => cases ht; exact ⟨rfl, Or.inr rfl⟩
  | op2 ty1 ty2 hc hn => cases ht; exact ⟨rfl, Or.inr rfl⟩
  | slash hc hn => cases ht; exact ⟨rfl, Or.inr rfl⟩
  | comment hc hn => cases ht
  | blank hc => cases ht
  | newline hc => cases ht
  | unterminated hc hg hend => cases ht
  | str hc hg hend => cases ht; exact ⟨rfl, Or.inl rfl⟩
  | num hc => cases ht; exact ⟨rfl, Or.inr rfl⟩
  | ident hc => cases ht; exact ⟨rfl, Or.inr rfl⟩
  | unexpected hc h4 h5 => cases ht

/-! ### The layout of the source -/

theorem punctType_byte {c : Nat} {ty : TokenType} (h : punctType c = some ty) :
    c ∈ [40, 41, 123, 125, 44, 46, 45, 43, 59, 42] := by
  unfold punctType at h
  split_ifs at h <;> simp_all

theorem operatorTypes_byte {c : Nat} {ty : TokenType × TokenType}
    (h : operatorTypes c = some ty) : c ∈ [33, 61, 60, 62] := by
  unfold operatorTypes at h
  split_ifs at h <;> simp_all

theorem IsSkipped_cons {sp r' : List Nat} {c : Nat} {r : List Nat} (h : IsSkipped sp r')
    (hsrc : c :: r = sp ++ r') :
    (c = 32 ∨ c = 13 ∨ c = 9 ∨ c = 10) ∨ (c = 47 ∧ r.head? = some 47) ∨
    (c ∉ [40, 41, 123, 125, 44, 46, 45, 43, 59, 42, 33, 61, 60, 62, 47, 32, 13, 9, 10, 34] ∧
      isDigit c = false ∧ isAlpha c = false) ∨
    (c = 34 ∧ ∀ b ∈ r, b = 10) := by
  rcases h with ⟨c', rfl, hc'⟩ | ⟨t, rfl, _, _⟩ | ⟨c', rfl, h1, h2, h3⟩ | ⟨ns, rfl, hns, rfl⟩
  · simp only [List.singleton_append, List.cons.injEq] at hsrc
    obtain ⟨rfl, _⟩ := hsrc
    exact Or.inl hc'
  · simp only [List.cons_append, List.cons.injEq] at hsrc
    obtain ⟨rfl, rfl⟩ := hsrc
    exact Or.inr (Or.inl ⟨rfl, rfl⟩)
  · simp only [List.singleton_append, List.cons.injEq] at hsrc
    obtain ⟨rfl, _⟩ := hsrc
    exact Or.inr (Or.inr (Or.inl ⟨h1, h2, h3⟩))
  · simp only [List.cons_append, List.append_nil, List.cons.injEq] at hsrc
    obtain ⟨rfl, rfl⟩ := hsrc
    exact Or.inr (Or.inr (Or.inr ⟨rfl, hns⟩))

theorem IsSkipped_ne_nil {sp rest : List Nat} (h : IsSkipped sp rest) : sp ≠ [] := by
  rcases h with ⟨c', rfl, _⟩ | ⟨t, rfl, _, _⟩ | ⟨c', rfl, _⟩ | ⟨ns, rfl, _⟩ <;> simp

theorem comment_split_unique (t : List Nat) : ∀ (t' r r' : List Nat), (∀ b ∈ t, b ≠ 10) →
    (∀ b ∈ t', b ≠ 10) → (r = [] ∨ r.head? = some 10) → (r' = [] ∨ r'.head? = some 10) →
    t ++ r = t' ++ r' → t = t' ∧ r = r' := by
  induction t with
  | nil =>
    intro t' r r' _ ht' hr _ h
    cases t' with
    | nil => exact ⟨rfl, by simpa using h⟩
    | cons b t2 =>
      exfalso
      have hb := ht' b (List.mem_cons_self _ _)
      simp only [List.nil_append, List.cons_append] at h
      subst h
      rcases hr with hr | hr
      · cases hr
      · simp at hr; exact hb hr
  | cons a t1 ih =>
    intro t' r r' ht ht' hr hr' h
    cases t' with
    | nil =>
      exfalso
      have ha := ht a (List.mem_cons_self _ _)
      simp only [List.nil_append, List.cons_append] at h
      subst h
      rcases hr' with hr' | hr'
      · cases hr'
      · simp at hr'; exact ha hr'
    | cons b t2 =>
      simp only [List.cons_append, List.cons.injEq] at h
      obtain ⟨rfl, h⟩ := h
      obtain ⟨rfl, rfl⟩ := ih t2 r r' (fun x hx => ht x (List.mem_cons_of_mem _ hx))
        (fun x hx => ht' x (List.mem_cons_of_mem _ hx)) hr hr' h
      exact ⟨rfl, rfl⟩

/-- What is skipped at the start of a text is determined by the text. -/
theorem IsSkipped_unique {sp r sp' r' : List Nat} (h : IsSkipped sp r) (h' : IsSkipped sp' r')
    (heq : sp ++ r = sp' ++ r') : sp = sp' ∧ r = r' := by
  have hne := IsSkipped_ne_nil h
  cases hsp : sp with
  | nil => exact absurd hsp hne
  | cons c tl =>
    have h1 : c :: (tl ++ r) = sp ++ r := by rw [hsp]; rfl
    have h2 : c :: (tl ++ r) = sp' ++ r' := by rw [← heq, hsp]; rfl
    have k1 := IsSkipped_cons h h1
    have k2 := IsSkipped_cons h' h2
    rw [← hsp]
    rcases h with ⟨a, rfl, ha⟩ | ⟨t, rfl, ht, hr⟩ | ⟨a, rfl, ha1, ha2, ha3⟩ | ⟨ns, rfl, hns, rfl⟩
    · cases hsp
      rcases h' with ⟨a', rfl, ha'⟩ | ⟨t', rfl, ht', hr'⟩ | ⟨a', rfl, hb1, hb2, hb3⟩ |
        ⟨ns', rfl, hns', rfl⟩
      · simpa using heq
      · simp only [List.singleton_append, List.cons_append, List.cons.injEq] at heq
        obtain ⟨rfl, _⟩ := heq
        omega
      · simp only [List.singleton_append, List.cons.injEq] at heq
        obtain ⟨rfl, _⟩ := heq
        exfalso
        simp only [List.mem_cons, List.mem_singleton, not_or] at hb1
        omega
      · simp only [List.singleton_append, List.cons_append, List.cons.injEq] at heq
        obtain ⟨rfl, _⟩ := heq
        omega
    · cases hsp
      rcases h' with ⟨a', rfl, ha'⟩ | ⟨t', rfl, ht', hr'⟩ | ⟨a', rfl, hb1, hb2, hb3⟩ |
        ⟨ns', rfl, hns', rfl⟩
      · simp only [List.singleton_append, List.cons_append, List.cons.injEq] at heq
        obtain ⟨rfl, _⟩ := heq
        omega
      · simp only [List.cons_append, List.cons.injEq, true_and] at heq
        obtain ⟨rfl, rfl⟩ := comment_split_unique t t' r r' ht ht' hr hr' heq
        exact ⟨rfl, rfl⟩
      · simp only [List.singleton_append, List.cons_append, List.cons.injEq] at heq
        obtain ⟨rfl, _⟩ := heq
        simp at hb1
      · simp only [List.cons_append, List.cons.injEq] at heq
        obtain ⟨h47, _⟩ := heq
        omega
    · cases hsp
      simp only [List.mem_cons, List.mem_singleton, not_or] at ha1
      rcases h' with ⟨a', rfl, ha'⟩ | ⟨t', rfl, ht', hr'⟩ | ⟨a', rfl, hb1, hb2, hb3⟩ |
        ⟨ns', rfl, hns', rfl⟩
      · simp only [List.singleton_append, List.cons.injEq] at heq
        obtain ⟨rfl, _⟩ := heq
        exfalso
        omega
      · simp only [List.singleton_append, List.cons_append, List.cons.injEq] at heq
        obtain ⟨rfl, _⟩ := heq
        exfalso
        omega
      · simpa using heq
      · simp only [List.singleton_append, List.cons_append, List.cons.injEq] at heq
        obtain ⟨rfl, _⟩ := heq
        exfalso
        omega
    · cases hsp
      rcases h' with ⟨a', rfl, ha'⟩ | ⟨t', rfl, ht', hr'⟩ | ⟨a', rfl, hb1, hb2, hb3⟩ |
        ⟨ns', rfl, hns', rfl⟩
      · simp only [List.singleton_append, List.cons_append, List.cons.injEq] at heq
        obtain ⟨rfl, _⟩ := heq
        omega
      · simp only [List.cons_append, List.cons.injEq] at heq
        obtain ⟨h47, _⟩ := heq
        omega
      · simp only [List.singleton_append, List.cons_append, List.cons.injEq] at heq
        obtain ⟨rfl, _⟩ := heq
        simp at hb1
      · simpa using heq

/-- Two layouts of one text that hold the same tokens are the same layout. -/
theorem Layout_unique {before src : List Nat} {pts : List (List Nat × Token)}
    (h : Layout IsSkipped before src pts) :
    ∀ pts', Layout IsSkipped before src pts' → pts.map Prod.snd = pts'.map Prod.snd →
      pts = pts' := by
  induction h with
  | done before =>
    intro pts' h' _
    cases h' with
    | done _ => rfl
    | skip _ sp rest _ _ hsrc hsp _ =>
      exfalso
      have := IsSkipped_ne_nil hsp
      cases sp with
      | nil => exact this rfl
      | cons a l => cases hsrc
    | token _ t rest _ pts2 hsrc hne _ _ =>
      exfalso
      cases hl : t.Lexeme with
      | nil => exact hne hl
      | cons a l => rw [hl] at hsrc; cases hsrc
  | skip before sp rest src pts hsrc hsp _ ih =>
    intro pts' h' hmap
    cases h' with
    | done _ =>
      exfalso
      have := IsSkipped_ne_nil hsp
      cases sp with
      | nil => exact this rfl
      | cons a l => cases hsrc
    | skip _ sp' rest' _ _ hsrc' hsp' h2 =>
      obtain ⟨rfl, rfl⟩ := IsSkipped_unique hsp hsp' (by rw [← hsrc, ← hsrc'])
      exact ih _ h2 hmap
    | token _ t rest' _ pts2 hsrc' hne hno _ => exact absurd hsp (hno sp rest hsrc)
  | token before t rest src pts hsrc hne hno _ ih =>
    intro pts' h' hmap
    cases h' with
    | done _ =>
      exfalso
      cases hl : t.Lexeme with
      | nil => exact hne hl
      | cons a l => rw [hl] at hsrc; cases hsrc
    | skip _ sp' rest' _ _ hsrc' hsp' _ => exact absurd hsp' (hno sp' rest' hsrc')
    | token _ t' rest' _ pts2 hsrc' _ _ h2 =>
      simp only [List.map_cons, List.cons.injEq] at hmap
      obtain ⟨rfl, hmap⟩ := hmap
      have hr : rest = rest' := List.append_cancel_left (hsrc.symm.trans hsrc')
      subst hr
      rw [ih _ h2 hmap]
theorem not_skipped_at {c : Nat} {r : List Nat}
    (h : c ∈ [40, 41, 123, 125, 44, 46, 45, 43, 59, 42, 33, 61, 60, 62] ∨
      (c = 47 ∧ ¬ r.head? = some 47) ∨ (c = 34 ∧ ¬ ∀ b ∈ r, b = 10) ∨
      isDigit c = true ∨ isAlpha c = true) :
    ∀ sp r', c :: r = sp ++ r' → ¬ IsSkipped sp r' := by
  intro sp r' hsrc hsk
  have hd : isDigit c = true → 48 ≤ c ∧ c ≤ 57 := isDigit_bounds
  have ha : isAlpha c = true → (97 ≤ c ∧ c ≤ 122) ∨ (65 ≤ c ∧ c ≤ 90) ∨ c = 95 := isAlpha_bounds
  rcases IsSkipped_cons hsk hsrc with k | ⟨k1, k2⟩ | ⟨k1, k2, k3⟩ | ⟨k1, k2⟩
  · rcases h with h | ⟨h, _⟩ | ⟨h, _⟩ | h | h
    · simp only [List.mem_cons, List.mem_singleton, List.not_mem_nil, or_false] at h
      omega
    · omega
    · omega
    · have := hd h; omega
    · have := ha h; omega
  · rcases h with h | ⟨_, h⟩ | ⟨h, _⟩ | h | h
    · simp only [List.mem_cons, List.mem_singleton, List.not_mem_nil, or_false] at h
      omega
    · exact h k2
    · omega
    · have := hd h; omega
    · have := ha h; omega
  · simp only [List.mem_cons, List.mem_singleton, List.not_mem_nil, or_false, not_or] at k1
    rcases h with h | ⟨h, _⟩ | ⟨h, _⟩ | h | h
    · simp only [List.mem_cons, List.mem_singleton, List.not_mem_nil, or_false] at h
      omega
    · omega
    · omega
    · rw [h] at k2; cases k2
    · rw [h] at k3; cases k3
  · rcases h with h | ⟨h, _⟩ | ⟨_, h⟩ | h | h
    · simp only [List.mem_cons, List.mem_singleton, List.not_mem_nil, or_false] at h
      omega
    · omega
    · exact h k2
    · have := hd h; omega
    · have := ha h; omega

theorem dropWhile_notNewline_head (l : List Nat) :
    l.dropWhile notNewline = [] ∨ (l.dropWhile notNewline).head? = some 10 := by
  induction l with
  | nil => exact Or.inl rfl
  | cons a l ih =>
    by_cases h : a = 10
    · right
      simp [List.dropWhile_cons, notNewline, h]
    · simpa [List.dropWhile_cons, notNewline, h] using ih

theorem take_succ_ne_nil (c : Nat) (r : List Nat) (k : Nat) (hk : 1 ≤ k) :
    (c :: r).take k ≠ [] := by
  cases k with
  | zero => omega
  | succ n => simp

theorem stepL_span (kw : Keywords) (ln c : Nat) (r : List Nat) (o : StepOut)
    (h : stepL kw ln c r = some o) :
    (∀ t, o.tok = some t → t.Lexeme = (c :: r).take o.used) ∧
    (∀ t, o.tok = some t → t.Lexeme ≠ [] ∧ ∀ sp r', c :: r = sp ++ r' → ¬ IsSkipped sp r') ∧
    (o.tok = none → IsSkipped ((c :: r).take o.used) ((c :: r).drop o.used)) := by
  have hused := (stepL_used kw ln c r o h).1
  have hlex : ∀ t, o.tok = some t → t.Lexeme = (c :: r).take o.used := by
    cases stepL_shape kw ln c r o h with
    | punct ty hc => exact fun t ht => (by cases ht; rfl)
    | op1 ty1 ty2 hc hn => exact fun t ht => (by cases ht; rfl)
    | op2 ty1 ty2 hc hn => exact fun t ht => (by cases ht; rfl)
    | slash hc hn => exact fun t ht => (by cases ht; rfl)
    | comment hc hn => exact fun t ht => (by cases ht)
    | blank hc => exact fun t ht => (by cases ht)
    | newline hc => exact fun t ht => (by cases ht)
    | unterminated hc hg hend => exact fun t ht => (by cases ht)
    | str hc hg hend => exact fun t ht => (by cases ht; rfl)
    | num hc => exact fun t ht => (by cases ht; rfl)
    | ident hc => exact fun t ht => (by cases ht; rfl)
    | unexpected hc h4 h5 => exact fun t ht => (by cases ht)
  have hne : ∀ t, o.tok = some t → t.Lexeme ≠ [] := fun t ht => by
    rw [hlex t ht]; exact take_succ_ne_nil c r _ hused
  refine ⟨hlex, ?_, ?_⟩
  · intro t ht
    refine ⟨hne t ht, not_skipped_at ?_⟩
    cases stepL_shape kw ln c r o h with
    | punct ty hc =>
      have := punctType_byte hc
      left
      simp only [List.mem_cons, List.mem_singleton, List.not_mem_nil, or_false] at this ⊢
      omega
    | op1 ty1 ty2 hc hn =>
      have := operatorTypes_byte hc
      left
      simp only [List.mem_cons, List.mem_singleton, List.not_mem_nil, or_false] at this ⊢
      omega
    | op2 ty1 ty2 hc hn =>
      have := operatorTypes_byte hc
      left
      simp only [List.mem_cons, List.mem_singleton, List.not_mem_nil, or_false] at this ⊢
      omega
    | slash hc hn => exact Or.inr (Or.inl ⟨hc, hn⟩)
    | comment hc hn => cases ht
    | blank hc => cases ht
    | newline hc => cases ht
    | unterminated hc hg hend => cases ht
    | str hc hg hend =>
      refine Or.inr (Or.inr (Or.inl ⟨hc, fun hall => hend ?_⟩))
      have : r.takeWhile isNewline = r :=
        List.takeWhile_eq_self_iff.mpr (fun b hb => by simp [isNewline, hall b hb])
      rw [this]
      simp
    | num hc => exact Or.inr (Or.inr (Or.inr (Or.inl hc)))
    | ident hc => exact Or.inr (Or.inr (Or.inr (Or.inr hc)))
    | unexpected hc h4 h5 => cases ht
  · intro hnone
    cases stepL_shape kw ln c r o h with
    | punct ty hc => cases hnone
    | op1 ty1 ty2 hc hn => cases hnone
    | op2 ty1 ty2 hc hn => cases hnone
    | slash hc hn => cases hnone
    | comment hc hn =>
      refine Or.inr (Or.inl ?_)
      cases r with
      | nil => simp at hn
      | cons d r2 =>
        have hd : d = 47 := by simpa using hn
        subst hd
        subst hc
        have hk : 2 + (r2.takeWhile notNewline).length = (r2.takeWhile notNewline).length + 1 + 1 := by
          omega
        refine ⟨r2.takeWhile notNewline, ?_, ?_, ?_⟩
        · simp only [skipStep, List.drop_succ_cons, List.drop_zero]
          rw [hk]
          simp only [List.take_succ_cons, take_length_takeWhile]
        · intro b hb
          have := List.mem_takeWhile_imp hb
          simpa [notNewline] using this
        · simp only [skipStep, List.drop_succ_cons, List.drop_zero]
          rw [hk]
          simp only [List.drop_succ_cons, drop_length_takeWhile]
          exact dropWhile_notNewline_head r2
    | blank hc =>
      exact Or.inl ⟨c, by simp [skipStep], by rcases hc with h | h | h <;> simp [h]⟩
    | newline hc => exact Or.inl ⟨c, by simp [skipStep], by simp [hc]⟩
    | unterminated hc hg hend =>
      refine Or.inr (Or.inr (Or.inr ?_))
      have hk : 1 + (r.takeWhile isNewline).length = (r.takeWhile isNewline).length + 1 := by
        omega
      refine ⟨r.takeWhile isNewline, ?_, ?_, ?_⟩
      · simp only
        rw [hk]
        simp only [List.take_succ_cons, take_length_takeWhile, hc]
      · intro b hb
        have := List.mem_takeWhile_imp hb
        simpa [isNewline] using this
      · simp only
        rw [hk]
        simpa using hend
    | str hc hg hend => cases hnone
    | num hc => cases hnone
    | ident hc => cases hnone
    | unexpected hc h4 h5 => exact Or.inr (Or.inr (Or.inl ⟨c, by simp, hc, h4, h5⟩))

/-- A completed scan lays the text out: the skipped spans and the lexemes of
the tokens, each token on the line of the end of its lexeme. -/
theorem Lex_layout {kw : Keywords} {ln : Nat} {rest : List Nat} {ts : List Token}
    {ln' : Nat} {cs : List Call} (hL : Lex kw ln rest ts ln' cs) :
    ∀ before : List Nat, ln = 1 + before.count 10 →
      ∃ pts, Layout IsSkipped before rest pts ∧ pts.map Prod.snd = ts ∧
        ∀ p ∈ pts, p.2.Line = 1 + p.1.count 10 + p.2.Lexeme.count 10 ∧
          (p.2.Lexeme.count 10 ≠ 0 → p.2.Typ = TokenType.STRING) := by
  induction hL with
  | done ln => exact fun before _ => ⟨[], Layout.done _, rfl, fun p hp => by cases hp⟩
  | step ln c r o ts ln' cs ho _ ih =>
    intro before hln
    obtain ⟨h1, h2, h3⟩ := stepL_span kw ln c r o ho
    have hline := stepL_line kw ln c r o ho
    have hsplit : c :: r = (c :: r).take o.used ++ (c :: r).drop o.used :=
      (List.take_append_drop _ _).symm
    cases ht : o.tok with
    | none =>
      obtain ⟨pts, hP, hmap, hall⟩ := ih (before ++ (c :: r).take o.used)
        (by rw [List.count_append]; omega)
      refine ⟨pts, ?_, by simp [hmap], hall⟩
      exact Layout.skip before _ _ _ pts hsplit (h3 ht) hP
    | some t =>
      obtain ⟨htl, hty⟩ := stepL_token_line kw ln c r o t ho ht
      obtain ⟨hne, hno⟩ := h2 t ht
      obtain ⟨pts, hP, hmap, hall⟩ := ih (before ++ t.Lexeme)
        (by rw [List.count_append, h1 t ht]; omega)
      refine ⟨(before, t) :: pts, ?_, by simp [hmap], ?_⟩
      · refine Layout.token before t _ _ pts ?_ hne hno hP
        rw [h1 t ht]
        exact hsplit
      · intro p hp
        rcases List.mem_cons.mp hp with rfl | hp'
        · rw [h1 t ht] at *
          refine ⟨by simp only; omega, fun hne' => ?_⟩
          rcases hty with hs | hs
          · exact hs
          · simp only at hne'
            omega
        · exact hall p hp'
/-! ### The layout is strict

Three examples: a quote that is followed by more than newlines is not skipped,
a comment is not cut short to make room for a lexeme, and a lexeme is not laid
inside a comment when it also occurs before it. -/

theorem Layout_quote_pair_not_skipped :
    ¬ ∃ pts, Layout IsSkipped [] [34, 34] pts ∧ pts.map Prod.snd = [] := by
  rintro ⟨pts, hP, hmap⟩
  have hpts : pts = [] := by simpa using hmap
  subst hpts
  generalize hx : ([34, 34] : List Nat) = x at hP
  cases hP with
  | done _ => cases hx
  | skip _ sp rest _ _ hsrc hsp _ =>
    rw [hsrc] at hx
    rcases IsSkipped_cons hsp hx with k | ⟨k, _⟩ | ⟨k, _⟩ | ⟨_, k⟩
    · omega
    · omega
    · simp at k
    · have := k 34 (by simp)
      omega

theorem Layout_comment_not_cut (t : Token) :
    ¬ ∃ pts, Layout IsSkipped [] [47, 47, 40] pts ∧ pts.map Prod.snd = [t] := by
  rintro ⟨pts, hP, hmap⟩
  have h3 : IsSkipped [47, 47, 40] [] := Or.inr (Or.inl ⟨[40], rfl, by simp, Or.inl rfl⟩)
  generalize hx : ([47, 47, 40] : List Nat) = x at hP
  cases hP with
  | done _ => cases hx
  | skip _ sp rest _ _ hsrc hsp h2 =>
    subst hx
    obtain ⟨rfl, rfl⟩ := IsSkipped_unique hsp h3 (by rw [← hsrc]; rfl)
    generalize hy : ([] : List Nat) = y at h2
    cases h2 with
    | done _ => simp at hmap
    | skip _ sp rest _ _ hsrc hsp _ =>
      have := IsSkipped_ne_nil hsp
      subst hy
      cases sp with
      | nil => exact this rfl
      | cons a l => cases hsrc
    | token _ t' rest _ pts2 hsrc hne _ _ =>
      subst hy
      cases hl : t'.Lexeme with
      | nil => exact hne hl
      | cons a l => rw [hl] at hsrc; cases hsrc
  | token _ t' rest _ pts2 hsrc hne hno _ =>
    subst hx
    exact hno [47, 47, 40] [] rfl h3

theorem Layout_string_before_comment (t : Token) (ht : t.Lexeme = [34, 34])
    (pts : List (List Nat × Token))
    (hP : Layout IsSkipped [] [34, 34, 10, 47, 47, 34, 34] pts) (hmap : pts.map Prod.snd = [t]) :
    pts = [([], t)] := by
  have h0 : Layout IsSkipped [] [34, 34, 10, 47, 47, 34, 34] [([], t)] := by
    refine Layout.token [] t [10, 47, 47, 34, 34] _ [] (by rw [ht]; rfl) (by rw [ht]; simp)
      (not_skipped_at ?_) ?_
    · exact Or.inr (Or.inr (Or.inl ⟨rfl, fun h => absurd (h 34 (by simp)) (by decide)⟩))
    · refine Layout.skip _ [10] [47, 47, 34, 34] _ [] rfl (Or.inl ⟨10, rfl, by simp⟩) ?_
      refine Layout.skip _ [47, 47, 34, 34] [] _ [] rfl ?_ (Layout.done _)
      exact Or.inr (Or.inl ⟨[34, 34], rfl, by simp, Or.inl rfl⟩)
  exact (Layout_unique h0 pts hP (by rw [hmap]; rfl)).symm

/-- C6 (counterexample): the scan of the one-byte source `@` completes with
the single `EOF` token, yet `@` is not made of whitespace bytes and `//`
comments: the source has no layout into such spans and the lexemes of the
tokens before `EOF`. -/
theorem reconstruction_fails_on_at_sign :
    ∃ toks s cs, ScanTokens (fun _ => none) 1 (New (bytes "@")) = Res.ok (toks, s, cs) ∧
      ¬ ∃ pts, Layout IsBlankOrComment [] (bytes "@") pts ∧
        pts.map Prod.snd = toks.dropLast := by
  refine ⟨[eofToken 1], _, _, rfl, ?_⟩
  rintro ⟨pts, hP, hmap⟩
  have hpts : pts = [] := by simpa using hmap
  subst hpts
  generalize hx : bytes "@" = x at hP
  cases hP with
  | done _ => cases hx
  | skip _ sp rest _ _ hsrc hsp _ =>
    rw [hsrc] at hx
    rcases hsp with ⟨c, rfl, hc⟩ | ⟨t, rfl, _, _⟩
    · have h64 : c = 64 := by
        have := congrArg List.head? hx
        simpa [bytes] using this.symm
      omega
    · have := congrArg List.head? hx
      simp [bytes] at this

/-- C6 (amended): for every source whose scan completes, the source is made, in
order and without gap or overlap, of the lexemes of the tokens before the final
`EOF` token and of skipped spans, each of them a whitespace byte, a `//` comment
running to the next newline or to the end of the input, a byte that starts no
token, or an opening quote followed only by newlines up to the end of the
input; no lexeme starts where such a span starts. -/
theorem source_is_lexemes_and_skipped_spans (kw : Keywords) (src : List Nat) (fuel : Nat)
    (toks : List Token) (s : Scanner) (cs : List Call)
    (h : ScanTokens kw fuel (New src) = Res.ok (toks, s, cs)) :
    ∃ pts, Layout IsSkipped [] src pts ∧ pts.map Prod.snd = toks.dropLast := by
  obtain ⟨ts, ln', hL, rfl⟩ := Lex_of_ScanTokens h
  obtain ⟨pts, hP, hmap, _⟩ := Lex_layout hL [] (by simp)
  exact ⟨pts, hP, by simpa using hmap⟩

/-- Witness for C6 (amended): the source `@`. -/
theorem source_is_lexemes_and_skipped_spans_witness :
    ∃ pts, Layout IsSkipped [] (bytes "@") pts ∧ pts.map Prod.snd = [eofToken 1].dropLast :=
  source_is_lexemes_and_skipped_spans (fun _ => none) (bytes "@") 1 [eofToken 1]
    { source := bytes "@", tokens := [eofToken 1], start := 0, current := 1, line := 1 }
    [(1, "Unexpected character.")] rfl

theorem newlineString_layout :
    Layout IsSkipped [] [34, 10, 34]
      [([], { Typ := TokenType.STRING, Lexeme := [34, 10, 34], Literal := some [Value.str [10]],
              Line := 2 })] := by
  refine Layout.token [] _ [] _ [] rfl (by simp) (not_skipped_at ?_) (Layout.done _)
  exact Or.inr (Or.inr (Or.inl ⟨rfl, fun h => absurd (h 34 (by simp)) (by decide)⟩))

/-- C13 (counterexample): the scan of the source made of a double quote, a
newline and a double quote completes with one `STRING` token on line 2.  In
the layout of the source the token starts on line 1, and no layout gives every
token before `EOF` the number of the line on which it starts. -/
theorem multiline_string_not_on_start_line :
    ScanTokens (fun _ => none) 3 (New [34, 10, 34]) =
      Res.ok (newlineStringTokens, newlineStringState, []) ∧
    (∃ pts, Layout IsSkipped [] [34, 10, 34] pts ∧
      pts.map Prod.snd = newlineStringTokens.dropLast ∧
      ∃ p ∈ pts, p.2.Line = 2 ∧ 1 + p.1.count 10 = 1) ∧
    ¬ ∃ pts, Layout IsSkipped [] [34, 10, 34] pts ∧
      pts.map Prod.snd = newlineStringTokens.dropLast ∧
      ∀ p ∈ pts, p.2.Line = 1 + p.1.count 10 := by
  refine ⟨by decide!, ⟨_, newlineString_layout, rfl, _, List.mem_cons_self _ _, rfl, rfl⟩, ?_⟩
  rintro ⟨pts, hP, hmap, hline⟩
  have := Layout_unique newlineString_layout pts hP (by rw [hmap]; rfl)
  subst this
  have := hline _ (List.mem_cons_self _ _)
  simp at this

/-- C13 (amended): for every source whose scan completes, the source has a
layout into skipped spans and the lexemes of the tokens before `EOF`, and in
every such layout a token whose lexeme contains no newline has the number of
the line on which it starts, and a token whose lexeme contains newlines is a
`STRING` token whose line is the line on which it starts plus the number of
newlines in its lexeme. -/
theorem token_line_is_start_line_unless_multiline (kw : Keywords) (src : List Nat) (fuel : Nat)
    (toks : List Token) (s : Scanner) (cs : List Call)
    (h : ScanTokens kw fuel (New src) = Res.ok (toks, s, cs)) :
    (∃ pts, Layout IsSkipped [] src pts ∧ pts.map Prod.snd = toks.dropLast) ∧
    ∀ pts, Layout IsSkipped [] src pts → pts.map Prod.snd = toks.dropLast →
      ∀ p ∈ pts, (p.2.Lexeme.count 10 = 0 → p.2.Line = 1 + p.1.count 10) ∧
        (p.2.Lexeme.count 10 ≠ 0 → p.2.Typ = TokenType.STRING ∧
          p.2.Line = 1 + p.1.count 10 + p.2.Lexeme.count 10) := by
  obtain ⟨ts, ln', hL, rfl⟩ := Lex_of_ScanTokens h
  obtain ⟨pts0, hP0, hmap0, hall⟩ := Lex_layout hL [] (by simp)
  have hmap1 : pts0.map Prod.snd = (ts ++ [eofToken ln']).dropLast := by simpa using hmap0
  refine ⟨⟨pts0, hP0, hmap1⟩, fun pts hP hmap p hp => ?_⟩
  have := Layout_unique hP0 pts hP (by rw [hmap1, hmap])
  subst this
  obtain ⟨h1, h2⟩ := hall p hp
  exact ⟨fun h0 => by omega, fun hne => ⟨h2 hne, h1⟩⟩

/-- C14: for every source whose scan completes, the source has a layout into
skipped spans and the lexemes of the tokens before `EOF`, and in every such
layout the line of a token is 1 plus the number of newline bytes in the source
before the end of its lexeme, that is the line of its first byte plus the
number of newlines in its lexeme. -/
theorem token_line_is_line_at_emission (kw : Keywords) (src : List Nat) (fuel : Nat)
    (toks : List Token) (s : Scanner) (cs : List Call)
    (h : ScanTokens kw fuel (New src) = Res.ok (toks, s, cs)) :
    (∃ pts, Layout IsSkipped [] src pts ∧ pts.map Prod.snd = toks.dropLast) ∧
    ∀ pts, Layout IsSkipped [] src pts → pts.map Prod.snd = toks.dropLast →
      ∀ p ∈ pts, p.2.Line = 1 + (p.1 ++ p.2.Lexeme).count 10 ∧
        p.2.Line = (1 + p.1.count 10) + p.2.Lexeme.count 10 := by
  obtain ⟨ts, ln', hL, rfl⟩ := Lex_of_ScanTokens h
  obtain ⟨pts0, hP0, hmap0, hall⟩ := Lex_layout hL [] (by simp)
  have hmap1 : pts0.map Prod.snd = (ts ++ [eofToken ln']).dropLast := by simpa using hmap0
  refine ⟨⟨pts0, hP0, hmap1⟩, fun pts hP hmap p hp => ?_⟩
  have := Layout_unique hP0 pts hP (by rw [hmap1, hmap])
  subst this
  obtain ⟨h1, _⟩ := hall p hp
  exact ⟨by rw [List.count_append]; omega, h1⟩

/-- Witness for C13 (amended): the source made of a double quote, a newline
and a double quote. -/
theorem token_line_is_start_line_unless_multiline_witness :
    (∃ pts, Layout IsSkipped [] [34, 10, 34] pts ∧
      pts.map Prod.snd = newlineStringTokens.dropLast) ∧
    ∀ pts, Layout IsSkipped [] [34, 10, 34] pts →
      pts.map Prod.snd = newlineStringTokens.dropLast →
      ∀ p ∈ pts, (p.2.Lexeme.count 10 = 0 → p.2.Line = 1 + p.1.count 10) ∧
        (p.2.Lexeme.count 10 ≠ 0 → p.2.Typ = TokenType.STRING ∧
          p.2.Line = 1 + p.1.count 10 + p.2.Lexeme.count 10) :=
  token_line_is_start_line_unless_multiline (fun _ => none) [34, 10, 34] 3 newlineStringTokens
    newlineStringState [] (by decide!)

/-- Witness for C14: the source made of a double quote, a newline and a double
quote, whose `STRING` token is on line 2. -/
theorem token_line_is_line_at_emission_witness :
    (∃ pts, Layout IsSkipped [] [34, 10, 34] pts ∧
      pts.map Prod.snd = newlineStringTokens.dropLast) ∧
    ∀ pts, Layout IsSkipped [] [34, 10, 34] pts →
      pts.map Prod.snd = newlineStringTokens.dropLast →
      ∀ p ∈ pts, p.2.Line = 1 + (p.1 ++ p.2.Lexeme).count 10 ∧
        p.2.Line = (1 + p.1.count 10) + p.2.Lexeme.count 10 :=
  token_line_is_line_at_emission (fun _ => none) [34, 10, 34] 3 newlineStringTokens
    newlineStringState [] (by decide!)

/-! ## Categories and literals of the tokens -/

theorem punctType_operatorCategory {c : Nat} {ty : TokenType} (hc : punctType c = some ty) :
    ty ∈ operatorCategories := by
  have := punctType_mem hc
  cases ty <;> simp [operatorCategories] at this ⊢

theorem operatorTypes_operatorCategory {c : Nat} {ty1 ty2 : TokenType}
    (hc : operatorTypes c = some (ty1, ty2)) :
    ty1 ∈ operatorCategories ∧ ty2 ∈ operatorCategories := by
  have := operatorTypes_mem hc
  simp only [List.mem_cons, Prod.mk.injEq, List.mem_singleton, List.mem_nil_iff, or_false] at this
  rcases this with ⟨rfl, rfl⟩ | ⟨rfl, rfl⟩ | ⟨rfl, rfl⟩ | ⟨rfl, rfl⟩ <;>
    simp [operatorCategories]

theorem stepL_token_kind (kw : Keywords) (ln c : Nat) (r : List Nat) (o : StepOut) (t : Token)
    (h : stepL kw ln c r = some o) (ht : o.tok = some t) :
    (t.Typ ∈ operatorCategories ∧ t.Literal = some []) ∨
    (t.Typ = TokenType.STRING ∧
      ∃ text, t.Literal = some [Value.str text] ∧ ∀ b ∈ text, b = 10) ∨
    (t.Typ = TokenType.NUMBER ∧ t.Literal = some [Value.number (ParseFloat t.Lexeme)]) ∨
    ((t.Typ = TokenType.IDENTIFIER ∨ ∃ w, kw w = some t.Typ) ∧ t.Literal = some []) := by
  cases stepL_shape kw ln c r o h with
  | punct ty hc => cases ht; exact Or.inl ⟨punctType_operatorCategory hc, rfl⟩
  | op1 ty1 ty2 hc hn => cases ht; exact Or.inl ⟨(operatorTypes_operatorCategory hc).1, rfl⟩
  | op2 ty1 ty2 hc hn => cases ht; exact Or.inl ⟨(operatorTypes_operatorCategory hc).2, rfl⟩
  | slash hc hn => cases ht; exact Or.inl ⟨by simp [plainStep, operatorCategories], rfl⟩
  | comment hc hn => cases ht
  | blank hc => cases ht
  | newline hc => cases ht
  | unterminated hc hg hend => cases ht
  | str hc hg hend =>
    cases ht
    refine Or.inr (Or.inl ⟨rfl, _, rfl, ?_⟩)
    rw [take_length_takeWhile]
    intro b hb
    have := List.mem_takeWhile_imp hb
    simpa [isNewline] using this
  | num hc => cases ht; exact Or.inr (Or.inr (Or.inl ⟨rfl, rfl⟩))
  | ident hc =>
    cases ht
    refine Or.inr (Or.inr (Or.inr ⟨?_, rfl⟩))
    simp only [plainStep]
    cases hk : kw ((c :: r).take (1 + (r.takeWhile isAlphaNumeric).length)) with
    | none => exact Or.inl rfl
    | some ty => exact Or.inr ⟨_, hk⟩
  | unexpected hc h4 h5 => cases ht

/-- C15 (counterexample): the scan of the source `(` returns a `LEFT_PAREN`
token, whose category is neither `STRING` nor `NUMBER`, and whose `Literal` is
not nil: it is the empty variadic slice that `addToken` stores. -/
theorem paren_token_literal_not_nil :
    ∃ toks s cs, ScanTokens (fun _ => none) 1 (New [40]) = Res.ok (toks, s, cs) ∧
      ∃ t ∈ toks, t.Typ ≠ TokenType.STRING ∧ t.Typ ≠ TokenType.NUMBER ∧ t.Literal ≠ none :=
  ⟨parenTokens, parenState, [], by decide,
    { Typ := TokenType.LEFT_PAREN, Lexeme := [40], Literal := some [], Line := 1 },
    by decide, by decide, by decide, by decide⟩

/-- C15 (amended): when the keyword table maps no word to `STRING` or
`NUMBER`, the tokens of a completed scan are tokens emitted by `addToken`
followed by the `EOF` token; a token emitted by `addToken` holds a literal
value (as the single element of its variadic slice) if and only if its
category is `STRING` or `NUMBER`, and otherwise its `Literal` is the empty
slice; the `Literal` of the final `EOF` token is nil. -/
theorem literal_value_iff_string_or_number (kw : Keywords)
    (hkw : ∀ w, kw w ≠ some TokenType.STRING ∧ kw w ≠ some TokenType.NUMBER)
    (src : List Nat) (fuel : Nat) (toks : List Token) (s : Scanner) (cs : List Call)
    (h : ScanTokens kw fuel (New src) = Res.ok (toks, s, cs)) :
    ∃ ts ln, toks = ts ++ [eofToken ln] ∧ (eofToken ln).Literal = none ∧
      ∀ t ∈ ts, ((t.Typ = TokenType.STRING ∨ t.Typ = TokenType.NUMBER) →
          ∃ v, t.Literal = some [v]) ∧
        (¬ (t.Typ = TokenType.STRING ∨ t.Typ = TokenType.NUMBER) → t.Literal = some []) := by
  obtain ⟨ts, ln', hL, rfl⟩ := Lex_of_ScanTokens h
  refine ⟨ts, ln', rfl, rfl, ?_⟩
  refine Lex_forall hL _ (fun ln c r o t ho hto => ?_)
  rcases stepL_token_kind kw ln c r o t ho hto with ⟨h1, h2⟩ | ⟨h1, text, h2, _⟩ | ⟨h1, h2⟩ |
    ⟨h1, h2⟩
  · refine ⟨fun hsn => ?_, fun _ => h2⟩
    rcases hsn with hs | hs <;> rw [hs] at h1 <;> simp [operatorCategories] at h1
  · exact ⟨fun _ => ⟨_, h2⟩, fun hn => absurd (Or.inl h1) hn⟩
  · exact ⟨fun _ => ⟨_, h2⟩, fun hn => absurd (Or.inr h1) hn⟩
  · refine ⟨fun hsn => ?_, fun _ => h2⟩
    rcases h1 with h1 | ⟨w, hw⟩
    · rcases hsn with hs | hs <;> rw [hs] at h1 <;> cases h1
    · rcases hsn with hs | hs
      · rw [hs] at hw; exact absurd hw (hkw w).1
      · rw [hs] at hw; exact absurd hw (hkw w).2

/-- Witness for C15 (amended): the source `(`. -/
theorem literal_value_iff_string_or_number_witness :
    ∃ ts ln, parenTokens = ts ++ [eofToken ln] ∧ (eofToken ln).Literal = none ∧
      ∀ t ∈ ts, ((t.Typ = TokenType.STRING ∨ t.Typ = TokenType.NUMBER) →
          ∃ v, t.Literal = some [v]) ∧
        (¬ (t.Typ = TokenType.STRING ∨ t.Typ = TokenType.NUMBER) → t.Literal = some []) :=
  literal_value_iff_string_or_number (fun _ => none) (fun _ => by simp) [40] 1 parenTokens
    parenState [] (by decide)

/-- C16: when the keyword table maps no word to the `EOF` category, the token
sequence of a completed scan on a fresh scanner is a sequence of tokens of
categories other than `EOF`, each with a non-empty lexeme, followed by one
`EOF` token: the `EOF` category occurs exactly once, at the last position. -/
theorem eof_exactly_once_at_end (kw : Keywords) (hkw : ∀ w, kw w ≠ some TokenType.EOF)
    (src : List Nat) (fuel : Nat) (toks : List Token) (s : Scanner) (cs : List Call)
    (h : ScanTokens kw fuel (New src) = Res.ok (toks, s, cs)) :
    (∃ ts ln, toks = ts ++ [eofToken ln] ∧
      ∀ t ∈ ts, t.Typ ≠ TokenType.EOF ∧ t.Lexeme ≠ []) ∧
    toks.countP (fun t => decide (t.Typ = TokenType.EOF)) = 1 := by
  obtain ⟨ts, ln', hL, rfl⟩ := Lex_of_ScanTokens h
  have hall : ∀ t ∈ ts, t.Typ ≠ TokenType.EOF ∧ t.Lexeme ≠ [] := by
    refine Lex_forall hL _ (fun ln c r o t ho hto => ⟨?_, ?_⟩)
    · rcases stepL_token_kind kw ln c r o t ho hto with ⟨h1, _⟩ | ⟨h1, _⟩ | ⟨h1, _⟩ | ⟨h1, _⟩
      · intro he
        rw [he] at h1
        simp [operatorCategories] at h1
      · rw [h1]; decide
      · rw [h1]; decide
      · rcases h1 with h1 | ⟨w, hw⟩
        · rw [h1]; decide
        · intro he
          rw [he] at hw
          exact hkw w hw
    · rw [(stepL_span kw ln c r o ho).1 t hto]
      have := (stepL_used kw ln c r o ho).1
      intro h0
      have hl := congrArg List.length h0
      simp [List.length_take] at hl
      omega
  refine ⟨⟨ts, ln', rfl, hall⟩, ?_⟩
  rw [List.countP_append, List.countP_eq_zero.mpr (fun t ht => by simpa using (hall t ht).1)]
  rfl

/-- Witness for C16: the source `(`. -/
theorem eof_exactly_once_at_end_witness :
    (∃ ts ln, parenTokens = ts ++ [eofToken ln] ∧
      ∀ t ∈ ts, t.Typ ≠ TokenType.EOF ∧ t.Lexeme ≠ []) ∧
    parenTokens.countP (fun t => decide (t.Typ = TokenType.EOF)) = 1 :=
  eof_exactly_once_at_end (fun _ => none) (fun _ => by simp) [40] 1 parenTokens parenState []
    (by decide)

/-! ## A second call of `ScanTokens` -/

theorem ScanTokens_post {kw : Keywords} {src : List Nat} {fuel : Nat} {toks : List Token}
    {s : Scanner} {cs : List Call}
    (h : ScanTokens kw fuel (New src) = Res.ok (toks, s, cs)) :
    s.tokens = toks ∧ s.source = src ∧ s.current = src.length ∧ s.line = 1 + src.count 10 := by
  rw [ScanTokens] at h
  obtain ⟨⟨s1, c1⟩, h1, h2⟩ := Res.bind_eq_ok h
  simp only [Res.pure_eq, Res.ok.injEq, Prod.mk.injEq] at h2
  obtain ⟨rfl, rfl, rfl⟩ := h2
  obtain ⟨ts, hL, _, hsrc, hcur⟩ := Lex_of_scanLoop kw fuel [] src (New src) s1 c1 rfl rfl h1
  have hline := Lex_line hL
  exact ⟨rfl, hsrc, by rw [hcur]; rfl, hline⟩

theorem ScanTokens_at_end (kw : Keywords) (fuel : Nat) (s : Scanner)
    (hend : s.current = s.source.length) :
    ScanTokens kw fuel s =
      Res.ok (s.tokens ++ [eofToken s.line],
        { s with tokens := s.tokens ++ [eofToken s.line] }, []) := by
  rw [ScanTokens, scanLoop.eq_def]
  simp [isAtEnd, hend, eofToken]

/-- C17 (counterexample): after the scan of the source `(` has returned
`LEFT_PAREN`, `EOF`, a second call of `ScanTokens` on the same scanner returns
a different token sequence. -/
theorem second_scan_differs_on_paren :
    ∃ toks s cs, ScanTokens (fun _ => none) 1 (New [40]) = Res.ok (toks, s, cs) ∧
      ∃ toks2 s2 cs2, ScanTokens (fun _ => none) 1 s = Res.ok (toks2, s2, cs2) ∧
        toks2 ≠ toks :=
  ⟨parenTokens, parenState, [], by decide,
    parenTokens ++ [eofToken 1], { parenState with tokens := parenTokens ++ [eofToken 1] }, [],
    by decide, by decide⟩

/-- C17 (amended): for every source whose scan completes, a second call of
`ScanTokens` on the same scanner (with any fuel) returns the token sequence of
the first call followed by one more `EOF` token on the last line, and makes no
`onError` call: the scanner keeps its cursors and its tokens across calls. -/
theorem second_scan_appends_eof (kw : Keywords) (src : List Nat) (fuel : Nat)
    (toks : List Token) (s : Scanner) (cs : List Call)
    (h : ScanTokens kw fuel (New src) = Res.ok (toks, s, cs)) :
    ∀ fuel2, ∃ s2, ScanTokens kw fuel2 s =
      Res.ok (toks ++ [eofToken (1 + src.count 10)], s2, []) := by
  intro fuel2
  obtain ⟨h1, h2, h3, h4⟩ := ScanTokens_post h
  refine ⟨{ s with tokens := s.tokens ++ [eofToken s.line] }, ?_⟩
  rw [ScanTokens_at_end kw fuel2 s (by rw [h3, h2]), h1, h4]

/-- Witness for C17 (amended): the source `(`. -/
theorem second_scan_appends_eof_witness :
    ∃ s2, ScanTokens (fun _ => none) 0 parenState =
      Res.ok (parenTokens ++ [eofToken (1 + ([40] : List Nat).count 10)], s2, []) :=
  second_scan_appends_eof (fun _ => none) [40] 1 parenTokens parenState [] (by decide) 0

/-! ## Operators of one or two characters -/

theorem Lex_cons_inv {kw : Keywords} {ln c : Nat} {r : List Nat} {ts : List Token}
    {ln' : Nat} {cs : List Call} (hL : Lex kw ln (c :: r) ts ln' cs) :
    ∃ o ts' cs', stepL kw ln c r = some o ∧ Lex kw o.line ((c :: r).drop o.used) ts' ln' cs' ∧
      ts = o.tok.toList ++ ts' ∧ cs = o.calls ++ cs' := by
  cases hL with
  | step _ _ _ o ts' _ cs' ho hrest => exact ⟨o, ts', cs', ho, hrest, rfl, rfl⟩

/-- C18: for `c` one of `!`, `=`, `<`, `>` and a text `rest` such that the
scan of `c` followed by `rest` completes: when `rest` begins with `=`, the
first token is the compound token with the two-byte lexeme `c=` (and it is
followed by exactly the tokens of the scan of what follows that `=`);
otherwise the first token is the single-character token with lexeme `c`,
followed by exactly the tokens of the scan of `rest` alone. -/
theorem operator_disambiguation (kw : Keywords) (c : Nat) (ty1 ty2 : TokenType)
    (hc : (c, ty1, ty2) ∈ [(33, TokenType.BANG, TokenType.BANG_EQUAL),
      (61, TokenType.EQUAL, TokenType.EQUAL_EQUAL), (60, TokenType.LESS, TokenType.LESS_EQUAL),
      (62, TokenType.GREATER, TokenType.GREATER_EQUAL)])
    (rest : List Nat) (fuel : Nat) (toks : List Token) (s : Scanner) (cs : List Call)
    (h : ScanTokens kw fuel (New (c :: rest)) = Res.ok (toks, s, cs)) :
    (rest.head? = some 61 → ∃ toksR,
      (∀ fuel', (rest.drop 1).length ≤ fuel' →
        ∃ s', ScanTokens kw fuel' (New (rest.drop 1)) = Res.ok (toksR, s', cs)) ∧
      toks = { Typ := ty2, Lexeme := [c, 61], Literal := some [], Line := 1 } :: toksR) ∧
    (¬ rest.head? = some 61 → ∃ toksR,
      (∀ fuel', rest.length ≤ fuel' →
        ∃ s', ScanTokens kw fuel' (New rest) = Res.ok (toksR, s', cs)) ∧
      toks = { Typ := ty1, Lexeme := [c], Literal := some [], Line := 1 } :: toksR) := by
  have hop : operatorTypes c = some (ty1, ty2) := by
    simp only [List.mem_cons, Prod.mk.injEq, List.mem_singleton, List.mem_nil_iff, or_false]
      at hc
    rcases hc with ⟨rfl, rfl, rfl⟩ | ⟨rfl, rfl, rfl⟩ | ⟨rfl, rfl, rfl⟩ | ⟨rfl, rfl, rfl⟩ <;> rfl
  obtain ⟨ts, ln', hL, rfl⟩ := Lex_of_ScanTokens h
  obtain ⟨o, ts', cs', ho, hrest, rfl, rfl⟩ := Lex_cons_inv hL
  rw [stepL_operator kw 1 c rest ty1 ty2 hop] at ho
  constructor
  · intro h61
    rw [if_pos h61] at ho
    cases ho
    cases rest with
    | nil => simp at h61
    | cons d r2 =>
      have hd : d = 61 := by simpa using h61
      subst hd
      refine ⟨ts' ++ [eofToken ln'], fun fuel' hf => ?_, by simp [plainStep]⟩
      have hrest' : Lex kw 1 r2 ts' ln' cs' := by simpa [plainStep] using hrest
      simpa [plainStep] using ScanTokens_of_Lex hrest' fuel' (by simpa using hf)
  · intro h61
    rw [if_neg h61] at ho
    cases ho
    refine ⟨ts' ++ [eofToken ln'], fun fuel' hf => ?_, by simp [plainStep]⟩
    have hrest' : Lex kw 1 rest ts' ln' cs' := by simpa [plainStep] using hrest
    simpa [plainStep] using ScanTokens_of_Lex hrest' fuel' hf

/-- Witness for C18: the source `===` yields `EQUAL_EQUAL`, `EQUAL`, `EOF`:
the first token is `EQUAL_EQUAL` with lexeme `==`, followed by the tokens of
the scan of the remaining `=`. -/
theorem operator_disambiguation_witness :
    ∃ toksR,
      (∀ fuel', ([61] : List Nat).length ≤ fuel' →
        ∃ s', ScanTokens (fun _ => none) fuel' (New [61]) = Res.ok (toksR, s', [])) ∧
      tripleEqualTokens =
        { Typ := TokenType.EQUAL_EQUAL, Lexeme := [61, 61], Literal := some [], Line := 1 }
          :: toksR :=
  (operator_disambiguation (fun _ => none) 61 TokenType.EQUAL TokenType.EQUAL_EQUAL (by decide)
    [61, 61] 3 tripleEqualTokens tripleEqualState [] (by decide!)).1 rfl

/-! ## Termination on sources without a double quote -/

theorem Lex_total_without_quote (kw : Keywords) (n : Nat) : ∀ (rest : List Nat),
    rest.length ≤ n → 34 ∉ rest → ∀ ln, ∃ ts ln' cs, Lex kw ln rest ts ln' cs ∧
      ts.length ≤ rest.length := by
  induction n with
  | zero =>
    intro rest hlen _ ln
    have : rest = [] := List.length_eq_zero.mp (by omega)
    subst this
    exact ⟨[], ln, [], Lex.done ln, by simp⟩
  | succ n ih =>
    intro rest hlen hq ln
    cases rest with
    | nil => exact ⟨[], ln, [], Lex.done ln, by simp⟩
    | cons c r =>
      cases ho : stepL kw ln c r with
      | none =>
        have := (stepL_eq_none kw ln c r ho).1
        subst this
        exact absurd (List.mem_cons_self _ _) hq
      | some o =>
        obtain ⟨hu1, hu2⟩ := stepL_used kw ln c r o ho
        have hdl : ((c :: r).drop o.used).length = (c :: r).length - o.used :=
          List.length_drop _ _
        obtain ⟨ts, ln', cs, hL, hts⟩ := ih ((c :: r).drop o.used)
          (by rw [hdl]; simp only [List.length_cons] at hlen ⊢; omega)
          (fun hm => hq (List.mem_of_mem_drop hm)) o.line
        refine ⟨o.tok.toList ++ ts, ln', o.calls ++ cs, Lex.step ln c r o ts ln' cs ho hL, ?_⟩
        have htl : o.tok.toList.length ≤ 1 := by
          cases o.tok <;> simp
        rw [List.length_append]
        omega

/-- C19: for every source that contains no double-quote byte there are a token
sequence of at most `len(source) + 1` tokens and a list of `onError` calls that
`ScanTokens` returns with any fuel of at least `len(source)`; in particular
with fuel `len(source)`, that is with at most `len(source)` iterations of the
main loop (calls of `scanToken`) and of each run of the comment, number and
identifier loops. -/
theorem scan_without_quote_terminates (kw : Keywords) (src : List Nat) (hq : 34 ∉ src) :
    ∃ toks cs, toks.length ≤ src.length + 1 ∧
      ∀ fuel, src.length ≤ fuel → ∃ s, ScanTokens kw fuel (New src) = Res.ok (toks, s, cs) := by
  obtain ⟨ts, ln', cs, hL, hts⟩ := Lex_total_without_quote kw src.length src (Nat.le_refl _) hq 1
  exact ⟨ts ++ [eofToken ln'], cs, by simp; omega, fun fuel hf => ScanTokens_of_Lex hL fuel hf⟩

/-- Witness for C19: the source `var x = 10;`. -/
theorem scan_without_quote_terminates_witness :
    ∃ toks cs, toks.length ≤ (bytes "var x = 10;").length + 1 ∧
      ∀ fuel, (bytes "var x = 10;").length ≤ fuel →
        ∃ s, ScanTokens varKeywords fuel (New (bytes "var x = 10;")) = Res.ok (toks, s, cs) :=
  scan_without_quote_terminates varKeywords (bytes "var x = 10;") (by decide)

/-! ## String literals that get through the loop of `string` -/

/-- C20: in every completed scan of any source, a token of category `STRING`
either was emitted by `string`, and then its literal is a string made of
newline bytes only (possibly none), or holds no literal value at all, which
happens only for a word that the keyword table maps to `STRING`; no `STRING`
token has a literal with a byte other than newline. -/
theorem string_literals_are_newlines (kw : Keywords) (src : List Nat) (fuel : Nat)
    (toks : List Token) (s : Scanner) (cs : List Call)
    (h : ScanTokens kw fuel (New src) = Res.ok (toks, s, cs)) :
    ∀ t ∈ toks, t.Typ = TokenType.STRING →
      (∃ text, t.Literal = some [Value.str text] ∧ ∀ b ∈ text, b = 10) ∨
      (t.Literal = some [] ∧ ∃ w, kw w = some TokenType.STRING) := by
  obtain ⟨ts, ln', hL, rfl⟩ := Lex_of_ScanTokens h
  intro t ht hty
  rcases List.mem_append.mp ht with h1 | h1
  · refine Lex_forall hL
      (fun t => t.Typ = TokenType.STRING →
        (∃ text, t.Literal = some [Value.str text] ∧ ∀ b ∈ text, b = 10) ∨
        (t.Literal = some [] ∧ ∃ w, kw w = some TokenType.STRING))
      (fun ln c r o t ho hto hty => ?_) t h1 hty
    rcases stepL_token_kind kw ln c r o t ho hto with ⟨h2, _⟩ | ⟨_, text, h3, h4⟩ | ⟨h2, _⟩ |
      ⟨h2, h3⟩
    · rw [hty] at h2
      simp [operatorCategories] at h2
    · exact Or.inl ⟨text, h3, h4⟩
    · rw [hty] at h2
      cases h2
    · rcases h2 with h2 | ⟨w, hw⟩
      · rw [hty] at h2
        cases h2
      · rw [hty] at hw
        exact Or.inr ⟨h3, w, hw⟩
  · have : t = eofToken ln' := by simpa using h1
    rw [this] at hty
    cases hty

/-- Witness for C20: the `STRING` token of the source made of a double quote,
a newline and a double quote has the literal made of one newline. -/
theorem string_literals_are_newlines_witness :
    (∃ text, (some [Value.str [10]] : Option (List Value)) = some [Value.str text] ∧
        ∀ b ∈ text, b = 10) ∨
      ((some [Value.str [10]] : Option (List Value)) = some [] ∧
        ∃ w, (fun _ => none : Keywords) w = some TokenType.STRING) :=
  string_literals_are_newlines (fun _ => none) [34, 10, 34] 3 newlineStringTokens
    newlineStringState [] (by decide!)
    { Typ := TokenType.STRING, Lexeme := [34, 10, 34], Literal := some [Value.str [10]],
      Line := 2 }
    (by decide) rfl

end Glox
